import Mathlib

/-!
# Orthanc archive selection: identifier chains, selection tree, size policy

A shallow embedding of `OrthancServer/OrthancRestApi/OrthancRestArchive.cpp`:
the `ResourceIdentifiers` constructor, the `ArchiveIndex` selection tree
(`Add`, `Expand`, `Apply`) and `IsZip64Required`, followed by the properties
proved about them.

Conventions of the embedding:
* `std::string` is `String`; `std::map<std::string, ArchiveIndex*>` is an
  association list kept in increasing key order, a `NULL` value being `none`;
* a C++ exception is the `Except.error` outcome carrying the `ErrorCode`;
* `uint64_t` and `unsigned int` values are natural numbers, reduced modulo
  `2^64` and `2^32` where the arithmetic could wrap;
* the `ServerIndex` is a read-only snapshot: a record of lookup functions.
-/

namespace Orthanc

/-! ## Enumerations and external types -/

/-- The four enumerators of `ResourceType` that the source names (the
enumeration is declared outside the given sources). -/
inductive ResourceType where
  | Patient
  | Study
  | Series
  | Instance
deriving DecidableEq, Repr

/-- Modelled from the spec: the underlying integers of the enumerators
(declared outside the given sources), in the strict order
`Patient < Study < Series < Instance` that the source asserts (lines
154-156). Only the order is used. -/
def ResourceType.toNat : ResourceType → Nat
  | .Patient => 1
  | .Study => 2
  | .Series => 3
  | .Instance => 4

instance : LT ResourceType := ⟨fun a b => a.toNat < b.toNat⟩

instance : LE ResourceType := ⟨fun a b => a.toNat ≤ b.toNat⟩

instance (a b : ResourceType) : Decidable (a < b) :=
  inferInstanceAs (Decidable (a.toNat < b.toNat))

instance (a b : ResourceType) : Decidable (a ≤ b) :=
  inferInstanceAs (Decidable (a.toNat ≤ b.toNat))

/-- A value of the C++ type `ResourceType` as `LookupResourceType` may store
it in `level_`: one of the four enumerators, or some other value of the
underlying integer type (what the `default:` label of the constructor
catches). -/
inductive ResourceTypeValue where
  | enumerator (level : ResourceType)
  | other
deriving DecidableEq, Repr

/-- The error codes raised by the embedded code (`ErrorCode_UnknownResource`,
`ErrorCode_InternalError`). -/
inductive ErrorCode where
  | UnknownResource
  | InternalError
deriving DecidableEq, Repr

/-- Modelled from the spec: the `ResourceType` of the children of a resource
(`GetChildResourceType`, declared outside the given sources), "level = one
below current". Both callers (`Add`, `Expand`) reach it only on a node whose
level is not `Instance`; the value at `Instance` is never used by them. -/
def GetChildResourceType : ResourceType → ResourceType
  | .Patient => .Study
  | .Study => .Series
  | .Series => .Instance
  | .Instance => .Instance

/-- Modelled from the spec: the content kinds of `FileContentType` (declared
outside the given sources) that the source names. -/
inductive FileContentType where
  | Unknown
  | Dicom
  | DicomAsJson
deriving DecidableEq, Repr

/-- Modelled from the spec: the values of `CompressionType` (declared outside
the given sources). -/
inductive CompressionType where
  | None
  | ZlibWithSize
deriving DecidableEq, Repr

/-- Modelled from the spec: the content descriptor `FileInfo` (declared
outside the given sources): content address, content kind, compression and
uncompressed byte size (a `uint64_t`). -/
structure FileInfo where
  uuid_ : String
  contentType_ : FileContentType
  uncompressedSize_ : Nat
  compressionType_ : CompressionType
deriving DecidableEq, Repr

/-- Modelled from the spec: a DICOM tag (`DicomTag`, declared outside the given
sources), a pair of a group and an element number. -/
structure DicomTag where
  group : Nat
  element : Nat
deriving DecidableEq, Repr

/-- Modelled from the spec: a value of a `DicomMap` (`DicomValue`, declared
outside the given sources): null, binary, or a string with its content. -/
inductive DicomValue where
  | Null
  | Binary (content : String)
  | Text (content : String)
deriving DecidableEq, Repr

/-- Modelled from the spec: the tag map `DicomMap` (declared outside the given
sources); `none` is the `NULL` answer of `TestAndGetValue`. -/
abbrev DicomMap := DicomTag → Option DicomValue

/-- Modelled from the spec: the query capability consumed from the index
(`ServerIndex`, declared outside the given sources), as a read-only snapshot.
`LookupResourceType`, `LookupParent`, `LookupAttachment` and
`GetMainDicomTags` answer `none` where the C++ method returns `false`. -/
structure ServerIndex where
  LookupResourceType : String → Option ResourceTypeValue
  LookupParent : String → Option String
  GetChildren : String → List String
  LookupAttachment : String → FileContentType → Option FileInfo
  GetMainDicomTags : String → ResourceType → ResourceType → Option DicomMap

/-! ## `IsZip64Required` (lines 56-83) -/

/-- Constant `MEGA_BYTES` of line 56. -/
def MEGA_BYTES : Nat := (1024 * 1024) % 2 ^ 64

/-- Constant `GIGA_BYTES` of line 57. -/
def GIGA_BYTES : Nat := (1024 * 1024 * 1024) % 2 ^ 64

/-- Constant `SAFETY_MARGIN` of line 66, a `uint64_t` product. -/
def SAFETY_MARGIN : Nat := (64 * MEGA_BYTES) % 2 ^ 64

/-- Function `IsZip64Required` (lines 63-83); the threshold is computed in
`uint64_t`, the subtraction wrapping modulo `2^64`. The log line has no effect
on the result. -/
def IsZip64Required (uncompressedSize countInstances : Nat) : Bool :=
  decide (uncompressedSize ≥ ((2 * GIGA_BYTES) % 2 ^ 64 + 2 ^ 64 - SAFETY_MARGIN) % 2 ^ 64)
    || decide (countInstances ≥ 65535)

/-! ## `ResourceIdentifiers` (lines 88-181) -/

/-- The private fields of `ResourceIdentifiers`. A `std::string` member that
the constructor does not assign is the empty string. -/
structure ResourceIdentifiers where
  level_ : ResourceType
  patient_ : String
  study_ : String
  series_ : String
  instance_ : String
deriving DecidableEq, Repr

/-- Method `GoToParent` (lines 97-110): the new value of `current`. -/
def GoToParent (index : ServerIndex) (current : String) : Except ErrorCode String :=
  match index.LookupParent current with
  | some tmp => .ok tmp
  | none => .error .UnknownResource

namespace ResourceIdentifiers

/-- Label `case ResourceType_Patient:` of the constructor (lines 137-139). -/
def casePatient (level : ResourceType) (instance_ series_ study_ current : String) :
    Except ErrorCode ResourceIdentifiers :=
  .ok { level_ := level, patient_ := current, study_ := study_, series_ := series_,
        instance_ := instance_ }

/-- Label `case ResourceType_Study:` (lines 133-135), falling through. -/
def caseStudy (index : ServerIndex) (level : ResourceType)
    (instance_ series_ current : String) : Except ErrorCode ResourceIdentifiers :=
  match GoToParent index current with
  | .error e => .error e
  | .ok parent => casePatient level instance_ series_ current parent

/-- Label `case ResourceType_Series:` (lines 129-131), falling through. -/
def caseSeries (index : ServerIndex) (level : ResourceType)
    (instance_ current : String) : Except ErrorCode ResourceIdentifiers :=
  match GoToParent index current with
  | .error e => .error e
  | .ok parent => caseStudy index level instance_ current parent

/-- Label `case ResourceType_Instance:` (lines 125-127), falling through. -/
def caseInstance (index : ServerIndex) (level : ResourceType)
    (current : String) : Except ErrorCode ResourceIdentifiers :=
  match GoToParent index current with
  | .error e => .error e
  | .ok parent => caseSeries index level current parent

/-- The constructor `ResourceIdentifiers(index, publicId)` (lines 114-144). -/
def create (index : ServerIndex) (publicId : String) : Except ErrorCode ResourceIdentifiers :=
  match index.LookupResourceType publicId with
  | none => .error .UnknownResource
  | some .other => .error .InternalError
  | some (.enumerator .Instance) => caseInstance index .Instance publicId
  | some (.enumerator .Series) => caseSeries index .Series "" publicId
  | some (.enumerator .Study) => caseStudy index .Study "" "" publicId
  | some (.enumerator .Patient) => casePatient .Patient "" "" "" publicId

/-- Method `GetLevel` (lines 146-149). -/
def GetLevel (r : ResourceIdentifiers) : ResourceType := r.level_

/-- Method `GetIdentifier` (lines 151-180). The `default:` label is not
reachable for an enumerator. -/
def GetIdentifier (r : ResourceIdentifiers) (level : ResourceType) : Except ErrorCode String :=
  if level > r.level_ then .error .InternalError
  else
    match level with
    | .Patient => .ok r.patient_
    | .Study => .ok r.study_
    | .Series => .ok r.series_
    | .Instance => .ok r.instance_

end ResourceIdentifiers

/-- The identifier reached from `id` by `k` successive parent lookups; `none`
as soon as one of them fails. -/
def ancestorAt (index : ServerIndex) (id : String) : Nat → Option String
  | 0 => some id
  | k + 1 => (ancestorAt index id k).bind index.LookupParent

/-! ## `ArchiveIndex` (lines 201-352) -/

/-- The nested `struct Instance` (lines 204-214). -/
structure Instance where
  id_ : String
  dicom_ : FileInfo
deriving DecidableEq, Repr

/-- The class `ArchiveIndex` (lines 216-221): `resources_` is the
`std::map` in increasing key order, `none` being the `NULL` value that marks
a non-expanded node. -/
inductive ArchiveIndex where
  | mk (level_ : ResourceType) (resources_ : List (String × Option ArchiveIndex))
      (instances_ : List Instance)

/-- The type `Resources` (line 217). -/
abbrev Resources := List (String × Option ArchiveIndex)

namespace ArchiveIndex

/-- Field `level_`. -/
def level_ : ArchiveIndex → ResourceType
  | .mk level _ _ => level

/-- Field `resources_`. -/
def resources_ : ArchiveIndex → Resources
  | .mk _ resources _ => resources

/-- Field `instances_`. -/
def instances_ : ArchiveIndex → List Instance
  | .mk _ _ instances => instances

/-- The constructor `ArchiveIndex(level)` (lines 243-246). -/
def new (level : ResourceType) : ArchiveIndex := .mk level [] []

end ArchiveIndex

/-- Lookup `m.find(id)` of a `std::map`: `none` is `end()`. -/
def mapFind {β : Type} : List (String × β) → String → Option β
  | [], _ => none
  | (k, w) :: rest, id => if id = k then some w else mapFind rest id

/-- Assignment `m[id] = v` of a `std::map`: overwrites the value of an
existing key, otherwise inserts the key at its place in the key order
(`std::string` comparison, lexicographic on the characters). -/
def mapAssign {β : Type} : List (String × β) → String → β → List (String × β)
  | [], id, v => [(id, v)]
  | (k, w) :: rest, id, v =>
    if id = k then (k, v) :: rest
    else if id.toList < k.toList then (id, v) :: (k, w) :: rest
    else (k, w) :: mapAssign rest id v

mutual
/-- Termination measure of `Add` and `Expand`: the number of levels from the
node down to `Instance`, or the depth of the deepest expanded child if that
is larger. -/
def ArchiveIndex.height : ArchiveIndex → Nat
  | .mk level resources _ => max (5 - level.toNat) (heightOfResources resources)
/-- The part of `ArchiveIndex.height` contributed by the expanded children. -/
def heightOfResources : List (String × Option ArchiveIndex) → Nat
  | [] => 0
  | (_, none) :: rest => heightOfResources rest
  | (_, some child) :: rest => max (child.height + 1) (heightOfResources rest)
end

namespace ArchiveIndex

/-- Method `AddResourceToExpand` (lines 224-239). -/
def AddResourceToExpand (index : ServerIndex) (t : ArchiveIndex) (id : String) : ArchiveIndex :=
  if t.level_ = .Instance then
    match index.LookupAttachment id .Dicom with
    | some tmp => .mk t.level_ t.resources_ (t.instances_ ++ [⟨id, tmp⟩])
    | none => t
  else
    .mk t.level_ (mapAssign t.resources_ id none) t.instances_

set_option linter.unusedVariables false in
/-- Method `Add` (lines 258-293): the tree after the call, or the exception
raised by `GetIdentifier`. -/
def Add (index : ServerIndex) (resource : ResourceIdentifiers) (t : ArchiveIndex) :
    Except ErrorCode ArchiveIndex :=
  match resource.GetIdentifier t.level_ with
  | .error e => .error e
  | .ok id =>
    if hI : t.level_ = .Instance then
      .ok (AddResourceToExpand index t id)
    else if resource.GetLevel = t.level_ then
      .ok (.mk t.level_ (mapAssign t.resources_ id none) t.instances_)
    else
      match hprev : mapFind t.resources_ id with
      | none =>
        match Add index resource (.new (GetChildResourceType t.level_)) with
        | .error e => .error e
        | .ok child => .ok (.mk t.level_ (mapAssign t.resources_ id (some child)) t.instances_)
      | some (some previous) =>
        match Add index resource previous with
        | .error e => .error e
        | .ok child => .ok (.mk t.level_ (mapAssign t.resources_ id (some child)) t.instances_)
      | some none => .ok t
termination_by t.height
decreasing_by
  · cases t with
    | mk level resources instances =>
      simp only [ArchiveIndex.level_] at hI
      cases level <;>
        simp [ArchiveIndex.new, ArchiveIndex.height, heightOfResources, GetChildResourceType,
          ResourceType.toNat, ArchiveIndex.level_] at hI ⊢
  · cases t with
    | mk level resources instances =>
      simp only [ArchiveIndex.resources_] at hprev
      have key : ∀ (rs : Resources), mapFind rs id = some (some previous) →
          previous.height < heightOfResources rs := by
        intro rs
        induction rs with
        | nil => intro h; simp [mapFind] at h
        | cons hd tl ih =>
          obtain ⟨k, w⟩ := hd
          intro h
          simp only [mapFind] at h
          split at h
          · cases h
            simp [heightOfResources]
          · have := ih h
            cases w <;> simp [heightOfResources] <;> omega
      have := key resources hprev
      simp only [ArchiveIndex.height]
      omega

/-- The child that `Expand` builds for an entry marked for expansion (lines
310-319): a new node one level below, to which every child reported by the
index is added with `AddResourceToExpand`, in the reported order. -/
def newChildToExpand (index : ServerIndex) (level : ResourceType) (id : String) : ArchiveIndex :=
  (index.GetChildren id).foldl (fun child id2 => AddResourceToExpand index child id2)
    (.new (GetChildResourceType level))

set_option linter.unusedVariables false in
/-- Method `Expand` (lines 296-327): the tree after the call. Every entry of
`resources_` keeps its key; a `NULL` value is replaced by the new child, and
the (old or new) child is expanded in turn. -/
def Expand (index : ServerIndex) (t : ArchiveIndex) : ArchiveIndex :=
  if hI : t.level_ = .Instance then t
  else
    .mk t.level_
      (t.resources_.attach.map fun entry =>
        match hsecond : entry.val.2 with
        | none => (entry.val.1, some (Expand index (newChildToExpand index t.level_ entry.val.1)))
        | some child => (entry.val.1, some (Expand index child)))
      t.instances_
termination_by t.height
decreasing_by
  · cases t with
    | mk level resources instances =>
      simp only [ArchiveIndex.level_] at hI ⊢
      have keep : ∀ (ids : List String) (c : ArchiveIndex),
          heightOfResources c.resources_ = 0 →
          (ids.foldl (fun child id2 => AddResourceToExpand index child id2) c).level_ = c.level_ ∧
          heightOfResources (ids.foldl (fun child id2 =>
            AddResourceToExpand index child id2) c).resources_ = 0 := by
        intro ids
        induction ids with
        | nil => intro c h; exact ⟨rfl, h⟩
        | cons a tl ih =>
          intro c h
          have assign : ∀ (rs : Resources), heightOfResources rs = 0 →
              heightOfResources (mapAssign rs a none) = 0 := by
            intro rs
            induction rs with
            | nil => intro _; simp [mapAssign, heightOfResources]
            | cons hd tl2 ih2 =>
              obtain ⟨k, w⟩ := hd
              intro h0
              cases w with
              | none =>
                simp only [heightOfResources] at h0
                simp only [mapAssign]
                split
                · simpa [heightOfResources] using h0
                · split
                  · simpa [heightOfResources] using h0
                  · simpa [heightOfResources] using ih2 h0
              | some c2 => simp [heightOfResources] at h0
          have step : (AddResourceToExpand index c a).level_ = c.level_ ∧
              heightOfResources (AddResourceToExpand index c a).resources_ = 0 := by
            cases c with
            | mk cl crs cis =>
              simp only [ArchiveIndex.resources_] at h
              unfold AddResourceToExpand
              split
              · split <;> simp [ArchiveIndex.level_, ArchiveIndex.resources_, h]
              · simp [ArchiveIndex.level_, ArchiveIndex.resources_, assign crs h]
          have := ih (AddResourceToExpand index c a) step.2
          simp only [List.foldl]
          exact ⟨this.1.trans step.1, this.2⟩
      have fresh := keep (index.GetChildren entry.val.1) (.new (GetChildResourceType level))
        (by simp [ArchiveIndex.new, ArchiveIndex.resources_, heightOfResources])
      generalize hc : newChildToExpand index level entry.val.1 = c
      unfold newChildToExpand at hc
      rw [hc] at fresh
      cases c with
      | mk cl crs cis =>
        simp only [ArchiveIndex.level_, ArchiveIndex.resources_, ArchiveIndex.new] at fresh
        simp only [ArchiveIndex.height, fresh.1, fresh.2]
        cases level <;> simp [GetChildResourceType, ResourceType.toNat] at hI ⊢
  · cases t with
    | mk level resources instances =>
      have key : ∀ (rs : Resources) (e : String × Option ArchiveIndex), e ∈ rs →
          e.2 = some child → child.height < heightOfResources rs := by
        intro rs
        induction rs with
        | nil => intro e h; simp at h
        | cons hd tl ih =>
          obtain ⟨k, w⟩ := hd
          intro e hmem he
          rcases List.mem_cons.mp hmem with h | h
          · subst h
            simp only at he
            subst he
            simp [heightOfResources]
          · have := ih e h he
            cases w <;> simp [heightOfResources] <;> omega
      have := key resources entry.val entry.property hsecond
      simp only [ArchiveIndex.height]
      omega

end ArchiveIndex

/-- The calls an `IArchiveVisitor` receives (lines 184-198). -/
inductive VisitorCall where
  | Open (level : ResourceType) (publicId : String)
  | Close
  | AddInstance (instanceId : String) (dicom : FileInfo)
deriving DecidableEq, Repr

/-- The way `Apply` stops early: the assertion of line 345 does not hold. -/
inductive ApplyFault where
  | AssertionFailed
deriving DecidableEq, Repr

namespace ArchiveIndex

mutual
/-- Method `Apply` (lines 330-351), for a visitor that records the calls it
receives: the sequence of calls of a complete traversal, or the failure of the
assertion `it->second != NULL` (taken as checked, as in a build without
`NDEBUG`). -/
def Apply : ArchiveIndex → Except ApplyFault (List VisitorCall)
  | .mk level resources instances =>
    if level = .Instance then
      .ok (instances.map fun it => VisitorCall.AddInstance it.id_ it.dicom_)
    else
      ApplyResources level resources
/-- The loop of lines 342-349 over the entries of `resources_`. -/
def ApplyResources (level : ResourceType) :
    List (String × Option ArchiveIndex) → Except ApplyFault (List VisitorCall)
  | [] => .ok []
  | (_, none) :: _ => .error .AssertionFailed
  | (first, some second) :: rest =>
    match Apply second with
    | .error e => .error e
    | .ok inner =>
      match ApplyResources level rest with
      | .error e => .error e
      | .ok after => .ok (VisitorCall.Open level first :: inner ++ VisitorCall.Close :: after)
end

end ArchiveIndex

/-- The loop of `AddResourcesOfInterest` (lines 913-924) over the requested
identifiers: each one is resolved, then added to the archive; an exception
ends the loop. -/
def AddResourcesOfInterest (index : ServerIndex) :
    ArchiveIndex → List String → Except ErrorCode ArchiveIndex
  | archive, [] => .ok archive
  | archive, id :: rest =>
    match ResourceIdentifiers.create index id with
    | .error e => .error e
    | .ok resource =>
      match ArchiveIndex.Add index resource archive with
      | .error e => .error e
      | .ok archive2 => AddResourcesOfInterest index archive2 rest

/-! ## Vocabulary of the properties -/

namespace ArchiveIndex

mutual
/-- Some node of the tree, at any depth, has a `NULL` (pending) child. -/
def hasPending : ArchiveIndex → Bool
  | .mk _ resources _ => hasPendingIn resources
/-- Some entry of the list is `NULL` or leads to a node with a pending child. -/
def hasPendingIn : List (String × Option ArchiveIndex) → Bool
  | [] => false
  | (_, none) :: _ => true
  | (_, some child) :: rest => child.hasPending || hasPendingIn rest
end

mutual
/-- The level discipline of the class: a node of level `Instance` has no
entry in `resources_`, a node of another level has no entry in `instances_`,
and every expanded child is a node of the level directly below, itself
following the discipline. -/
def wellFormed : ArchiveIndex → Bool
  | .mk level resources instances =>
    (if level = .Instance then resources.isEmpty else instances.isEmpty)
      && wellFormedChildren (GetChildResourceType level) resources
/-- Every expanded child in the list has level `childLevel` and is well formed. -/
def wellFormedChildren (childLevel : ResourceType) :
    List (String × Option ArchiveIndex) → Bool
  | [] => true
  | (_, none) :: rest => wellFormedChildren childLevel rest
  | (_, some child) :: rest =>
    decide (child.level_ = childLevel) && child.wellFormed && wellFormedChildren childLevel rest
end

end ArchiveIndex

/-- The level an `Open` must carry at a given nesting depth. -/
def levelAtDepth : Nat → Option ResourceType
  | 0 => some .Patient
  | 1 => some .Study
  | 2 => some .Series
  | _ => none

/-- A stack-based harness for a sequence of visitor calls: `Open` pushes its
level, which must be the one expected at the current depth; `Close` pops the
most recent unmatched `Open` and fails on an empty stack; `AddInstance` is
accepted only directly inside a `Series` bracket inside a `Study` bracket
inside a `Patient` bracket. The result is the final stack. -/
def checkCalls : List ResourceType → List VisitorCall → Option (List ResourceType)
  | stack, [] => some stack
  | stack, .Open level _ :: rest =>
    if levelAtDepth stack.length = some level then checkCalls (level :: stack) rest else none
  | [], .Close :: _ => none
  | _ :: stack, .Close :: rest => checkCalls stack rest
  | stack, .AddInstance _ _ :: rest =>
    if stack = [.Series, .Study, .Patient] then checkCalls stack rest else none

/-- Number of `Open` calls in a sequence. -/
def countOpen : List VisitorCall → Nat
  | [] => 0
  | .Open _ _ :: rest => countOpen rest + 1
  | _ :: rest => countOpen rest

/-- Number of `Close` calls in a sequence. -/
def countClose : List VisitorCall → Nat
  | [] => 0
  | .Close :: rest => countClose rest + 1
  | _ :: rest => countClose rest

/-- The instance identifiers passed to `AddInstance`, in call order. -/
def addedInstances : List VisitorCall → List String
  | [] => []
  | .AddInstance instanceId _ :: rest => instanceId :: addedInstances rest
  | _ :: rest => addedInstances rest

/-- The instance entries `AddResourceToExpand` records at `Instance` level for
the identifiers `ids`: one entry per identifier for which the index has a
DICOM attachment, in order. -/
def instancesOf (index : ServerIndex) (ids : List String) : List Instance :=
  ids.filterMap fun id => (index.LookupAttachment id .Dicom).map fun tmp => ⟨id, tmp⟩

/-! ## Directory names of the visitors (lines 432-760) -/

/-- Tag `PatientID`, (0010,0020). -/
def DICOM_TAG_PATIENT_ID : DicomTag := ⟨0x0010, 0x0020⟩

/-- Tag `AccessionNumber`, (0008,0050). -/
def DICOM_TAG_ACCESSION_NUMBER : DicomTag := ⟨0x0008, 0x0050⟩

/-- Tag `StudyDescription`, (0008,1030). -/
def DICOM_TAG_STUDY_DESCRIPTION : DicomTag := ⟨0x0008, 0x1030⟩

/-- Tag `StudyDate`, (0008,0020). -/
def DICOM_TAG_STUDY_DATE : DicomTag := ⟨0x0008, 0x0020⟩

/-- Tag `StudyTime`, (0008,0030). -/
def DICOM_TAG_STUDY_TIME : DicomTag := ⟨0x0008, 0x0030⟩

/-- Tag `Modality`, (0008,0060). -/
def DICOM_TAG_MODALITY : DicomTag := ⟨0x0008, 0x0060⟩

/-- Tag `SeriesDescription`, (0008,103e). -/
def DICOM_TAG_SERIES_DESCRIPTION : DicomTag := ⟨0x0008, 0x103e⟩

/-- Tag `SOPInstanceUID`, (0008,0018). -/
def DICOM_TAG_SOP_INSTANCE_UID : DicomTag := ⟨0x0008, 0x0018⟩

/-- Tag `SeriesNumber`, written `DicomTag(0x0020,0x0011)` in the source. -/
def DICOM_TAG_SERIES_NUMBER : DicomTag := ⟨0x0020, 0x0011⟩

/-- What the embedded code can raise: an `OrthancException` with its code,
the `std::out_of_range` of `std::string::substr`, the `filesystem_error` of
a `boost::filesystem` call without `error_code` argument, or the use of a
`NULL` stream (undefined in C, taken as a fault). -/
inductive Raised where
  | orthanc (code : ErrorCode)
  | out_of_range
  | filesystem_error
  | null_stream
deriving DecidableEq, Repr

/-- Method `std::string::substr(pos, count)`; `count = none` is the default
`npos`. Raises `std::out_of_range` when `pos` exceeds the size. -/
def substr (s : String) (pos : Nat) (count : Option Nat) : Except Raised String :=
  if pos > s.length then .error .out_of_range
  else
    match count with
    | none => .ok (String.mk (s.toList.drop pos))
    | some n => .ok (String.mk ((s.toList.drop pos).take n))

/-- Method `GetTag` of the three visitors (lines 440-454, 586-600, 699-710):
the content of a value that is present, not binary and not null, otherwise
the empty string. -/
def GetTag (tags : DicomMap) (tag : DicomTag) : String :=
  match tags tag with
  | some (.Text content) => content
  | _ => ""

/-- Modelled from the spec: the helpers `Toolbox::ConvertToAscii`,
`Toolbox::StripSpaces` and `EnumerationToString` (declared outside the given
sources), taken as parameters of the visitors. -/
structure Toolbox where
  ConvertToAscii : String → String
  StripSpaces : String → String
  EnumerationToString : ResourceType → String

/-- Modelled from the spec: the test `isspace` of the C locale. -/
def isspace (c : Char) : Bool := c = ' ' || (9 ≤ c.toNat && c.toNat ≤ 13)

/-- Modelled from the spec: "ASCII-fold and trim", with the level names
`Patient`, `Study`, `Series`, `Instance`. `ConvertToAscii` keeps the
characters below 128 that are not control characters, `StripSpaces` removes
the white space at both ends. -/
def specToolbox : Toolbox where
  ConvertToAscii := fun s =>
    String.mk (s.toList.filter fun c => 32 ≤ c.toNat && c.toNat < 127)
  StripSpaces := fun s =>
    String.mk ((s.toList.dropWhile isspace).reverse.dropWhile isspace).reverse
  EnumerationToString := fun level =>
    match level with
    | .Patient => "Patient"
    | .Study => "Study"
    | .Series => "Series"
    | .Instance => "Instance"

/-- The array `forbidden` of lines 636 and 745, without its terminator. -/
def forbidden : List Char := ['/', ' ']

/-- Search of `find_first_of` in the remaining characters `rest`, the first
of which has index `i`. -/
def findFirstOfFrom (chars : List Char) : List Char → Nat → Option Nat
  | [], _ => none
  | c :: rest, i => if c ∈ chars then some i else findFirstOfFrom chars rest (i + 1)

/-- Method `std::string::find_first_of(chars, pos)`: the index of the first
character at or after `pos` that is one of `chars`; `none` is `npos`. -/
def find_first_of (s : List Char) (chars : List Char) (pos : Nat) : Option Nat :=
  findFirstOfFrom chars (s.drop pos) pos

/-- The loop of lines 638-643 and 747-752 from the value `found` of its
variable: as long as a forbidden character is found, it is replaced by `_`
and the search resumes at the same index. -/
def replaceForbiddenFrom (path : List Char) (found : Option Nat) : List Char :=
  match found with
  | none => path
  | some i => replaceForbiddenFrom (path.set i '_') (find_first_of (path.set i '_') forbidden i)
termination_by
  match found with
  | none => 0
  | some i => path.length - i + 1
decreasing_by
  have aux : ∀ (l : List Char) (k j : Nat), findFirstOfFrom forbidden l k = some j →
      k ≤ j ∧ j < k + l.length := by
    intro l
    induction l with
    | nil => intro k j h; simp [findFirstOfFrom] at h
    | cons c rest ih =>
      intro k j h
      simp only [findFirstOfFrom] at h
      split at h
      · cases h
        simp
      · have := ih (k + 1) j h
        simp only [List.length_cons]
        omega
  cases hnext : find_first_of (path.set n '_') forbidden n with
  | none => simp
  | some j =>
    simp only [List.length_set]
    unfold find_first_of at hnext
    have hlen : n < path.length := by
      by_contra hge
      have : (path.set n '_').drop n = [] := by
        apply List.drop_eq_nil_of_le
        simp only [List.length_set]
        omega
      rw [this] at hnext
      simp [findFirstOfFrom] at hnext
    have hdrop : (path.set n '_').drop n = '_' :: (path.set n '_').drop (n + 1) := by
      rw [List.drop_eq_getElem_cons (by simpa using hlen)]
      simp
    rw [hdrop] at hnext
    have hnot : ¬ '_' ∈ forbidden := by decide
    simp only [findFirstOfFrom, hnot, if_false] at hnext
    have h2 := aux _ _ _ hnext
    simp only [List.length_drop, List.length_set] at h2
    omega

/-- The loop of lines 638-643 and 747-752 on a `std::string`. -/
def replaceForbidden (path : String) : String :=
  String.mk (replaceForbiddenFrom path.toList (find_first_of path.toList forbidden 0))

/-- The end of `Open`, common to the three visitors (lines 516-521, 645-650,
754-759): an empty path becomes `Unknown` followed by the name of the level;
the result is the argument of `writer_.OpenDirectory`. -/
def directoryName (tb : Toolbox) (level : ResourceType) (path : String) : String :=
  if path = "" then "Unknown " ++ tb.EnumerationToString level else path

/-- Function `toupper` on one character of the C locale. -/
def toupper (c : Char) : Char :=
  if 97 ≤ c.toNat ∧ c.toNat ≤ 122 then Char.ofNat (c.toNat - 32) else c

/-- The fields of `ArchiveWriterVisitor` that `Open` assigns (lines 437-438):
the format of the instance file names, as the string `snprintf` produces, and
the counter of the instances of the current series. -/
structure ArchiveWriterVisitor where
  instanceFormat_ : String
  countInstances_ : Nat
deriving DecidableEq, Repr

namespace ArchiveWriterVisitor

/-- The tag-derived path of `ArchiveWriterVisitor::Open` and the fields after
the `switch` (lines 469-512). -/
def tagPath (index : ServerIndex) (v : ArchiveWriterVisitor) (level : ResourceType)
    (publicId : String) : Except Raised (ArchiveWriterVisitor × String) :=
  match index.GetMainDicomTags publicId level level with
  | none => .ok (v, "")
  | some tags =>
    match level with
    | .Patient => .ok (v, GetTag tags DICOM_TAG_PATIENT_ID)
    | .Study =>
      .ok (v, GetTag tags DICOM_TAG_ACCESSION_NUMBER ++ " " ++
        GetTag tags DICOM_TAG_STUDY_DESCRIPTION)
    | .Series =>
      let modality := GetTag tags DICOM_TAG_MODALITY
      let path := modality ++ " " ++ GetTag tags DICOM_TAG_SERIES_DESCRIPTION
      let format :=
        match modality.toList with
        | [] => "%08d.dcm"
        | [a] => String.mk [toupper a] ++ "%07d.dcm"
        | a :: b :: _ => String.mk [toupper a, toupper b] ++ "%06d.dcm"
      .ok ({ instanceFormat_ := format, countInstances_ := 0 }, path)
    | .Instance => .error (.orthanc .InternalError)

/-- Method `ArchiveWriterVisitor::Open` (lines 466-522): the fields after the
call and the argument passed to `writer_.OpenDirectory`, or the exception. -/
def Open (tb : Toolbox) (index : ServerIndex) (v : ArchiveWriterVisitor)
    (level : ResourceType) (publicId : String) :
    Except Raised (ArchiveWriterVisitor × String) :=
  match tagPath index v level publicId with
  | .error e => .error e
  | .ok (v2, path) =>
    .ok (v2, directoryName tb level (tb.StripSpaces (tb.ConvertToAscii path)))

end ArchiveWriterVisitor

namespace TarStreamWriterVisitor

/-- The tag-derived path of `TarStreamWriterVisitor::Open` (lines 610-634). -/
def tagPath (index : ServerIndex) (level : ResourceType) (publicId : String) :
    Except Raised String :=
  match index.GetMainDicomTags publicId level level with
  | none => .ok ""
  | some tags =>
    match level with
    | .Patient => .ok (GetTag tags DICOM_TAG_PATIENT_ID)
    | .Study =>
      match substr (GetTag tags DICOM_TAG_STUDY_DATE) 2 none with
      | .error e => .error e
      | .ok date => .ok (date ++ "_" ++ GetTag tags DICOM_TAG_STUDY_TIME)
    | .Series =>
      .ok ("S" ++ GetTag tags DICOM_TAG_SERIES_NUMBER ++ "_" ++
        GetTag tags DICOM_TAG_SERIES_DESCRIPTION)
    | .Instance => .error (.orthanc .InternalError)

/-- Method `TarStreamWriterVisitor::Open` (lines 608-651): the argument passed
to `writer_.OpenDirectory`, or the exception raised before the call. -/
def Open (tb : Toolbox) (index : ServerIndex) (level : ResourceType) (publicId : String) :
    Except Raised String :=
  match tagPath index level publicId with
  | .error e => .error e
  | .ok path =>
    .ok (directoryName tb level (replaceForbidden (tb.StripSpaces (tb.ConvertToAscii path))))

end TarStreamWriterVisitor

namespace ShadowWriterVisitor

/-- The tag-derived path of `ShadowWriterVisitor::Open` (lines 719-743). -/
def tagPath (index : ServerIndex) (level : ResourceType) (publicId : String) :
    Except Raised String :=
  match index.GetMainDicomTags publicId level level with
  | none => .ok ""
  | some tags =>
    match level with
    | .Patient => .ok (GetTag tags DICOM_TAG_PATIENT_ID)
    | .Study =>
      match substr (GetTag tags DICOM_TAG_STUDY_DATE) 2 none with
      | .error e => .error e
      | .ok date =>
        match substr (GetTag tags DICOM_TAG_STUDY_TIME) 0 (some 6) with
        | .error e => .error e
        | .ok time => .ok (date ++ "_" ++ time)
    | .Series =>
      .ok ("S" ++ GetTag tags DICOM_TAG_SERIES_NUMBER ++ "_" ++
        GetTag tags DICOM_TAG_SERIES_DESCRIPTION)
    | .Instance => .error (.orthanc .InternalError)

/-- Method `ShadowWriterVisitor::Open` (lines 717-760): the argument passed to
`writer_.OpenDirectory`, or the exception raised before the call. -/
def Open (tb : Toolbox) (index : ServerIndex) (level : ResourceType) (publicId : String) :
    Except Raised String :=
  match tagPath index level publicId with
  | .error e => .error e
  | .ok path =>
    .ok (directoryName tb level (replaceForbidden (tb.StripSpaces (tb.ConvertToAscii path))))

end ShadowWriterVisitor

/-- The field of the chain that belongs to a level. -/
def ResourceIdentifiers.recorded (r : ResourceIdentifiers) : ResourceType → String
  | .Patient => r.patient_
  | .Study => r.study_
  | .Series => r.series_
  | .Instance => r.instance_

/-- The stack of open levels when `Apply` enters a node of the given level. -/
def stackAt : ResourceType → List ResourceType
  | .Patient => []
  | .Study => [.Patient]
  | .Series => [.Study, .Patient]
  | .Instance => [.Series, .Study, .Patient]

mutual
/-- The instance entries of the tree in the order `Apply` meets them: the
`instances_` of the nodes of level `Instance` reached through expanded
children. -/
def ArchiveIndex.instanceEntries : ArchiveIndex → List Instance
  | .mk level resources instances =>
    if level = .Instance then instances else instanceEntriesIn resources
/-- The instance entries below the expanded children of a list of entries. -/
def instanceEntriesIn : List (String × Option ArchiveIndex) → List Instance
  | [] => []
  | (_, none) :: rest => instanceEntriesIn rest
  | (_, some child) :: rest => child.instanceEntries ++ instanceEntriesIn rest
end

/-- The instance entries passed to `AddInstance`, in call order. -/
def addedEntries : List VisitorCall → List Instance
  | [] => []
  | .AddInstance instanceId dicom :: rest => ⟨instanceId, dicom⟩ :: addedEntries rest
  | _ :: rest => addedEntries rest

/-! ## A small index used to instantiate the theorems

Patient `P` has the study `T`, which has the series `S`, which has the
instances `I1` and `I2`, each with a DICOM attachment of 10 bytes. The
patient, the study and the series have main DICOM tags; the instances have
none. -/

/-- The main DICOM tags of the resources of the example index. -/
def exampleTags (id : String) : Option DicomMap :=
  if id = "P" then
    some fun tag => if tag = DICOM_TAG_PATIENT_ID then some (.Text "Doe John/7") else none
  else if id = "T" then
    some fun tag =>
      if tag = DICOM_TAG_STUDY_DATE then some (.Text "20160102")
      else if tag = DICOM_TAG_STUDY_TIME then some (.Text "101500.000")
      else if tag = DICOM_TAG_ACCESSION_NUMBER then some (.Text "A1")
      else if tag = DICOM_TAG_STUDY_DESCRIPTION then some (.Text "Head")
      else none
  else if id = "S" then
    some fun tag =>
      if tag = DICOM_TAG_MODALITY then some (.Text "mr")
      else if tag = DICOM_TAG_SERIES_NUMBER then some (.Text "3")
      else if tag = DICOM_TAG_SERIES_DESCRIPTION then some (.Text "T1 mprage")
      else none
  else none

/-- The example index. -/
def exampleIndex : ServerIndex where
  LookupResourceType := fun id =>
    if id = "P" then some (.enumerator .Patient)
    else if id = "T" then some (.enumerator .Study)
    else if id = "S" then some (.enumerator .Series)
    else if id = "I1" ∨ id = "I2" then some (.enumerator .Instance)
    else none
  LookupParent := fun id =>
    if id = "T" then some "P"
    else if id = "S" then some "T"
    else if id = "I1" ∨ id = "I2" then some "S"
    else none
  GetChildren := fun id =>
    if id = "P" then ["T"]
    else if id = "T" then ["S"]
    else if id = "S" then ["I1", "I2"]
    else []
  LookupAttachment := fun id kind =>
    if (id = "I1" ∨ id = "I2") ∧ kind = .Dicom then some ⟨id, .Dicom, 10, .None⟩ else none
  GetMainDicomTags := fun id _ _ => exampleTags id

/-- The chain of the instance `I1` in the example index. -/
def exampleChain : ResourceIdentifiers := ⟨.Instance, "P", "T", "S", "I1"⟩

/-- The tree after the series `S` has been added to an empty root. -/
def exampleSelection : ArchiveIndex :=
  .mk .Patient [("P", some (.mk .Study [("T", some (.mk .Series [("S", none)] []))] []))] []

/-- The tree after `I1` has been added twice to an empty root. -/
def exampleRepeated : ArchiveIndex :=
  .mk .Patient [("P", some (.mk .Study [("T", some (.mk .Series [("S",
    some (.mk .Instance [] [⟨"I1", ⟨"I1", .Dicom, 10, .None⟩⟩,
      ⟨"I1", ⟨"I1", .Dicom, 10, .None⟩⟩]))] []))] []))] []

/-- The expansion of `exampleSelection` against the example index. -/
def exampleExpanded : ArchiveIndex :=
  .mk .Patient [("P", some (.mk .Study [("T", some (.mk .Series [("S",
    some (.mk .Instance [] [⟨"I1", ⟨"I1", .Dicom, 10, .None⟩⟩,
      ⟨"I2", ⟨"I2", .Dicom, 10, .None⟩⟩]))] []))] []))] []

namespace ArchiveIndex

mutual
/-- The property `P` holds at every node of the tree. -/
def allNodes (P : ArchiveIndex → Prop) : ArchiveIndex → Prop
  | .mk level resources instances =>
    P (.mk level resources instances) ∧ allNodesIn P resources
/-- The property `P` holds at every node below the expanded children of a
list of entries. -/
def allNodesIn (P : ArchiveIndex → Prop) : List (String × Option ArchiveIndex) → Prop
  | [] => True
  | (_, none) :: rest => allNodesIn P rest
  | (_, some child) :: rest => allNodes P child ∧ allNodesIn P rest
end

/-- The keys of `resources_` and the identifiers of `instances_` of the node
all have `key` as their parent in the index. -/
def contentUnder (index : ServerIndex) (key : String) (t : ArchiveIndex) : Prop :=
  (∀ e ∈ t.resources_, index.LookupParent e.1 = some key) ∧
  (∀ it ∈ t.instances_, index.LookupParent it.id_ = some key)

/-- What holds at each node of a tree built by `Add` from resolved chains and
of its expansion against a consistent index: the keys of `resources_` are in
strictly increasing order, no identifier occurs twice in `instances_`, and
the content of every expanded child has the key of the child as parent. -/
def nodeInvariant (index : ServerIndex) (t : ArchiveIndex) : Prop :=
  (t.resources_.map Prod.fst).Pairwise (fun a b => a.toList < b.toList) ∧
  (t.instances_.map fun it => it.id_).Nodup ∧
  ∀ key child, (key, some child) ∈ t.resources_ → contentUnder index key child

end ArchiveIndex

/-! ## `StatisticsVisitor` (lines 355-391) -/

/-- The fields of `StatisticsVisitor`: `size_` is a `uint64_t`, `instances_`
an `unsigned int` of 32 bits. -/
structure StatisticsVisitor where
  size_ : Nat
  instances_ : Nat
deriving DecidableEq, Repr

namespace StatisticsVisitor

/-- The constructor `StatisticsVisitor()` (lines 362-364). -/
def new : StatisticsVisitor := { size_ := 0, instances_ := 0 }

/-- Method `GetUncompressedSize` (lines 366-369). -/
def GetUncompressedSize (v : StatisticsVisitor) : Nat := v.size_

/-- Method `GetInstancesCount` (lines 371-374). -/
def GetInstancesCount (v : StatisticsVisitor) : Nat := v.instances_

/-- Method `Open` (lines 376-379). -/
def Open (v : StatisticsVisitor) (_level : ResourceType) (_publicId : String) :
    StatisticsVisitor := v

/-- Method `Close` (lines 381-383). -/
def Close (v : StatisticsVisitor) : StatisticsVisitor := v

/-- Method `AddInstance` (lines 385-390): both additions wrap, the first at
`2^32`, the second at `2^64`. -/
def AddInstance (v : StatisticsVisitor) (_instanceId : String) (dicom : FileInfo) :
    StatisticsVisitor :=
  { instances_ := (v.instances_ + 1) % 2 ^ 32,
    size_ := (v.size_ + dicom.uncompressedSize_ % 2 ^ 64) % 2 ^ 64 }

/-- The visitor after it has received one call. -/
def receive (v : StatisticsVisitor) : VisitorCall → StatisticsVisitor
  | .Open level publicId => v.Open level publicId
  | .Close => v.Close
  | .AddInstance instanceId dicom => v.AddInstance instanceId dicom

/-- The visitor after it has received the calls of a traversal, in order. -/
def receiveAll (v : StatisticsVisitor) (calls : List VisitorCall) : StatisticsVisitor :=
  calls.foldl receive v

end StatisticsVisitor

/-! ## The file system seen by the writers

The writers of `Core/FileStorage/ShadowWriter.cpp` and
`Core/Compression/TarStreamWriter.cpp` act on the file system through
`boost::filesystem`. The embedding keeps the nodes found at each path, the
record of the calls that were made with their outcome, and the log. Whether a
call succeeds is not decided by the program: it is read from `FsOutcomes`,
over which the theorems quantify. -/

/-- A `boost::filesystem::path`, as the list of its elements; `a / b` is
`a ++ b`. -/
abbrev Path := List String

/-- Method `path::parent_path`. -/
def Path.parent_path (p : Path) : Path := p.dropLast

/-- Method `path::native`: the elements joined by the separator. -/
def Path.native (p : Path) : String := String.intercalate "/" p

/-- What is found at a path: a directory, a regular file with its content, a
hard link made from the file at `source`, or a symbolic link to `target`. -/
inductive Node where
  | directory
  | regular (content : String)
  | hardlink (source : Path)
  | symlink (target : Path)
deriving DecidableEq, Repr

/-- The error conditions of `boost::system` that the source tells apart. -/
inductive Errc where
  | cross_device_link
  | other
deriving DecidableEq, Repr

/-- A call that changes the file system, with its outcome (`none`: the
`error_code` is clear). -/
inductive FsCall where
  | create_directory (p : Path) (ec : Option Errc)
  | permissions (p : Path)
  | create_hard_link (to_ : Path) (new_ : Path) (ec : Option Errc)
  | create_symlink (to_ : Path) (new_ : Path) (ec : Option Errc)
  | remove (p : Path) (ec : Option Errc)
  | write (p : Path) (content : String) (opened : Bool)
deriving DecidableEq, Repr

/-- The lines the writers send to the log. -/
inductive LogLine where
  | failedToCreate (p : Path)
  | failedToLink (path : Path) (p : Path)
  | doesNotExist (path : Path)
  | failedToRemove (p : Path)
  | openedPipe (cmd : String)
  | failedToOpenPipe (cmd : String)
deriving DecidableEq, Repr

/-- The outcome the operating system gives to each call, from the nodes
present when the call is made. -/
structure FsOutcomes where
  create_directory : (Path → Option Node) → Path → Option Errc
  create_hard_link : (Path → Option Node) → Path → Path → Option Errc
  create_symlink : (Path → Option Node) → Path → Path → Option Errc
  remove : (Path → Option Node) → Path → Option Errc
  open_for_writing : (Path → Option Node) → Path → Bool

/-- The nodes, the calls made so far (oldest first) and the log. -/
structure System where
  node : Path → Option Node
  calls : List FsCall
  log : List LogLine

/-- The path reached from `p` by following symbolic links, at most `fuel`
of them; `none` when nothing is found. -/
def resolve (node : Path → Option Node) : Nat → Path → Option Path
  | 0, _ => none
  | fuel + 1, p =>
    match node p with
    | none => none
    | some (.symlink target) => resolve node fuel target
    | some _ => some p

namespace System

/-- Function `fs::canonical`: the path with the symbolic links followed (at
most 40, the limit of the system); `none` when it raises. -/
def canonical (sys : System) (p : Path) : Option Path := resolve sys.node 40 p

/-- Function `fs::exists`: something is found at the path, symbolic links
followed. -/
def fs_exists (sys : System) (p : Path) : Bool := (sys.canonical p).isSome

/-- A line is added to the log. -/
def logLine (sys : System) (line : LogLine) : System :=
  { sys with log := sys.log ++ [line] }

/-- Function `fs::create_directory(p, ec)`: without error, a directory is
found at `p` afterwards unless something was there already. -/
def create_directory (env : FsOutcomes) (sys : System) (p : Path) : System × Option Errc :=
  let ec := env.create_directory sys.node p
  ({ node := fun q =>
        if q = p ∧ ec = none ∧ sys.node p = none then some .directory else sys.node q,
     calls := sys.calls ++ [.create_directory p ec],
     log := sys.log }, ec)

/-- Function `fs::permissions(p, ...)` without `error_code`: raises
`filesystem_error` when nothing exists at `p`. -/
def permissions (sys : System) (p : Path) : System × Option Raised :=
  ({ sys with calls := sys.calls ++ [.permissions p] },
    if sys.fs_exists p then none else some .filesystem_error)

/-- Function `fs::create_hard_link(to, new, ec)`. -/
def create_hard_link (env : FsOutcomes) (sys : System) (to_ new_ : Path) :
    System × Option Errc :=
  let ec := env.create_hard_link sys.node to_ new_
  ({ node := fun q => if q = new_ ∧ ec = none then some (.hardlink to_) else sys.node q,
     calls := sys.calls ++ [.create_hard_link to_ new_ ec],
     log := sys.log }, ec)

/-- Function `fs::create_symlink(to, new, ec)`. -/
def create_symlink (env : FsOutcomes) (sys : System) (to_ new_ : Path) :
    System × Option Errc :=
  let ec := env.create_symlink sys.node to_ new_
  ({ node := fun q => if q = new_ ∧ ec = none then some (.symlink to_) else sys.node q,
     calls := sys.calls ++ [.create_symlink to_ new_ ec],
     log := sys.log }, ec)

/-- Function `fs::remove(p, ec)`. -/
def remove (env : FsOutcomes) (sys : System) (p : Path) : System × Option Errc :=
  let ec := env.remove sys.node p
  ({ node := fun q => if q = p ∧ ec = none then none else sys.node q,
     calls := sys.calls ++ [.remove p ec],
     log := sys.log }, ec)

/-- The block `fs::ofstream stream(p); stream << content;`: when the stream
opens, a regular file with the content is found at `p` afterwards. -/
def write (env : FsOutcomes) (sys : System) (p : Path) (content : String) : System :=
  let opened := env.open_for_writing sys.node p
  { node := fun q => if q = p ∧ opened = true then some (.regular content) else sys.node q,
    calls := sys.calls ++ [.write p content opened],
    log := sys.log }

end System

/-- The result of a method of a writer: the fields of the writer and the
system after the call, and the exception if one was raised (what was
assigned before it stays assigned). -/
structure Outcome (α : Type) where
  state : α
  sys : System
  raised : Option Raised

/-! ## `ShadowWriter` (`Core/FileStorage/ShadowWriter.h`, `.cpp`) -/

/-- The fields of `ShadowWriter` (header, lines 29-31); the counters are
`size_t` values of 64 bits. -/
structure ShadowWriter where
  currentDir : Path
  m_shadow_root : Path
  m_storage_root : Path
  symlink : Bool
  instances : Nat
  skipped : Nat
deriving DecidableEq, Repr

/-- The calls a `ShadowWriter` receives. -/
inductive ShadowCall where
  | OpenDirectory (name : String)
  | CloseDirectory
  | AddFile (dicom : FileInfo) (target_name : String)
deriving DecidableEq, Repr

namespace ShadowWriter

/-- The constructor (lines 29-30 of the `.cpp`) with the initial values of
the header. -/
def new (shadow_root storage_root : Path) : ShadowWriter :=
  { currentDir := [], m_shadow_root := shadow_root, m_storage_root := storage_root,
    symlink := false, instances := 0, skipped := 0 }

/-- Method `OpenDirectory` (lines 32-41). -/
def OpenDirectory (env : FsOutcomes) (w : ShadowWriter) (sys : System) (name : String) :
    Outcome ShadowWriter :=
  let w1 := { w with currentDir := w.currentDir ++ [name] }
  let created := sys.create_directory env (w1.m_shadow_root ++ w1.currentDir)
  let allowed := created.1.permissions (w1.m_shadow_root ++ w1.currentDir)
  match allowed.2 with
  | some e => { state := w1, sys := allowed.1, raised := some e }
  | none =>
    match created.2 with
    | some _ =>
      { state := w1,
        sys := allowed.1.logLine (.failedToCreate (w1.m_shadow_root ++ w1.currentDir)),
        raised := none }
    | none => { state := w1, sys := allowed.1, raised := none }

/-- Method `CloseDirectory` (lines 42-45). -/
def CloseDirectory (w : ShadowWriter) : ShadowWriter :=
  { w with currentDir := w.currentDir.parent_path }

/-- The path of the blob (line 49): under the storage root, the first two
characters of the identifier, the next two, and the identifier. The source
reads the characters through `&uuid[0]`, `&uuid[2]`, `&uuid[4]`, which is
defined for an identifier of at least four characters. -/
def blobPath (storage_root : Path) (uuid : String) : Path :=
  storage_root ++ [String.mk (uuid.toList.take 2), String.mk ((uuid.toList.drop 2).take 2),
    uuid]

/-- The end of `AddFile` (lines 68-73), "error handling for both". -/
def linkDone (w : ShadowWriter) (sys : System) (ec : Option Errc) (path p : Path) :
    Outcome ShadowWriter :=
  match ec with
  | some _ => { state := w, sys := sys.logLine (.failedToLink path p), raised := none }
  | none =>
    let allowed := sys.permissions p
    { state := { w with instances := (w.instances + 1) % 2 ^ 64 },
      sys := allowed.1, raised := allowed.2 }

set_option linter.unusedVariables false in
/-- Method `AddFile` (lines 46-77). -/
def AddFile (env : FsOutcomes) (w : ShadowWriter) (sys : System) (dicom : FileInfo)
    (target_name : String) : Outcome ShadowWriter :=
  if sys.fs_exists (blobPath w.m_storage_root dicom.uuid_) then
    if sys.fs_exists (w.m_shadow_root ++ w.currentDir ++ [target_name]) then
      { state := { w with skipped := (w.skipped + 1) % 2 ^ 64 }, sys := sys, raised := none }
    else if hs : w.symlink = false then
      let linked := sys.create_hard_link env (blobPath w.m_storage_root dicom.uuid_)
        (w.m_shadow_root ++ w.currentDir ++ [target_name])
      if linked.2 = some .cross_device_link then
        AddFile env { w with symlink := true } linked.1 dicom target_name
      else
        linkDone w linked.1 linked.2 (blobPath w.m_storage_root dicom.uuid_)
          (w.m_shadow_root ++ w.currentDir ++ [target_name])
    else
      match sys.canonical (blobPath w.m_storage_root dicom.uuid_) with
      | none => { state := w, sys := sys, raised := some .filesystem_error }
      | some target =>
        let linked := sys.create_symlink env target
          (w.m_shadow_root ++ w.currentDir ++ [target_name])
        linkDone w linked.1 linked.2 (blobPath w.m_storage_root dicom.uuid_)
          (w.m_shadow_root ++ w.currentDir ++ [target_name])
  else
    { state := w, sys := sys.logLine (.doesNotExist (blobPath w.m_storage_root dicom.uuid_)),
      raised := none }
termination_by (if w.symlink then 0 else 1)
decreasing_by
  simp [hs]

/-- One call on the writer. -/
def step (env : FsOutcomes) (w : ShadowWriter) (sys : System) :
    ShadowCall → Outcome ShadowWriter
  | .OpenDirectory name => w.OpenDirectory env sys name
  | .CloseDirectory => { state := w.CloseDirectory, sys := sys, raised := none }
  | .AddFile dicom target_name => w.AddFile env sys dicom target_name

end ShadowWriter

/-- Number of attempts to create a hard link among the calls. -/
def hardLinkAttempts : List FsCall → Nat
  | [] => 0
  | .create_hard_link _ _ _ :: rest => hardLinkAttempts rest + 1
  | _ :: rest => hardLinkAttempts rest

/-! ## Example file systems -/

/-- An operating system on which every call succeeds. -/
def allSucceed : FsOutcomes where
  create_directory := fun _ _ => none
  create_hard_link := fun _ _ _ => none
  create_symlink := fun _ _ _ => none
  remove := fun _ _ => none
  open_for_writing := fun _ _ => true

/-- An operating system on which the storage and the shadow tree are on two
devices: a hard link fails with `cross_device_link`; every other call
succeeds. -/
def otherDevice : FsOutcomes where
  create_directory := fun _ _ => none
  create_hard_link := fun _ _ _ => some .cross_device_link
  create_symlink := fun _ _ _ => none
  remove := fun _ _ => none
  open_for_writing := fun _ _ => true

/-- An operating system on which nothing can be changed: every call fails
with an error that is not `cross_device_link`. -/
def readOnly : FsOutcomes where
  create_directory := fun _ _ => some .other
  create_hard_link := fun _ _ _ => some .other
  create_symlink := fun _ _ _ => some .other
  remove := fun _ _ => some .other
  open_for_writing := fun _ _ => false

/-- The attachment with the identifier `abcdef`. -/
def exampleBlob : FileInfo := ⟨"abcdef", .Dicom, 10, .None⟩

/-- A file system with the blob `abcdef` under the storage root `/storage`
and the empty directory `/shadow`. -/
def exampleSystem : System where
  node := fun p =>
    if p = ["/storage", "ab", "cd", "abcdef"] then some (.regular "dicom")
    else if p = ["/shadow"] then some .directory
    else none
  calls := []
  log := []

/-- A fresh writer from `/storage` to `/shadow`. -/
def exampleWriter : ShadowWriter := ShadowWriter.new ["/shadow"] ["/storage"]

/-! ## `TarStreamWriter` (`Core/Compression/TarStreamWriter.h`, `.cpp`) -/

/-- The order of `boost::filesystem::path` values in a `std::set`: element by
element. -/
def pathLess (a b : Path) : Bool := decide (a.map String.toList < b.map String.toList)

/-- Method `std::set<path>::insert`: the set is the sorted list of its
elements, and a path already present is not inserted again. -/
def setInsert : List Path → Path → List Path
  | [], p => [p]
  | q :: rest, p =>
    if p = q then q :: rest
    else if pathLess p q then p :: q :: rest
    else q :: setInsert rest p

/-- The fields of `TarStreamWriter` (header, lines 29-31). The stream `f` is
`none` for the null pointer `popen` returns when it fails, and otherwise the
lines written to the pipe so far. -/
structure TarStreamWriter where
  f : Option (List String)
  currentDir : Path
  root : Path
  files : List Path

/-- The calls a `TarStreamWriter` receives between its construction and its
destruction. -/
inductive TarCall where
  | OpenDirectory (name : String)
  | CloseDirectory
  | AddFile (filename : String) (content : String)
deriving DecidableEq, Repr

namespace TarStreamWriter

/-- The constructor (lines 28-37); `launched` tells whether `popen` returns a
stream. -/
def new (launched : Bool) (sys : System) (cmd : String) : TarStreamWriter × System :=
  let root : Path := ["/tmp"]
  let cmd := "cd " ++ root.native ++ " && " ++ cmd
  if launched then
    ({ f := some [], currentDir := [], root := root, files := [] },
      sys.logLine (.openedPipe cmd))
  else
    ({ f := none, currentDir := [], root := root, files := [] },
      sys.logLine (.failedToOpenPipe cmd))

/-- Method `OpenDirectory` (lines 49-57). -/
def OpenDirectory (env : FsOutcomes) (w : TarStreamWriter) (sys : System) (name : String) :
    Outcome TarStreamWriter :=
  let w1 := { w with currentDir := w.currentDir ++ [name] }
  let created := sys.create_directory env (w1.root ++ w1.currentDir)
  match created.2 with
  | some _ =>
    { state := w1, sys := created.1.logLine (.failedToCreate (w1.root ++ w1.currentDir)),
      raised := none }
  | none => { state := w1, sys := created.1, raised := none }

/-- Method `CloseDirectory` (lines 58-61). -/
def CloseDirectory (w : TarStreamWriter) : TarStreamWriter :=
  { w with currentDir := w.currentDir.parent_path }

/-- Method `AddFile` (lines 62-71): the content is written, the path is
inserted in `files`, and the path relative to the root is written to the
stream; writing to the null stream raises. -/
def AddFile (env : FsOutcomes) (w : TarStreamWriter) (sys : System)
    (filename content : String) : Outcome TarStreamWriter :=
  let file := w.currentDir ++ [filename]
  let sys1 := sys.write env (w.root ++ file) content
  let w1 := { w with files := setInsert w.files (w.root ++ file) }
  match w1.f with
  | none => { state := w1, sys := sys1, raised := some .null_stream }
  | some lines =>
    { state := { w1 with f := some (lines ++ [file.native ++ "\n"]) }, sys := sys1,
      raised := none }

/-- One call on the writer. -/
def step (env : FsOutcomes) (w : TarStreamWriter) (sys : System) :
    TarCall → Outcome TarStreamWriter
  | .OpenDirectory name => w.OpenDirectory env sys name
  | .CloseDirectory => { state := w.CloseDirectory, sys := sys, raised := none }
  | .AddFile filename content => w.AddFile env sys filename content

/-- A sequence of calls; it ends at the first call that raises. -/
def run (env : FsOutcomes) (w : TarStreamWriter) (sys : System) :
    List TarCall → Outcome TarStreamWriter
  | [] => { state := w, sys := sys, raised := none }
  | call :: rest =>
    match (w.step env sys call).raised with
    | some e => { (w.step env sys call) with raised := some e }
    | none => run env (w.step env sys call).state (w.step env sys call).sys rest

/-- The loop of the destructor (lines 41-46) over the paths of `files`. -/
def removeFiles (env : FsOutcomes) (sys : System) : List Path → System
  | [] => sys
  | p :: rest =>
    match (sys.remove env p).2 with
    | some _ => removeFiles env ((sys.remove env p).1.logLine (.failedToRemove p)) rest
    | none => removeFiles env (sys.remove env p).1 rest

set_option linter.unusedVariables false in
/-- The destructor (lines 38-47). The value `pclose` returns, `status`, is not
used; `pclose` of the null stream raises. -/
def destructor (env : FsOutcomes) (w : TarStreamWriter) (sys : System) (status : Int) :
    Outcome TarStreamWriter :=
  match w.f with
  | none => { state := w, sys := sys, raised := some .null_stream }
  | some _ => { state := w, sys := removeFiles env sys w.files, raised := none }

end TarStreamWriter

/-- The paths of the `write` calls among the calls on the file system. -/
def writtenPaths : List FsCall → List Path
  | [] => []
  | .write p _ _ :: rest => p :: writtenPaths rest
  | _ :: rest => writtenPaths rest

/-- A file system with the directory `/tmp` and nothing else. -/
def exampleScratch : System where
  node := fun p => if p = ["/tmp"] then some .directory else none
  calls := []
  log := []

/-- The calls that write the files `a` and `b` at the root. -/
def exampleTarCalls : List TarCall := [.AddFile "a" "1", .AddFile "b" "2"]

/-- An operating system that refuses to remove `/tmp/a` and does everything
else. -/
def keepsA : FsOutcomes where
  create_directory := fun _ _ => none
  create_hard_link := fun _ _ _ => none
  create_symlink := fun _ _ _ => none
  remove := fun _ p => if p = ["/tmp", "a"] then some .other else none
  open_for_writing := fun _ _ => true

/-- The example index in which the instance `I2` has lost its DICOM
attachment: `GetChildren` still reports `I1` and `I2` under the series `S`. -/
def bareIndex : ServerIndex where
  LookupResourceType := exampleIndex.LookupResourceType
  LookupParent := exampleIndex.LookupParent
  GetChildren := exampleIndex.GetChildren
  LookupAttachment := fun id kind =>
    if id = "I1" ∧ kind = .Dicom then some ⟨id, .Dicom, 10, .None⟩ else none
  GetMainDicomTags := exampleIndex.GetMainDicomTags

namespace ArchiveIndex

mutual
/-- The expansion as the specification words it, with the instances limited
to those that have a DICOM attachment: the node is what is recorded under the
resource `id` when it is expanded as a node of `level`. At `Instance` level
it has no entry and one instance per child the index reports under `id` that
has a DICOM attachment, in the reported order. Above, it has no instance,
and its keys are the children the index reports under `id`, each once, each
with a child that is in turn the expansion of its key one level below. -/
def isExpansionOf (index : ServerIndex) (level : ResourceType) (id : String) :
    ArchiveIndex → Prop
  | .mk l resources instances =>
    l = level ∧
    if level = .Instance then
      resources = [] ∧ instances = instancesOf index (index.GetChildren id)
    else
      instances = [] ∧ (resources.map Prod.fst).Nodup ∧
      (∀ k, k ∈ resources.map Prod.fst ↔ k ∈ index.GetChildren id) ∧
      areExpansions index (GetChildResourceType level) resources
/-- Every entry of the list has a child, which is the expansion of the key of
the entry. -/
def areExpansions (index : ServerIndex) (level : ResourceType) :
    List (String × Option ArchiveIndex) → Prop
  | [] => True
  | (_, none) :: _ => False
  | (k, some child) :: rest =>
    isExpansionOf index level k child ∧ areExpansions index level rest
end

end ArchiveIndex

/-! ## The placeholder of the stream command (`TarStreamWriterVisitor::Apply`,
lines 665-690) -/

/-- The search of `std::string::find(str, pos)` on the characters from `pos`
on: the first position at which `pattern` starts. -/
def findFrom (pattern : List Char) : List Char → Nat → Option Nat
  | [], pos => if pattern = [] then some pos else none
  | c :: rest, pos =>
    if pattern.isPrefixOf (c :: rest) then some pos else findFrom pattern rest (pos + 1)

/-- Method `std::string::find(str)`; `none` is `npos`. -/
def find (s str : String) : Option Nat := findFrom str.toList s.toList 0

/-- Method `std::string::replace(pos, len, str)` for a position inside the
string. -/
def replace (s : String) (pos len : Nat) (str : String) : String :=
  String.mk (s.toList.take pos ++ str.toList ++ s.toList.drop (pos + len))

/-- The constant `placeholder` of line 668. -/
def placeholder : String := "\x7b\x7d"

/-- The loop of lines 669-675 on `cmd`, run for at most `fuel` tests of its
condition: the value of `cmd` when the loop ends, `none` when it has not ended
by then. -/
def substitutePlaceholder : Nat → String → String → Option String
  | 0, _, _ => none
  | fuel + 1, cmd, filename =>
    match find cmd placeholder with
    | none => some cmd
    | some found =>
      substitutePlaceholder fuel (replace cmd found placeholder.length filename) filename

/-- A tag map without any tag. -/
def noTags : DicomMap := fun _ => none

/-- The example index in which every resource has main DICOM tags, none of
which is filled in. -/
def datelessIndex : ServerIndex where
  LookupResourceType := exampleIndex.LookupResourceType
  LookupParent := exampleIndex.LookupParent
  GetChildren := exampleIndex.GetChildren
  LookupAttachment := exampleIndex.LookupAttachment
  GetMainDicomTags := fun _ _ _ => some noTags

/-! ## `RangeConstraint` (`OrthancServer/Search/RangeConstraint.cpp`) -/

/-- Modelled from the spec: `Toolbox::ToUpperCase` (declared outside the given
sources), `toupper` on every character. -/
def ToUpperCase (s : String) : String := String.mk (s.toList.map toupper)

/-- The comparison `a <= b` of two `std::string`: lexicographic on the
characters. -/
def stringLe (a b : String) : Bool := decide (¬ b.toList < a.toList)

/-- The fields of `RangeConstraint` that `Match` reads. -/
structure RangeConstraint where
  lower_ : String
  upper_ : String
  isCaseSensitive_ : Bool
deriving DecidableEq, Repr

namespace RangeConstraint

/-- The constructor (lines 40-54). -/
def new (lower upper : String) (isCaseSensitive : Bool) : RangeConstraint :=
  if isCaseSensitive then
    { lower_ := ToUpperCase lower, upper_ := ToUpperCase upper,
      isCaseSensitive_ := isCaseSensitive }
  else
    { lower_ := lower, upper_ := upper, isCaseSensitive_ := isCaseSensitive }

/-- Method `Match` (lines 64-90). -/
def Match (c : RangeConstraint) (value : String) : Bool :=
  let v := if c.isCaseSensitive_ then ToUpperCase value else value
  if c.lower_.length = 0 ∧ c.upper_.length = 0 then false
  else if c.lower_.length = 0 then stringLe v c.upper_
  else if c.upper_.length = 0 then stringLe c.lower_ v
  else stringLe c.lower_ v && stringLe v c.upper_

end RangeConstraint

namespace ArchiveIndex

set_option linter.unusedVariables false in
/-- The levels of the nodes on which method `Add` (lines 258-293) is called,
the recursive calls included, in the order of the calls: at each of them
`Add` asks the chain for its identifier with `GetIdentifier(level_)`. -/
def AddLevels (index : ServerIndex) (resource : ResourceIdentifiers) (t : ArchiveIndex) :
    List ResourceType :=
  match resource.GetIdentifier t.level_ with
  | .error _ => [t.level_]
  | .ok id =>
    if hI : t.level_ = .Instance then [t.level_]
    else if resource.GetLevel = t.level_ then [t.level_]
    else
      match hprev : mapFind t.resources_ id with
      | none => t.level_ :: AddLevels index resource (.new (GetChildResourceType t.level_))
      | some (some previous) => t.level_ :: AddLevels index resource previous
      | some none => [t.level_]
termination_by t.height
decreasing_by
  · cases t with
    | mk level resources instances =>
      simp only [ArchiveIndex.level_] at hI
      cases level <;>
        simp [ArchiveIndex.new, ArchiveIndex.height, heightOfResources, GetChildResourceType,
          ResourceType.toNat, ArchiveIndex.level_] at hI ⊢
  · cases t with
    | mk level resources instances =>
      simp only [ArchiveIndex.resources_] at hprev
      have key : ∀ (rs : Resources), mapFind rs id = some (some previous) →
          previous.height < heightOfResources rs := by
        intro rs
        induction rs with
        | nil => intro h; simp [mapFind] at h
        | cons hd tl ih =>
          obtain ⟨k, w⟩ := hd
          intro h
          simp only [mapFind] at h
          split at h
          · cases h
            simp [heightOfResources]
          · have := ih h
            cases w <;> simp [heightOfResources] <;> omega
      have := key resources hprev
      simp only [ArchiveIndex.height]
      omega

end ArchiveIndex

/-- The levels from a level down to `Instance`. -/
def levelsFrom : ResourceType → List ResourceType
  | .Patient => [.Patient, .Study, .Series, .Instance]
  | .Study => [.Study, .Series, .Instance]
  | .Series => [.Series, .Instance]
  | .Instance => [.Instance]

namespace ArchiveIndex

mutual
/-- The node `after` keeps what the node `before` holds: it has the level and
the instance list of `before`, an entry under each key of `before` and no
other, in the same order, and under each key whose child is not pending in
`before` a child that keeps that child. Only the value of a pending entry is
free. -/
def keeps : ArchiveIndex → ArchiveIndex → Prop
  | .mk level resources instances, after =>
    after.level_ = level ∧ after.instances_ = instances ∧
      keepsEntries resources after.resources_
/-- The entries `after` keep the entries `before`, one by one. -/
def keepsEntries :
    List (String × Option ArchiveIndex) → List (String × Option ArchiveIndex) → Prop
  | [], after => after = []
  | (k, none) :: rest, after =>
    ∃ w rest2, after = (k, w) :: rest2 ∧ keepsEntries rest rest2
  | (k, some child) :: rest, after =>
    ∃ c rest2, after = (k, some c) :: rest2 ∧ keeps child c ∧ keepsEntries rest rest2
end

end ArchiveIndex

namespace ArchiveIndex

mutual
/-- Two trees are the same up to the order of the entries inside each list
of instances: the same level, the same keys in `resources_` with the same
pending marks and, under each key that is not pending, children that are the
same in this sense, and lists of instances that hold the same entries the
same number of times. -/
def sameUpToOrder : ArchiveIndex → ArchiveIndex → Prop
  | .mk level resources instances, other =>
    other.level_ = level ∧ instances.Perm other.instances_ ∧
      sameEntries resources other.resources_
/-- The two lists of entries are the same, one by one, up to the order
inside the instance lists. -/
def sameEntries :
    List (String × Option ArchiveIndex) → List (String × Option ArchiveIndex) → Prop
  | [], other => other = []
  | (k, none) :: rest, other => ∃ rest2, other = (k, none) :: rest2 ∧ sameEntries rest rest2
  | (k, some child) :: rest, other =>
    ∃ c rest2, other = (k, some c) :: rest2 ∧ sameUpToOrder child c ∧ sameEntries rest rest2
end

/-- Two values of `resources_` are both pending, or children that are the
same up to the order inside the instance lists. -/
def sameValue : Option ArchiveIndex → Option ArchiveIndex → Prop
  | none, none => True
  | some c, some c2 => sameUpToOrder c c2
  | _, _ => False

/-- Two entries of `resources_` have the same key and the same value. -/
def sameEntry (e e2 : String × Option ArchiveIndex) : Prop :=
  e.1 = e2.1 ∧ sameValue e.2 e2.2

end ArchiveIndex

/-! ## `Apply` with a visitor that may raise -/

/-- The interface `IArchiveVisitor` (lines 184-198) for a visitor with a
state of type `σ`: each method returns the state after the call, or the
exception it raises. -/
structure IArchiveVisitor (σ : Type) where
  Open : σ → ResourceType → String → Except Raised σ
  Close : σ → Except Raised σ
  AddInstance : σ → String → FileInfo → Except Raised σ

/-- The way a traversal stops early: the assertion of line 345 does not hold,
or a method of the visitor raises (`Apply` has no handler, so the exception
leaves `Apply`). -/
inductive Stopped where
  | assertion
  | raised (e : Raised)
deriving DecidableEq, Repr

/-- What a traversal has done when it ends: the calls it has made on the
visitor, in order (a call that raised is the last one), the state of the
visitor after the last call that returned, and the way it stopped early, if it
did. -/
structure Traversal (σ : Type) where
  state : σ
  calls : List VisitorCall
  stopped : Option Stopped

namespace ArchiveIndex

/-- The loop of lines 334-338 of `Apply` over `instances_`. -/
def ApplyInstances {σ : Type} (visitor : IArchiveVisitor σ) :
    List Instance → σ → Traversal σ
  | [], s => { state := s, calls := [], stopped := none }
  | it :: rest, s =>
    match visitor.AddInstance s it.id_ it.dicom_ with
    | .error e =>
      { state := s, calls := [.AddInstance it.id_ it.dicom_], stopped := some (.raised e) }
    | .ok s1 =>
      { state := (ApplyInstances visitor rest s1).state,
        calls := .AddInstance it.id_ it.dicom_ :: (ApplyInstances visitor rest s1).calls,
        stopped := (ApplyInstances visitor rest s1).stopped }

mutual
/-- Method `Apply` (lines 330-351) with its visitor, from a state of the
visitor. -/
def ApplyVisitor {σ : Type} (visitor : IArchiveVisitor σ) : ArchiveIndex → σ → Traversal σ
  | .mk level resources instances, s =>
    if level = .Instance then ApplyInstances visitor instances s
    else ApplyVisitorResources visitor level resources s
/-- The loop of lines 342-349 over the entries of `resources_`, with the
visitor. -/
def ApplyVisitorResources {σ : Type} (visitor : IArchiveVisitor σ) (level : ResourceType) :
    List (String × Option ArchiveIndex) → σ → Traversal σ
  | [], s => { state := s, calls := [], stopped := none }
  | (_, none) :: _, s => { state := s, calls := [], stopped := some .assertion }
  | (first, some second) :: rest, s =>
    match visitor.Open s level first with
    | .error e => { state := s, calls := [.Open level first], stopped := some (.raised e) }
    | .ok s1 =>
      match (ApplyVisitor visitor second s1).stopped with
      | some fault =>
        { state := (ApplyVisitor visitor second s1).state,
          calls := .Open level first :: (ApplyVisitor visitor second s1).calls,
          stopped := some fault }
      | none =>
        match visitor.Close (ApplyVisitor visitor second s1).state with
        | .error e =>
          { state := (ApplyVisitor visitor second s1).state,
            calls := .Open level first :: (ApplyVisitor visitor second s1).calls ++ [.Close],
            stopped := some (.raised e) }
        | .ok s2 =>
          { state := (ApplyVisitorResources visitor level rest s2).state,
            calls := .Open level first :: (ApplyVisitor visitor second s1).calls ++
              .Close :: (ApplyVisitorResources visitor level rest s2).calls,
            stopped := (ApplyVisitorResources visitor level rest s2).stopped }
end

/-- The entry found by following a path of keys from a node: the keys but the
last lead through expanded children, and the last key is looked up in the
node reached. The result is the level of that node and the value found. -/
def entryAt : List String → ArchiveIndex → Option (ResourceType × Option ArchiveIndex)
  | [], _ => none
  | [k], t => (mapFind t.resources_ k).map fun v => (t.level_, v)
  | k :: k2 :: rest, t =>
    match mapFind t.resources_ k with
    | some (some child) => entryAt (k2 :: rest) child
    | _ => none

end ArchiveIndex

/-- The directory name as the specification words it (section 4.3): the string
ASCII-folded and trimmed, or `Unknown` and the name of the level when that is
empty. -/
def specDirectoryName (tb : Toolbox) (level : ResourceType) (s : String) : String :=
  if tb.StripSpaces (tb.ConvertToAscii s) = "" then "Unknown " ++ tb.EnumerationToString level
  else tb.StripSpaces (tb.ConvertToAscii s)

/-- The directory name as the specification words it for the stream and shadow
outputs (section 4.3): the string ASCII-folded and trimmed, with each `/` and
each space replaced by `_`, or `Unknown` and the name of the level when the
folded and trimmed string is empty. -/
def specSafeDirectoryName (tb : Toolbox) (level : ResourceType) (s : String) : String :=
  if tb.StripSpaces (tb.ConvertToAscii s) = "" then "Unknown " ++ tb.EnumerationToString level
  else String.mk ((tb.StripSpaces (tb.ConvertToAscii s)).toList.map
    fun c => if c = '/' ∨ c = ' ' then '_' else c)

/-! ## Properties of `IsZip64Required` -/

/-- The threshold of `IsZip64Required` is 2 GiB - 64 MiB; nothing wraps. -/
theorem zip64_threshold :
    ((2 * GIGA_BYTES) % 2 ^ 64 + 2 ^ 64 - SAFETY_MARGIN) % 2 ^ 64 = 2 * 2 ^ 30 - 64 * 2 ^ 20 := by
  decide

/-- C10 (as stated, refuted): at a size of exactly 2 GiB - 64 MiB and a
count of zero, `IsZip64Required` answers true although the size does not
exceed the threshold, so "true exactly when size > 2 GiB - 64 MiB or
count >= 65535" does not hold. -/
theorem IsZip64Required_at_threshold :
    IsZip64Required 2080374784 0 = true ∧
      ¬ ((2080374784 : Nat) > 2 * 2 ^ 30 - 64 * 2 ^ 20 ∨ (0 : Nat) ≥ 65535) := by
  decide

/-- C10 (amended): `IsZip64Required size count` is true exactly when
`size >= 2 GiB - 64 MiB` or `count >= 65535`; it is true for 2 GiB with 10
instances and for 1 MiB with 70000 instances. -/
theorem IsZip64Required_iff (size count : Nat) :
    (IsZip64Required size count = true ↔
      (size ≥ 2 * 2 ^ 30 - 64 * 2 ^ 20 ∨ count ≥ 65535)) ∧
    IsZip64Required (2 * 2 ^ 30) 10 = true ∧
    IsZip64Required (2 ^ 20) 70000 = true := by
  refine ⟨?_, by decide, by decide⟩
  unfold IsZip64Required
  rw [zip64_threshold]
  simp

theorem ResourceType.lt_def (a b : ResourceType) : a < b ↔ a.toNat < b.toNat := Iff.rfl

theorem ResourceType.le_def (a b : ResourceType) : a ≤ b ↔ a.toNat ≤ b.toNat := Iff.rfl

theorem ResourceType.gt_def (a b : ResourceType) : a > b ↔ b.toNat < a.toNat := Iff.rfl

namespace ResourceIdentifiers

/-- What a successful construction looks like, level by level. -/
theorem create_ok_cases (index : ServerIndex) (id : String) (c : ResourceIdentifiers)
    (h : create index id = .ok c) :
    (index.LookupResourceType id = some (.enumerator .Patient) ∧
      c = ⟨.Patient, id, "", "", ""⟩) ∨
    (∃ p, index.LookupResourceType id = some (.enumerator .Study) ∧
      index.LookupParent id = some p ∧ c = ⟨.Study, p, id, "", ""⟩) ∨
    (∃ p t, index.LookupResourceType id = some (.enumerator .Series) ∧
      index.LookupParent id = some t ∧ index.LookupParent t = some p ∧
      c = ⟨.Series, p, t, id, ""⟩) ∨
    (∃ p t s, index.LookupResourceType id = some (.enumerator .Instance) ∧
      index.LookupParent id = some s ∧ index.LookupParent s = some t ∧
      index.LookupParent t = some p ∧ c = ⟨.Instance, p, t, s, id⟩) := by
  unfold create at h
  split at h
  · cases h
  · cases h
  · -- Instance
    right; right; right
    unfold caseInstance GoToParent at h
    cases h1 : index.LookupParent id with
    | none => simp [h1] at h
    | some s =>
      simp only [h1] at h
      unfold caseSeries GoToParent at h
      cases h2 : index.LookupParent s with
      | none => simp [h2] at h
      | some t =>
        simp only [h2] at h
        unfold caseStudy GoToParent at h
        cases h3 : index.LookupParent t with
        | none => simp [h3] at h
        | some p =>
          simp only [h3, casePatient] at h
          cases h
          exact ⟨p, t, s, by assumption, rfl, h2, h3, rfl⟩
  · right; right; left
    unfold caseSeries GoToParent at h
    cases h2 : index.LookupParent id with
    | none => simp [h2] at h
    | some t =>
      simp only [h2] at h
      unfold caseStudy GoToParent at h
      cases h3 : index.LookupParent t with
      | none => simp [h3] at h
      | some p =>
        simp only [h3, casePatient] at h
        cases h
        exact ⟨p, t, by assumption, rfl, h3, rfl⟩
  · right; left
    unfold caseStudy GoToParent at h
    cases h3 : index.LookupParent id with
    | none => simp [h3] at h
    | some p =>
      simp only [h3, casePatient] at h
      cases h
      exact ⟨p, by assumption, rfl, rfl⟩
  · left
    simp only [casePatient] at h
    cases h
    exact ⟨by assumption, rfl⟩

/-- C7: when the constructor succeeds, the level of the chain is the level
the index reports for the identifier, the identifier at that level is the
identifier itself, the identifier one level closer to `Patient` is the
parent the index gives for the identifier at each level from `Study` to the
level of the chain, and every level from `Patient` to the level of the chain
holds the identifier reached by the corresponding number of parent lookups. -/
theorem create_chain (index : ServerIndex) (id : String) (c : ResourceIdentifiers)
    (h : create index id = .ok c) :
    index.LookupResourceType id = some (.enumerator c.GetLevel) ∧
    c.GetIdentifier c.GetLevel = .ok id ∧
    (∀ L L' : ResourceType, L ≤ c.GetLevel → L'.toNat + 1 = L.toNat →
      ∃ x p, c.GetIdentifier L = .ok x ∧ c.GetIdentifier L' = .ok p ∧
        index.LookupParent x = some p) ∧
    (∀ L : ResourceType, L ≤ c.GetLevel →
      ∃ x, c.GetIdentifier L = .ok x ∧
        ancestorAt index id (c.GetLevel.toNat - L.toNat) = some x) := by
  rcases create_ok_cases index id c h with ⟨hl, rfl⟩ | ⟨p, hl, h1, rfl⟩ |
    ⟨p, t, hl, h1, h2, rfl⟩ | ⟨p, t, s, hl, h1, h2, h3, rfl⟩
  · refine ⟨hl, by simp [GetIdentifier, GetLevel, ResourceType.gt_def], ?_, ?_⟩
    · intro L L' hL hLL
      cases L <;> cases L' <;> simp_all [ResourceType.toNat, GetLevel, ResourceType.le_def]
    · intro L hL
      cases L <;> simp_all [ResourceType.toNat, GetLevel, ResourceType.le_def, GetIdentifier, ResourceType.gt_def, ancestorAt]
  · refine ⟨hl, by simp [GetIdentifier, GetLevel, ResourceType.gt_def], ?_, ?_⟩
    · intro L L' hL hLL
      cases L <;> cases L' <;>
        simp_all [ResourceType.toNat, GetLevel, ResourceType.le_def, GetIdentifier, ResourceType.gt_def]
    · intro L hL
      cases L <;> simp_all [ResourceType.toNat, GetLevel, ResourceType.le_def, GetIdentifier, ResourceType.gt_def, ancestorAt]
  · refine ⟨hl, by simp [GetIdentifier, GetLevel, ResourceType.gt_def], ?_, ?_⟩
    · intro L L' hL hLL
      cases L <;> cases L' <;>
        simp_all [ResourceType.toNat, GetLevel, ResourceType.le_def, GetIdentifier, ResourceType.gt_def]
    · intro L hL
      cases L <;> simp_all [ResourceType.toNat, GetLevel, ResourceType.le_def, GetIdentifier, ResourceType.gt_def, ancestorAt]
  · refine ⟨hl, by simp [GetIdentifier, GetLevel, ResourceType.gt_def], ?_, ?_⟩
    · intro L L' hL hLL
      cases L <;> cases L' <;>
        simp_all [ResourceType.toNat, GetLevel, ResourceType.le_def, GetIdentifier, ResourceType.gt_def]
    · intro L hL
      cases L <;> simp_all [ResourceType.toNat, GetLevel, ResourceType.le_def, GetIdentifier, ResourceType.gt_def, ancestorAt]

end ResourceIdentifiers

/-- The walk of `n` parent lookups fails exactly when one of its lookups
fails. -/
theorem ancestorAt_eq_none (index : ServerIndex) (id : String) (n : Nat) :
    ancestorAt index id n = none ↔
      ∃ k x, k < n ∧ ancestorAt index id k = some x ∧ index.LookupParent x = none := by
  induction n with
  | zero => simp [ancestorAt]
  | succ n ih =>
    constructor
    · intro h
      cases hn : ancestorAt index id n with
      | none =>
        obtain ⟨k, x, hk, hx, hp⟩ := ih.mp hn
        exact ⟨k, x, by omega, hx, hp⟩
      | some y =>
        refine ⟨n, y, by omega, hn, ?_⟩
        simpa [ancestorAt, hn] using h
    · rintro ⟨k, x, hk, hx, hp⟩
      by_cases hkn : k = n
      · subst hkn
        simp [ancestorAt, hx, hp]
      · have : ancestorAt index id n = none := ih.mpr ⟨k, x, by omega, hx, hp⟩
        simp [ancestorAt, this]

namespace ResourceIdentifiers

/-- The outcome of the constructor in terms of the reported level and of the
parent walk. -/
theorem create_eq (index : ServerIndex) (id : String) :
    create index id =
      match index.LookupResourceType id with
      | none => .error .UnknownResource
      | some .other => .error .InternalError
      | some (.enumerator L) =>
        match ancestorAt index id (L.toNat - 1) with
        | none => .error .UnknownResource
        | some _ =>
          .ok ⟨L,
            (ancestorAt index id (L.toNat - 1)).getD "",
            if L.toNat < 2 then "" else (ancestorAt index id (L.toNat - 2)).getD "",
            if L.toNat < 3 then "" else (ancestorAt index id (L.toNat - 3)).getD "",
            if L.toNat < 4 then "" else id⟩ := by
  unfold create
  cases hl : index.LookupResourceType id with
  | none => rfl
  | some v =>
    cases v with
    | other => rfl
    | enumerator L =>
      cases L with
      | Patient => simp [casePatient, ResourceType.toNat, ancestorAt]
      | Study =>
        cases h1 : index.LookupParent id <;>
          simp [caseStudy, casePatient, GoToParent, ResourceType.toNat, ancestorAt, h1]
      | Series =>
        cases h1 : index.LookupParent id with
        | none => simp [caseSeries, GoToParent, ResourceType.toNat, ancestorAt, h1]
        | some t =>
          cases h2 : index.LookupParent t <;>
            simp [caseSeries, caseStudy, casePatient, GoToParent, ResourceType.toNat,
              ancestorAt, h1, h2]
      | Instance =>
        cases h1 : index.LookupParent id with
        | none => simp [caseInstance, GoToParent, ResourceType.toNat, ancestorAt, h1]
        | some s =>
          cases h2 : index.LookupParent s with
          | none =>
            simp [caseInstance, caseSeries, GoToParent, ResourceType.toNat, ancestorAt, h1, h2]
          | some t =>
            cases h3 : index.LookupParent t <;>
              simp [caseInstance, caseSeries, caseStudy, casePatient, GoToParent,
                ResourceType.toNat, ancestorAt, h1, h2, h3]

/-- C8: the constructor raises `UnknownResource` exactly when the index does
not know the identifier or reports one of the four levels and some parent
lookup of the walk to `Patient` fails; it raises `InternalError` exactly when
the index reports a value outside the four levels; in every other case it
returns a chain, and a returned chain is never half filled: each level from
`Patient` to its own level holds the identifier the walk reached there. -/
theorem create_outcome (index : ServerIndex) (id : String) :
    (create index id = .error .UnknownResource ↔
      (index.LookupResourceType id = none ∨
        ∃ L k x, index.LookupResourceType id = some (.enumerator L) ∧ k + 1 < L.toNat ∧
          ancestorAt index id k = some x ∧ index.LookupParent x = none)) ∧
    (create index id = .error .InternalError ↔
      index.LookupResourceType id = some .other) ∧
    ((∃ c, create index id = .ok c) ↔
      ¬ (index.LookupResourceType id = none ∨
        ∃ L k x, index.LookupResourceType id = some (.enumerator L) ∧ k + 1 < L.toNat ∧
          ancestorAt index id k = some x ∧ index.LookupParent x = none) ∧
      ¬ index.LookupResourceType id = some .other) ∧
    (∀ c, create index id = .ok c → ∀ L : ResourceType, L ≤ c.GetLevel →
      ∃ x, c.GetIdentifier L = .ok x ∧
        ancestorAt index id (c.GetLevel.toNat - L.toNat) = some x) := by
  have walk : ∀ L : ResourceType, (ancestorAt index id (L.toNat - 1) = none ↔
      ∃ k x, k + 1 < L.toNat ∧ ancestorAt index id k = some x ∧
        index.LookupParent x = none) := by
    intro L
    rw [ancestorAt_eq_none]
    constructor
    · rintro ⟨k, x, hk, h⟩
      exact ⟨k, x, by omega, h⟩
    · rintro ⟨k, x, hk, h⟩
      exact ⟨k, x, by omega, h⟩
  rw [create_eq]
  cases hl : index.LookupResourceType id with
  | none => simp
  | some v =>
    cases v with
    | other => simp
    | enumerator L =>
      cases hw : ancestorAt index id (L.toNat - 1) with
      | none =>
        obtain ⟨k, x, hk, hx, hp⟩ := (walk L).mp hw
        have hA : ∃ L2 k x, some (ResourceTypeValue.enumerator L) =
            some (ResourceTypeValue.enumerator L2) ∧ k + 1 < L2.toNat ∧
            ancestorAt index id k = some x ∧ index.LookupParent x = none :=
          ⟨L, k, x, rfl, hk, hx, hp⟩
        simp only [hw]
        refine ⟨?_, ?_, ?_, ?_⟩
        · exact ⟨fun _ => Or.inr hA, fun _ => by first | rfl | trivial⟩
        · simp
        · constructor
          · rintro ⟨c, hc⟩
            cases hc
          · rintro ⟨h1, _⟩
            exact absurd (Or.inr hA) h1
        · intro c hc
          cases hc
      | some a =>
        have hno : ¬ ∃ k x, k + 1 < L.toNat ∧ ancestorAt index id k = some x ∧
            index.LookupParent x = none := by
          intro h
          have := (walk L).mpr h
          rw [hw] at this
          cases this
        have hA : ¬ (some (ResourceTypeValue.enumerator L) = none ∨
            ∃ L2 k x, some (ResourceTypeValue.enumerator L) =
              some (ResourceTypeValue.enumerator L2) ∧ k + 1 < L2.toNat ∧
              ancestorAt index id k = some x ∧ index.LookupParent x = none) := by
          rintro (h | ⟨L2, k, x, hL, hk, hx, hp⟩)
          · cases h
          · cases hL
            exact hno ⟨k, x, hk, hx, hp⟩
        simp only [hw]
        refine ⟨?_, ?_, ?_, ?_⟩
        · constructor
          · intro h
            cases h
          · intro h
            exact absurd h hA
        · simp
        · constructor
          · intro _
            exact ⟨hA, by simp⟩
          · intro _
            exact ⟨_, rfl⟩
        · intro c hc L2 hL2
          simp only [Except.ok.injEq] at hc
          subst hc
          have h1 : ∀ n, n ≤ L.toNat - 1 →
              ancestorAt index id n = some ((ancestorAt index id n).getD "") := by
            intro n hn
            cases hy : ancestorAt index id n with
            | some y => rfl
            | none =>
              obtain ⟨k, x, hk, hx, hp⟩ := (ancestorAt_eq_none index id n).mp hy
              exact absurd ⟨k, x, by omega, hx, hp⟩ hno
          have e0 := h1 0
          have e1 := h1 1
          have e2 := h1 2
          have e3 := h1 3
          cases L <;> cases L2 <;>
            simp [GetLevel, GetIdentifier, ResourceType.gt_def, ResourceType.le_def,
              ResourceType.toNat] at hL2 e0 e1 e2 e3 ⊢ <;>
            first
              | exact e0
              | exact e1
              | exact e2
              | exact e3
              | rfl
              | simpa [ResourceType.toNat] using hw

end ResourceIdentifiers

/-! ## The selection tree: structure lemmas -/

theorem mapFind_mem {β : Type} (rs : List (String × β)) (id : String) (v : β)
    (h : mapFind rs id = some v) : (id, v) ∈ rs := by
  induction rs with
  | nil => simp [mapFind] at h
  | cons hd tl ih =>
    obtain ⟨k, w⟩ := hd
    simp only [mapFind] at h
    split at h
    · rename_i hk
      cases h
      simp [hk]
    · exact List.mem_cons_of_mem _ (ih h)

theorem mem_mapAssign {β : Type} (rs : List (String × β)) (id : String) (v : β)
    (e : String × β) (h : e ∈ mapAssign rs id v) : e = (id, v) ∨ e ∈ rs := by
  induction rs with
  | nil => simpa [mapAssign] using h
  | cons hd tl ih =>
    obtain ⟨k, w⟩ := hd
    simp only [mapAssign] at h
    split at h
    · rename_i hk
      rcases List.mem_cons.mp h with h | h
      · left; rw [h, hk]
      · right; exact List.mem_cons_of_mem _ h
    · split at h
      · rcases List.mem_cons.mp h with h | h
        · left; exact h
        · right; exact h
      · rcases List.mem_cons.mp h with h | h
        · right; rw [h]; exact List.mem_cons_self _ _
        · rcases ih h with h | h
          · left; exact h
          · right; exact List.mem_cons_of_mem _ h

namespace ArchiveIndex

theorem mk_eta (t : ArchiveIndex) : ArchiveIndex.mk t.level_ t.resources_ t.instances_ = t := by
  cases t; rfl

theorem height_lt_of_mem (rs : List (String × Option ArchiveIndex)) (id : String)
    (c : ArchiveIndex) (h : (id, some c) ∈ rs) : c.height < heightOfResources rs := by
  induction rs with
  | nil => simp at h
  | cons hd tl ih =>
    obtain ⟨k, w⟩ := hd
    rcases List.mem_cons.mp h with h | h
    · cases h
      simp [heightOfResources]
    · have := ih h
      cases w <;> simp [heightOfResources] <;> omega

theorem height_child_lt (t : ArchiveIndex) (id : String) (c : ArchiveIndex)
    (h : (id, some c) ∈ t.resources_) : c.height < t.height := by
  cases t with
  | mk level rs is =>
    have := height_lt_of_mem rs id c h
    simp only [ArchiveIndex.height]
    omega

theorem heightOfResources_all_pending (rs : List (String × Option ArchiveIndex))
    (h : ∀ e ∈ rs, e.2 = none) : heightOfResources rs = 0 := by
  induction rs with
  | nil => rfl
  | cons hd tl ih =>
    obtain ⟨k, w⟩ := hd
    have hw : w = none := h (k, w) (List.mem_cons_self _ _)
    subst hw
    simp only [heightOfResources]
    exact ih fun e he => h e (List.mem_cons_of_mem _ he)

/-- Strong induction on the termination measure. -/
theorem height_induction {P : ArchiveIndex → Prop}
    (step : ∀ t, (∀ u : ArchiveIndex, u.height < t.height → P u) → P t) (t : ArchiveIndex) :
    P t := by
  have main : ∀ n, ∀ t : ArchiveIndex, t.height < n → P t := by
    intro n
    induction n with
    | zero => intro t h; omega
    | succ n ih =>
      intro t ht
      apply step
      intro u hu
      exact ih u (by omega)
  exact main (t.height + 1) t (by omega)

theorem AddResourceToExpand_instance (index : ServerIndex) (rs : Resources)
    (is : List Instance) (id : String) :
    AddResourceToExpand index (.mk .Instance rs is) id =
      .mk .Instance rs (is ++ instancesOf index [id]) := by
  unfold AddResourceToExpand instancesOf
  cases h : index.LookupAttachment id .Dicom <;>
    simp [ArchiveIndex.level_, ArchiveIndex.resources_, ArchiveIndex.instances_, h]

theorem AddResourceToExpand_other (index : ServerIndex) (level : ResourceType) (rs : Resources)
    (is : List Instance) (id : String) (h : level ≠ .Instance) :
    AddResourceToExpand index (.mk level rs is) id = .mk level (mapAssign rs id none) is := by
  simp [AddResourceToExpand, ArchiveIndex.level_, ArchiveIndex.resources_,
    ArchiveIndex.instances_, h]

/-- The entries a new node one level below `Instance` receives from
`AddResourceToExpand`: every reported identifier, marked for expansion. -/
theorem foldl_AddResourceToExpand_instance (index : ServerIndex) (ids : List String)
    (rs : Resources) (is : List Instance) :
    ids.foldl (fun child id2 => AddResourceToExpand index child id2) (.mk .Instance rs is) =
      .mk .Instance rs (is ++ instancesOf index ids) := by
  induction ids generalizing is with
  | nil => simp [instancesOf]
  | cons a tl ih =>
    simp only [List.foldl]
    rw [AddResourceToExpand_instance, ih]
    simp [instancesOf, List.filterMap_cons]
    cases index.LookupAttachment a .Dicom <;> simp

theorem foldl_AddResourceToExpand_other (index : ServerIndex) (level : ResourceType)
    (h : level ≠ .Instance) (ids : List String) (rs : Resources) (is : List Instance) :
    ids.foldl (fun child id2 => AddResourceToExpand index child id2) (.mk level rs is) =
      .mk level (ids.foldl (fun m id2 => mapAssign m id2 none) rs) is := by
  induction ids generalizing rs with
  | nil => rfl
  | cons a tl ih =>
    simp only [List.foldl]
    rw [AddResourceToExpand_other _ _ _ _ _ h, ih]

theorem foldl_mapAssign_none_pending (ids : List String)
    (rs : List (String × Option ArchiveIndex)) (h : ∀ e ∈ rs, e.2 = none) :
    ∀ e ∈ ids.foldl (fun m id2 => mapAssign m id2 none) rs, e.2 = none := by
  induction ids generalizing rs with
  | nil => simpa using h
  | cons a tl ih =>
    simp only [List.foldl]
    apply ih
    intro e he
    rcases mem_mapAssign rs a none e he with h1 | h1
    · rw [h1]
    · exact h e h1

/-- The new child of an entry of a `Series` node: an `Instance` node holding
the instances of the reported children. -/
theorem newChildToExpand_series (index : ServerIndex) (id : String) :
    newChildToExpand index .Series id =
      .mk .Instance [] (instancesOf index (index.GetChildren id)) := by
  unfold newChildToExpand
  simp only [GetChildResourceType, ArchiveIndex.new]
  rw [foldl_AddResourceToExpand_instance]
  simp

/-- The new child of an entry of a `Patient` or `Study` node: a node one
level below whose entries are the reported children, all marked for
expansion. -/
theorem newChildToExpand_upper (index : ServerIndex) (level : ResourceType) (id : String)
    (h : GetChildResourceType level ≠ .Instance) :
    newChildToExpand index level id =
      .mk (GetChildResourceType level)
        ((index.GetChildren id).foldl (fun m id2 => mapAssign m id2 none) []) [] := by
  unfold newChildToExpand
  simp only [ArchiveIndex.new]
  rw [foldl_AddResourceToExpand_other _ _ h]

theorem height_newChildToExpand_lt (index : ServerIndex) (t : ArchiveIndex) (id : String)
    (h : t.level_ ≠ .Instance) : (newChildToExpand index t.level_ id).height < t.height := by
  cases t with
  | mk level rs is =>
    simp only [ArchiveIndex.level_] at h ⊢
    cases level with
    | Instance => exact absurd rfl h
    | Series =>
      rw [newChildToExpand_series]
      simp [ArchiveIndex.height, heightOfResources, ResourceType.toNat]
    | Study =>
      rw [newChildToExpand_upper _ _ _ (by decide)]
      simp only [ArchiveIndex.height]
      rw [heightOfResources_all_pending _ (foldl_mapAssign_none_pending _ _ (by simp))]
      simp [GetChildResourceType, ResourceType.toNat]
    | Patient =>
      rw [newChildToExpand_upper _ _ _ (by decide)]
      simp only [ArchiveIndex.height]
      rw [heightOfResources_all_pending _ (foldl_mapAssign_none_pending _ _ (by simp))]
      simp [GetChildResourceType, ResourceType.toNat]

theorem height_new_child_lt (t : ArchiveIndex) (h : t.level_ ≠ .Instance) :
    (ArchiveIndex.new (GetChildResourceType t.level_)).height < t.height := by
  cases t with
  | mk level rs is =>
    simp only [ArchiveIndex.level_] at h ⊢
    cases level <;>
      simp [ArchiveIndex.new, ArchiveIndex.height, heightOfResources, GetChildResourceType,
        ResourceType.toNat] at h ⊢

/-! ## Unfolding equations of `Add` and `Expand` -/

/-- What `Expand` makes of one entry of `resources_` of a node of level
`level`. -/
theorem Expand_eq (index : ServerIndex) (t : ArchiveIndex) :
    Expand index t =
      if t.level_ = .Instance then t
      else .mk t.level_
        (t.resources_.map fun entry =>
          match entry.2 with
          | none => (entry.1, some (Expand index (newChildToExpand index t.level_ entry.1)))
          | some child => (entry.1, some (Expand index child)))
        t.instances_ := by
  rw [Expand]
  split
  · rfl
  · congr 1
    rw [← List.attach_map_coe t.resources_]
    apply List.map_congr_left
    intro entry _
    split <;> split <;> simp_all

theorem Add_eq (index : ServerIndex) (resource : ResourceIdentifiers) (t : ArchiveIndex) :
    Add index resource t =
      match resource.GetIdentifier t.level_ with
      | .error e => .error e
      | .ok id =>
        if t.level_ = .Instance then .ok (AddResourceToExpand index t id)
        else if resource.GetLevel = t.level_ then
          .ok (.mk t.level_ (mapAssign t.resources_ id none) t.instances_)
        else
          match mapFind t.resources_ id with
          | none =>
            match Add index resource (.new (GetChildResourceType t.level_)) with
            | .error e => .error e
            | .ok child =>
              .ok (.mk t.level_ (mapAssign t.resources_ id (some child)) t.instances_)
          | some (some previous) =>
            match Add index resource previous with
            | .error e => .error e
            | .ok child =>
              .ok (.mk t.level_ (mapAssign t.resources_ id (some child)) t.instances_)
          | some none => .ok t := by
  rw [Add]
  split
  · rfl
  · split
    · rfl
    · split
      · rfl
      · split <;> simp_all

theorem Expand_instance (index : ServerIndex) (rs : Resources) (is : List Instance) :
    Expand index (.mk .Instance rs is) = .mk .Instance rs is := by
  rw [Expand_eq]; simp [ArchiveIndex.level_]

theorem Expand_nil (index : ServerIndex) (level : ResourceType) (is : List Instance) :
    Expand index (.mk level [] is) = .mk level [] is := by
  rw [Expand_eq]; simp [ArchiveIndex.level_, ArchiveIndex.resources_, ArchiveIndex.instances_]

theorem Expand_resources (index : ServerIndex) (t : ArchiveIndex) (h : t.level_ ≠ .Instance) :
    (Expand index t).resources_ =
      t.resources_.map fun entry =>
          match entry.2 with
          | none => (entry.1, some (Expand index (newChildToExpand index t.level_ entry.1)))
          | some child => (entry.1, some (Expand index child)) := by
  rw [Expand_eq]; simp [h, ArchiveIndex.resources_]

theorem Expand_level (index : ServerIndex) (t : ArchiveIndex) :
    (Expand index t).level_ = t.level_ := by
  rw [Expand_eq]; split <;> simp [ArchiveIndex.level_]

theorem Expand_instances (index : ServerIndex) (t : ArchiveIndex) :
    (Expand index t).instances_ = t.instances_ := by
  rw [Expand_eq]; split <;> simp [ArchiveIndex.instances_]

theorem Expand_cons_pending (index : ServerIndex) (level : ResourceType) (id : String)
    (rest : Resources) (is : List Instance) (h : level ≠ .Instance) :
    Expand index (.mk level ((id, none) :: rest) is) =
      .mk level ((id, some (Expand index (newChildToExpand index level id))) ::
        (Expand index (.mk level rest is)).resources_) is := by
  rw [Expand_resources _ _ (by simpa [ArchiveIndex.level_] using h)]
  rw [Expand_eq]
  simp [ArchiveIndex.level_, ArchiveIndex.resources_, ArchiveIndex.instances_, h]

theorem Expand_cons_child (index : ServerIndex) (level : ResourceType) (id : String)
    (child : ArchiveIndex) (rest : Resources) (is : List Instance) (h : level ≠ .Instance) :
    Expand index (.mk level ((id, some child) :: rest) is) =
      .mk level ((id, some (Expand index child)) ::
        (Expand index (.mk level rest is)).resources_) is := by
  rw [Expand_resources _ _ (by simpa [ArchiveIndex.level_] using h)]
  rw [Expand_eq]
  simp [ArchiveIndex.level_, ArchiveIndex.resources_, ArchiveIndex.instances_, h]

/-! ## Characterisations of the predicates -/

theorem hasPendingIn_eq_false (rs : List (String × Option ArchiveIndex)) :
    hasPendingIn rs = false ↔ ∀ e ∈ rs, ∃ c, e.2 = some c ∧ hasPending c = false := by
  induction rs with
  | nil => simp [hasPendingIn]
  | cons hd tl ih =>
    obtain ⟨k, w⟩ := hd
    cases w with
    | none =>
      simp only [hasPendingIn, List.mem_cons, forall_eq_or_imp, Bool.true_eq_false, false_iff,
        not_and]
      intro h
      obtain ⟨c, hc, _⟩ := h
      cases hc
    | some c =>
      simp only [hasPendingIn, Bool.or_eq_false_iff, ih, List.mem_cons, forall_eq_or_imp,
        Option.some.injEq, exists_eq_left']

theorem hasPending_mk (level : ResourceType) (rs : Resources) (is : List Instance) :
    hasPending (.mk level rs is) = hasPendingIn rs := by
  simp [hasPending]

theorem hasPending_eq (t : ArchiveIndex) : hasPending t = hasPendingIn t.resources_ := by
  cases t; simp [hasPending, ArchiveIndex.resources_]

theorem wellFormedChildren_iff (childLevel : ResourceType)
    (rs : List (String × Option ArchiveIndex)) :
    wellFormedChildren childLevel rs = true ↔
      ∀ id c, (id, some c) ∈ rs → c.level_ = childLevel ∧ wellFormed c = true := by
  induction rs with
  | nil => simp [wellFormedChildren]
  | cons hd tl ih =>
    obtain ⟨k, w⟩ := hd
    cases w with
    | none =>
      simp only [wellFormedChildren, ih, List.mem_cons, Prod.mk.injEq, reduceCtorEq, and_false,
        false_or]
    | some c =>
      simp only [wellFormedChildren, Bool.and_eq_true, decide_eq_true_eq, ih, List.mem_cons,
        Prod.mk.injEq, Option.some.injEq]
      constructor
      · rintro ⟨⟨h1, h2⟩, h3⟩ id c2 (⟨_, rfl⟩ | h)
        · exact ⟨h1, h2⟩
        · exact h3 id c2 h
      · intro h
        exact ⟨h k c (Or.inl ⟨rfl, rfl⟩), fun id c2 h2 => h id c2 (Or.inr h2)⟩

theorem wellFormed_iff (t : ArchiveIndex) :
    wellFormed t = true ↔
      (t.level_ = .Instance → t.resources_ = []) ∧
      (t.level_ ≠ .Instance → t.instances_ = []) ∧
      ∀ id c, (id, some c) ∈ t.resources_ →
        c.level_ = GetChildResourceType t.level_ ∧ wellFormed c = true := by
  cases t with
  | mk level rs is =>
    simp only [wellFormed, Bool.and_eq_true, wellFormedChildren_iff, ArchiveIndex.level_,
      ArchiveIndex.resources_, ArchiveIndex.instances_]
    by_cases h : level = .Instance
    · simp [h, List.isEmpty_iff]
    · simp [h, List.isEmpty_iff]

theorem wellFormed_new (level : ResourceType) : wellFormed (.new level) = true := by
  cases level <;> rfl

/-! ## The level discipline is kept by `Add` and `Expand` -/

theorem wellFormed_assign (t : ArchiveIndex) (id : String) (v : Option ArchiveIndex)
    (ht : wellFormed t = true) (hL : t.level_ ≠ .Instance)
    (hv : ∀ c, v = some c → c.level_ = GetChildResourceType t.level_ ∧ wellFormed c = true) :
    wellFormed (.mk t.level_ (mapAssign t.resources_ id v) t.instances_) = true := by
  rw [wellFormed_iff] at ht ⊢
  simp only [ArchiveIndex.level_, ArchiveIndex.resources_, ArchiveIndex.instances_]
  refine ⟨fun h => absurd h hL, ht.2.1, ?_⟩
  intro k c hk
  rcases mem_mapAssign _ _ _ _ hk with h | h
  · cases h
    exact hv c rfl
  · exact ht.2.2 k c h

theorem wellFormed_AddResourceToExpand (index : ServerIndex) (t : ArchiveIndex) (id : String)
    (ht : wellFormed t = true) : wellFormed (AddResourceToExpand index t id) = true := by
  cases t with
  | mk level rs is =>
    by_cases hL : level = .Instance
    · subst hL
      rw [AddResourceToExpand_instance]
      rw [wellFormed_iff] at ht ⊢
      simpa [ArchiveIndex.level_, ArchiveIndex.resources_, ArchiveIndex.instances_] using ht
    · rw [AddResourceToExpand_other _ _ _ _ _ hL]
      exact wellFormed_assign (.mk level rs is) id none ht hL (by simp)

theorem level_AddResourceToExpand (index : ServerIndex) (t : ArchiveIndex) (id : String) :
    (AddResourceToExpand index t id).level_ = t.level_ := by
  unfold AddResourceToExpand
  split
  · split <;> simp [ArchiveIndex.level_]
  · simp [ArchiveIndex.level_]

/-- Method `Add` keeps the level of the node and the level discipline. -/
theorem wellFormed_Add (index : ServerIndex) (resource : ResourceIdentifiers) (t : ArchiveIndex) :
    ∀ t2, wellFormed t = true → Add index resource t = .ok t2 →
      t2.level_ = t.level_ ∧ wellFormed t2 = true := by
  induction t using height_induction with
  | step t ih =>
    intro t2 ht h
    rw [Add_eq] at h
    split at h
    · cases h
    · rename_i id hid
      split at h
      · cases h
        exact ⟨level_AddResourceToExpand _ _ _, wellFormed_AddResourceToExpand _ _ _ ht⟩
      · rename_i hL
        split at h
        · cases h
          exact ⟨rfl, wellFormed_assign t id none ht hL (by simp)⟩
        · split at h
          · -- first time we meet this resource
            split at h
            · cases h
            · rename_i child hchild
              cases h
              have := ih _ (height_new_child_lt t hL) child (wellFormed_new _) hchild
              refine ⟨rfl, wellFormed_assign t id (some child) ht hL ?_⟩
              intro c hc
              cases hc
              exact ⟨this.1, this.2⟩
          · rename_i previous hprev
            split at h
            · cases h
            · rename_i child hchild
              cases h
              have hmem := mapFind_mem _ _ _ hprev
              have hwf := ((wellFormed_iff t).mp ht).2.2 id previous hmem
              have := ih _ (height_child_lt t id previous hmem) child hwf.2 hchild
              refine ⟨rfl, wellFormed_assign t id (some child) ht hL ?_⟩
              intro c hc
              cases hc
              exact ⟨this.1.trans hwf.1, this.2⟩
          · cases h
            exact ⟨rfl, ht⟩

/-- The loop of `AddResourcesOfInterest` keeps the level of the root and the
level discipline. -/
theorem wellFormed_AddResourcesOfInterest (index : ServerIndex) (ids : List String) :
    ∀ t t2, wellFormed t = true → AddResourcesOfInterest index t ids = .ok t2 →
      t2.level_ = t.level_ ∧ wellFormed t2 = true := by
  induction ids with
  | nil =>
    intro t t2 ht h
    simp only [AddResourcesOfInterest] at h
    cases h
    exact ⟨rfl, ht⟩
  | cons id rest ih =>
    intro t t2 ht h
    simp only [AddResourcesOfInterest] at h
    split at h
    · cases h
    · split at h
      · cases h
      · rename_i resource _ _ archive2 hadd
        have h1 := wellFormed_Add index resource t archive2 ht hadd
        have h2 := ih archive2 t2 h1.2 h
        exact ⟨h2.1.trans h1.1, h2.2⟩

theorem wellFormed_newChildToExpand (index : ServerIndex) (level : ResourceType) (id : String) :
    (newChildToExpand index level id).level_ = GetChildResourceType level ∧
      wellFormed (newChildToExpand index level id) = true := by
  have key : ∀ (ids : List String) (c : ArchiveIndex), wellFormed c = true →
      (ids.foldl (fun child id2 => AddResourceToExpand index child id2) c).level_ = c.level_ ∧
      wellFormed (ids.foldl (fun child id2 => AddResourceToExpand index child id2) c) = true := by
    intro ids
    induction ids with
    | nil => intro c hc; exact ⟨rfl, hc⟩
    | cons a tl ih =>
      intro c hc
      simp only [List.foldl]
      have := ih _ (wellFormed_AddResourceToExpand index c a hc)
      exact ⟨this.1.trans (level_AddResourceToExpand _ _ _), this.2⟩
  exact key _ _ (wellFormed_new _)

/-- Method `Expand` keeps the level discipline and leaves no pending child in a
tree that follows it. -/
theorem Expand_wellFormed (index : ServerIndex) (t : ArchiveIndex) :
    wellFormed t = true →
      wellFormed (Expand index t) = true ∧ hasPending (Expand index t) = false := by
  induction t using height_induction with
  | step t ih =>
    intro ht
    have hwf := (wellFormed_iff t).mp ht
    by_cases hL : t.level_ = .Instance
    · have : Expand index t = t := by rw [Expand_eq]; simp [hL]
      rw [this]
      refine ⟨ht, ?_⟩
      rw [hasPending_eq, hwf.1 hL]
      rfl
    · have entry : ∀ e ∈ (Expand index t).resources_, ∃ c, e.2 = some c ∧
          c.level_ = GetChildResourceType t.level_ ∧ wellFormed c = true ∧
          hasPending c = false := by
        intro e he
        rw [Expand_resources _ _ hL] at he
        obtain ⟨e0, he0, rfl⟩ := List.mem_map.mp he
        obtain ⟨k, w⟩ := e0
        cases w with
        | none =>
          have hn := wellFormed_newChildToExpand index t.level_ k
          have := ih _ (height_newChildToExpand_lt index t k hL) hn.2
          exact ⟨_, rfl, (Expand_level _ _).trans hn.1, this.1, this.2⟩
        | some c =>
          have hc := hwf.2.2 k c he0
          have := ih _ (height_child_lt t k c he0) hc.2
          exact ⟨_, rfl, (Expand_level _ _).trans hc.1, this.1, this.2⟩
      constructor
      · rw [wellFormed_iff]
        rw [Expand_level, Expand_instances]
        refine ⟨fun h => absurd h hL, hwf.2.1, ?_⟩
        intro k c hk
        obtain ⟨c2, hc2, h1, h2, _⟩ := entry _ hk
        cases hc2
        exact ⟨h1, h2⟩
      · rw [hasPending_eq, hasPendingIn_eq_false]
        intro e he
        obtain ⟨c, hc, _, _, h3⟩ := entry e he
        exact ⟨c, hc, h3⟩

/-- C1: for every index and every list of requested identifiers, if the
loop that resolves each identifier and adds its chain to an empty
`Patient`-level root succeeds, then after `Expand` no node of the tree, at
any depth and of any level, has a pending (`NULL`) child. -/
theorem Expand_leaves_no_pending (index : ServerIndex) (ids : List String) (t : ArchiveIndex)
    (h : AddResourcesOfInterest index (.new .Patient) ids = .ok t) :
    hasPending (Expand index t) = false :=
  (Expand_wellFormed index t
    (wellFormed_AddResourcesOfInterest index ids _ t (wellFormed_new _) h).2).2

/-! ## `Expand` on an expanded tree -/

theorem Expand_of_not_hasPending (index : ServerIndex) (t : ArchiveIndex) :
    hasPending t = false → Expand index t = t := by
  induction t using height_induction with
  | step t ih =>
    intro h
    rw [Expand_eq]
    split
    · rfl
    · rw [hasPending_eq, hasPendingIn_eq_false] at h
      have : (t.resources_.map fun entry =>
          match entry.2 with
          | none => (entry.1, some (Expand index (newChildToExpand index t.level_ entry.1)))
          | some child => (entry.1, some (Expand index child))) = t.resources_ := by
        conv => rhs; rw [← List.map_id t.resources_]
        apply List.map_congr_left
        intro e he
        obtain ⟨k, w⟩ := e
        obtain ⟨c, hc, hp⟩ := h _ he
        simp only at hc
        subst hc
        simp only [id_eq]
        rw [ih c (height_child_lt t k c he) hp]
      rw [this, mk_eta]

theorem Expand_Expand (index : ServerIndex) (t : ArchiveIndex) :
    Expand index (Expand index t) = Expand index t := by
  induction t using height_induction with
  | step t ih =>
    by_cases hL : t.level_ = .Instance
    · have : Expand index t = t := by rw [Expand_eq]; simp [hL]
      rw [this, this]
    · have hL2 : (Expand index t).level_ ≠ .Instance := by rwa [Expand_level]
      rw [Expand_eq index (Expand index t)]
      simp only [hL2, if_false]
      rw [Expand_resources _ _ hL, Expand_level, Expand_instances]
      conv => rhs; rw [Expand_eq]
      simp only [hL, if_false]
      congr 1
      rw [List.map_map]
      apply List.map_congr_left
      intro e he
      obtain ⟨k, w⟩ := e
      cases w with
      | none =>
        simp only [Function.comp]
        rw [ih _ (height_newChildToExpand_lt index t k hL)]
      | some c =>
        simp only [Function.comp]
        rw [ih _ (height_child_lt t k c he)]

/-- C3: `Expand` leaves a tree without pending node unchanged, and a second
`Expand` leaves the result of a first one unchanged: the same entries at
every node and the same instance lists. -/
theorem Expand_idempotent (index : ServerIndex) (t : ArchiveIndex) :
    (hasPending t = false → Expand index t = t) ∧
      Expand index (Expand index t) = Expand index t :=
  ⟨Expand_of_not_hasPending index t, Expand_Expand index t⟩

/-! ## `Apply` -/

theorem Apply_mk (level : ResourceType) (rs : Resources) (is : List Instance) :
    Apply (.mk level rs is) =
      if level = .Instance then
        .ok (is.map fun it => VisitorCall.AddInstance it.id_ it.dicom_)
      else ApplyResources level rs := by
  simp [Apply]

theorem Apply_eq (t : ArchiveIndex) :
    Apply t =
      if t.level_ = .Instance then
        .ok (t.instances_.map fun it => VisitorCall.AddInstance it.id_ it.dicom_)
      else ApplyResources t.level_ t.resources_ := by
  cases t; simp [Apply, ArchiveIndex.level_, ArchiveIndex.resources_, ArchiveIndex.instances_]

theorem ApplyResources_outcome (level : ResourceType) (rs : Resources)
    (ih : ∀ id c, (id, some c) ∈ rs →
      (hasPending c = true → Apply c = .error .AssertionFailed) ∧
      (hasPending c = false → ∃ calls, Apply c = .ok calls)) :
    (hasPendingIn rs = true → ApplyResources level rs = .error .AssertionFailed) ∧
    (hasPendingIn rs = false → ∃ calls, ApplyResources level rs = .ok calls) := by
  induction rs with
  | nil => simp [hasPendingIn, ApplyResources]
  | cons hd tl ihl =>
    obtain ⟨k, w⟩ := hd
    have ihtl := ihl fun id c h => ih id c (List.mem_cons_of_mem _ h)
    cases w with
    | none => simp [hasPendingIn, ApplyResources]
    | some c =>
      have hc := ih k c (List.mem_cons_self _ _)
      simp only [hasPendingIn, ApplyResources, Bool.or_eq_true, Bool.or_eq_false_iff]
      constructor
      · intro h
        cases hp : hasPending c with
        | true => rw [hc.1 hp]
        | false =>
          obtain ⟨calls, hcalls⟩ := hc.2 hp
          rw [hcalls]
          have : hasPendingIn tl = true := by
            rcases h with h | h
            · rw [hp] at h; cases h
            · exact h
          simp only [ihtl.1 this]
      · rintro ⟨h1, h2⟩
        obtain ⟨calls, hcalls⟩ := hc.2 h1
        obtain ⟨calls2, hcalls2⟩ := ihtl.2 h2
        rw [hcalls]
        simp only [hcalls2]
        exact ⟨_, rfl⟩

/-- C6: on a tree that follows the level discipline of the class, `Apply`
stops on the failed assertion whenever some node of the tree has a pending
child, and completes, returning the calls made, whenever no node has one. -/
theorem Apply_outcome (t : ArchiveIndex) (hwf : wellFormed t = true) :
    (hasPending t = true → Apply t = .error .AssertionFailed) ∧
    (hasPending t = false → ∃ calls, Apply t = .ok calls) := by
  induction t using height_induction with
  | step t ih =>
    have h := (wellFormed_iff t).mp hwf
    rw [Apply_eq, hasPending_eq]
    by_cases hL : t.level_ = .Instance
    · simp [hL, h.1 hL, hasPendingIn]
    · simp only [hL, if_false]
      apply ApplyResources_outcome
      intro id c hc
      exact ih c (height_child_lt t id c hc) (h.2.2 id c hc).2

end ArchiveIndex

/-! ## Bracketing of the calls made by `Apply` -/

theorem checkCalls_nil (s : List ResourceType) : checkCalls s [] = some s := by
  cases s <;> rfl

theorem checkCalls_append (calls rest : List VisitorCall) :
    ∀ s s2, checkCalls s calls = some s2 → checkCalls s (calls ++ rest) = checkCalls s2 rest := by
  induction calls with
  | nil => intro s s2 h; rw [checkCalls_nil] at h; cases h; rfl
  | cons c tl ih =>
    intro s s2 h
    cases c with
    | Open level id =>
      simp only [checkCalls, List.cons_append] at h ⊢
      split at h
      · rename_i hl
        simp only [hl, if_true]
        exact ih _ _ h
      · cases h
    | Close =>
      cases s with
      | nil => simp [checkCalls] at h
      | cons top s =>
        simp only [checkCalls, List.cons_append] at h ⊢
        exact ih _ _ h
    | AddInstance id dicom =>
      simp only [checkCalls, List.cons_append] at h ⊢
      split at h
      · rename_i hs
        simp only [hs, if_true]
        rw [hs] at h
        exact ih _ _ h
      · cases h

theorem checkCalls_instances (is : List Instance) :
    checkCalls [.Series, .Study, .Patient]
      (is.map fun it => VisitorCall.AddInstance it.id_ it.dicom_) =
        some [.Series, .Study, .Patient] := by
  induction is with
  | nil => rfl
  | cons a tl ih => simpa [checkCalls] using ih

theorem countOpen_append (a b : List VisitorCall) :
    countOpen (a ++ b) = countOpen a + countOpen b := by
  induction a with
  | nil => simp [countOpen]
  | cons c tl ih =>
    cases c <;> simp [countOpen, ih]
    omega

theorem countClose_append (a b : List VisitorCall) :
    countClose (a ++ b) = countClose a + countClose b := by
  induction a with
  | nil => simp [countClose]
  | cons c tl ih =>
    cases c <;> simp [countClose, ih]
    omega

namespace ArchiveIndex

theorem ApplyResources_bracketed (level : ResourceType) (hL : level ≠ .Instance)
    (rs : Resources)
    (ih : ∀ id c, (id, some c) ∈ rs → ∃ calls, Apply c = .ok calls ∧
      checkCalls (stackAt (GetChildResourceType level)) calls =
        some (stackAt (GetChildResourceType level)))
    (hp : hasPendingIn rs = false) :
    ∃ calls, ApplyResources level rs = .ok calls ∧
      checkCalls (stackAt level) calls = some (stackAt level) := by
  induction rs with
  | nil => exact ⟨[], rfl, checkCalls_nil _⟩
  | cons hd tl ihl =>
    obtain ⟨k, w⟩ := hd
    cases w with
    | none => simp [hasPendingIn] at hp
    | some c =>
      simp only [hasPendingIn, Bool.or_eq_false_iff] at hp
      obtain ⟨inner, hinner, hcheck⟩ := ih k c (List.mem_cons_self _ _)
      obtain ⟨after, hafter, hcheck2⟩ :=
        ihl (fun id c h => ih id c (List.mem_cons_of_mem _ h)) hp.2
      refine ⟨VisitorCall.Open level k :: inner ++ VisitorCall.Close :: after, ?_, ?_⟩
      · simp only [ApplyResources, hinner, hafter]
      · have hdepth : levelAtDepth (stackAt level).length = some level := by
          cases level <;> first | rfl | exact absurd rfl hL
        have hpush : level :: stackAt level = stackAt (GetChildResourceType level) := by
          cases level <;> first | rfl | exact absurd rfl hL
        simp only [checkCalls, hdepth, if_true, List.cons_append]
        rw [hpush, checkCalls_append _ _ _ _ hcheck, ← hpush]
        simpa only [checkCalls] using hcheck2

/-- Every node without pending child of a tree that follows the level
discipline is traversed with balanced brackets, starting and ending with the
stack of the levels above it. -/
theorem Apply_bracketed (t : ArchiveIndex) (hwf : wellFormed t = true)
    (hp : hasPending t = false) :
    ∃ calls, Apply t = .ok calls ∧
      checkCalls (stackAt t.level_) calls = some (stackAt t.level_) := by
  induction t using height_induction with
  | step t ih =>
    have h := (wellFormed_iff t).mp hwf
    rw [Apply_eq]
    rw [hasPending_eq] at hp
    by_cases hL : t.level_ = .Instance
    · simp only [hL, if_true]
      exact ⟨_, rfl, checkCalls_instances _⟩
    · simp only [hL, if_false]
      apply ApplyResources_bracketed _ hL _ _ hp
      intro id c hc
      have hc2 := h.2.2 id c hc
      have hpc : hasPending c = false := by
        obtain ⟨c2, h1, h2⟩ := (hasPendingIn_eq_false _).mp hp _ hc
        cases h1
        exact h2
      have := ih c (height_child_lt t id c hc) hc2.2 hpc
      rw [hc2.1] at this
      exact this

end ArchiveIndex

theorem instancesOf_ids (index : ServerIndex) (ids : List String) :
    (instancesOf index ids).map (fun it => it.id_) =
      ids.filter fun id => (index.LookupAttachment id .Dicom).isSome := by
  induction ids with
  | nil => rfl
  | cons a tl ih =>
    unfold instancesOf at ih ⊢
    cases h : index.LookupAttachment a .Dicom <;>
      simp [List.filterMap_cons, List.filter_cons, h, ih]

theorem mem_instancesOf (index : ServerIndex) (ids : List String) (it : Instance)
    (h : it ∈ instancesOf index ids) : it.id_ ∈ ids := by
  have : it.id_ ∈ (instancesOf index ids).map (fun it => it.id_) :=
    List.mem_map.mpr ⟨it, h, rfl⟩
  rw [instancesOf_ids] at this
  exact (List.mem_filter.mp this).1

theorem nodup_instancesOf (index : ServerIndex) (ids : List String) (h : ids.Nodup) :
    ((instancesOf index ids).map fun it => it.id_).Nodup := by
  rw [instancesOf_ids]
  exact h.filter _

namespace ArchiveIndex

/-! ## Selecting an ancestor together with one of its descendants -/

theorem count_instancesOf (index : ServerIndex) (ids : List String) (d : String) :
    ((instancesOf index ids).filter fun it => it.id_ = d).length =
      if (index.LookupAttachment d .Dicom).isSome then ids.count d else 0 := by
  induction ids with
  | nil => simp [instancesOf]
  | cons a tl ih =>
    unfold instancesOf at ih ⊢
    by_cases had : a = d
    · subst had
      cases hatt : index.LookupAttachment a .Dicom with
      | none => simpa [List.filterMap_cons, hatt] using ih
      | some info =>
        simp only [List.filterMap_cons, hatt, Option.map_some', Option.isSome_some, if_true,
          List.count_cons_self] at ih ⊢
        simp [List.filter_cons, ih]
    · cases hatt : index.LookupAttachment a .Dicom with
      | none =>
        simp only [List.filterMap_cons, hatt, Option.map_none']
        rw [ih]
        simp [List.count_cons, had]
      | some info =>
        simp only [List.filterMap_cons, hatt, Option.map_some']
        simp only [List.filter_cons, had, decide_False, Bool.false_eq_true, if_false]
        rw [ih]
        simp [List.count_cons, had]

theorem Add_ancestor_trees (index : ServerIndex) (d a : String)
    (cd ca : ResourceIdentifiers)
    (hd : ResourceIdentifiers.create index d = .ok cd)
    (ha : ResourceIdentifiers.create index a = .ok ca)
    (hlt : ca.GetLevel < cd.GetLevel) (hanc : cd.GetIdentifier ca.GetLevel = .ok a) :
    ∃ t, AddResourcesOfInterest index (.new .Patient) [a] = .ok t ∧
      AddResourcesOfInterest index (.new .Patient) [d, a] = .ok t ∧
      AddResourcesOfInterest index (.new .Patient) [a, d] = .ok t ∧
      (ca.GetLevel = .Series →
        Expand index t = .mk .Patient [(ca.patient_, some (.mk .Study [(ca.study_,
          some (.mk .Series [(a, some (.mk .Instance []
            (instancesOf index (index.GetChildren a))))] []))] []))] []) := by
  simp only [AddResourcesOfInterest, hd, ha]
  rcases ResourceIdentifiers.create_ok_cases index d cd hd with ⟨hl, rfl⟩ | ⟨p, hl, h1, rfl⟩ |
    ⟨p, t, hl, h1, h2, rfl⟩ | ⟨p, t, s, hl, h1, h2, h3, rfl⟩ <;>
  rcases ResourceIdentifiers.create_ok_cases index a ca ha with ⟨hl', rfl⟩ | ⟨p', hl', h1', rfl⟩ |
    ⟨p', t', hl', h1', h2', rfl⟩ | ⟨p', t', s', hl', h1', h2', h3', rfl⟩ <;>
  simp [ResourceIdentifiers.GetLevel, ResourceType.lt_def, ResourceType.toNat] at hlt <;>
  simp [ResourceIdentifiers.GetLevel, ResourceIdentifiers.GetIdentifier, ResourceType.gt_def,
    ResourceType.toNat] at hanc <;>
  subst hanc <;>
  simp_all [Add_eq, ArchiveIndex.new, ArchiveIndex.level_, ResourceIdentifiers.GetIdentifier,
    ResourceIdentifiers.GetLevel, mapFind, mapAssign, GetChildResourceType,
    ArchiveIndex.resources_, ArchiveIndex.instances_, ResourceType.gt_def, ResourceType.toNat,
    AddResourceToExpand]
  simp [Expand_cons_child, Expand_cons_pending, Expand_nil, Expand_instance,
    newChildToExpand_series, ArchiveIndex.resources_]

/-- C2 (amended): when `a` is a proper ancestor of `d` (the identifier that
the chain of `d` records at the level of `a`, above the level of `d`), adding
`d` then `a`, or `a` then `d`, to an empty `Patient`-level root and expanding
gives the same tree as adding `a` alone and expanding. When `a` is a series
(and `d` one of its instances), that tree has the single path patient, study,
series `a`, and the instance list of `a` holds, in the reported order, the
instances the index reports under `a` that have a DICOM attachment
(`instancesOf`): `d` occurs in it as often as the index reports it under `a`
when `d` has a DICOM attachment, and not at all when it has none. When every
reported child has a DICOM attachment, the identifiers of the instance list
are exactly the reported children, in the reported order. -/
theorem ancestor_supersedes (index : ServerIndex) (d a : String)
    (cd ca : ResourceIdentifiers)
    (hd : ResourceIdentifiers.create index d = .ok cd)
    (ha : ResourceIdentifiers.create index a = .ok ca)
    (hlt : ca.GetLevel < cd.GetLevel) (hanc : cd.GetIdentifier ca.GetLevel = .ok a) :
    ∃ t1 t2 t3,
      AddResourcesOfInterest index (.new .Patient) [a] = .ok t1 ∧
      AddResourcesOfInterest index (.new .Patient) [d, a] = .ok t2 ∧
      AddResourcesOfInterest index (.new .Patient) [a, d] = .ok t3 ∧
      Expand index t2 = Expand index t1 ∧
      Expand index t3 = Expand index t1 ∧
      (ca.GetLevel = .Series →
        Expand index t1 = .mk .Patient [(ca.patient_, some (.mk .Study [(ca.study_,
          some (.mk .Series [(a, some (.mk .Instance []
            (instancesOf index (index.GetChildren a))))] []))] []))] [] ∧
        ((instancesOf index (index.GetChildren a)).filter fun it => it.id_ = d).length =
          (if (index.LookupAttachment d .Dicom).isSome
            then (index.GetChildren a).count d else 0) ∧
        ((∀ i ∈ index.GetChildren a, (index.LookupAttachment i .Dicom).isSome = true) →
          (instancesOf index (index.GetChildren a)).map (fun it => it.id_) =
            index.GetChildren a)) := by
  obtain ⟨t, h1, h2, h3, h4⟩ := Add_ancestor_trees index d a cd ca hd ha hlt hanc
  refine ⟨t, t, t, h1, h2, h3, rfl, rfl, fun hs => ⟨h4 hs, count_instancesOf _ _ _, ?_⟩⟩
  intro hall
  rw [instancesOf_ids]
  exact List.filter_eq_self.mpr hall

end ArchiveIndex

/-! ## `GetIdentifier` on a resolved chain -/

namespace ResourceIdentifiers

/-- C9: on a chain returned by the constructor, `GetIdentifier` raises
`InternalError` exactly when the requested level lies beyond the level of
the chain, otherwise it returns the identifier recorded at that level; the
identifiers recorded beyond the level of the chain are empty. -/
theorem GetIdentifier_outcome (index : ServerIndex) (id : String) (c : ResourceIdentifiers)
    (h : create index id = .ok c) (L : ResourceType) :
    (c.GetIdentifier L = .error .InternalError ↔ L > c.GetLevel) ∧
    (¬ L > c.GetLevel → c.GetIdentifier L = .ok (c.recorded L)) ∧
    (L > c.GetLevel → c.recorded L = "") := by
  rcases create_ok_cases index id c h with ⟨_, rfl⟩ | ⟨p, _, _, rfl⟩ |
    ⟨p, t, _, _, _, rfl⟩ | ⟨p, t, s, _, _, _, _, rfl⟩ <;>
  cases L <;>
  simp [GetIdentifier, GetLevel, recorded, ResourceType.gt_def, ResourceType.toNat]

end ResourceIdentifiers

/-! ## The example index, evaluated -/

theorem example_create_I1 :
    ResourceIdentifiers.create exampleIndex "I1" = .ok exampleChain := rfl

theorem example_create_S :
    ResourceIdentifiers.create exampleIndex "S" = .ok ⟨.Series, "P", "T", "S", ""⟩ := rfl

theorem example_add_S :
    AddResourcesOfInterest exampleIndex (.new .Patient) ["S"] = .ok exampleSelection := by
  simp +decide [AddResourcesOfInterest, example_create_S, ArchiveIndex.Add_eq,
    ArchiveIndex.new, ArchiveIndex.level_, ResourceIdentifiers.GetIdentifier,
    ResourceIdentifiers.GetLevel, mapFind, mapAssign, GetChildResourceType,
    ArchiveIndex.resources_, ArchiveIndex.instances_, exampleSelection]

theorem example_attachment_I1 :
    exampleIndex.LookupAttachment "I1" .Dicom = some ⟨"I1", .Dicom, 10, .None⟩ := rfl

set_option maxRecDepth 4000 in
theorem example_add_I1_twice :
    AddResourcesOfInterest exampleIndex (.new .Patient) ["I1", "I1"] = .ok exampleRepeated := by
  simp +decide [AddResourcesOfInterest, example_create_I1, exampleChain, ArchiveIndex.Add_eq,
    ArchiveIndex.new, ArchiveIndex.level_, ResourceIdentifiers.GetIdentifier,
    ResourceIdentifiers.GetLevel, mapFind, mapAssign, GetChildResourceType,
    ArchiveIndex.resources_, ArchiveIndex.instances_, exampleRepeated,
    ArchiveIndex.AddResourceToExpand, example_attachment_I1]

theorem example_expand_selection :
    ArchiveIndex.Expand exampleIndex exampleSelection = exampleExpanded := by
  simp +decide [exampleSelection, exampleExpanded, ArchiveIndex.Expand_cons_child,
    ArchiveIndex.Expand_cons_pending, ArchiveIndex.Expand_nil, ArchiveIndex.Expand_instance,
    ArchiveIndex.newChildToExpand_series, ArchiveIndex.resources_, instancesOf, exampleIndex]

theorem example_expand_repeated :
    ArchiveIndex.Expand exampleIndex exampleRepeated = exampleRepeated := by
  simp +decide [exampleRepeated, ArchiveIndex.Expand_cons_child,
    ArchiveIndex.Expand_nil, ArchiveIndex.Expand_instance, ArchiveIndex.resources_]

theorem example_apply_repeated :
    ArchiveIndex.Apply exampleRepeated =
      .ok [.Open .Patient "P", .Open .Study "T", .Open .Series "S",
        .AddInstance "I1" ⟨"I1", .Dicom, 10, .None⟩,
        .AddInstance "I1" ⟨"I1", .Dicom, 10, .None⟩, .Close, .Close, .Close] := rfl

/-! ## The instances visited by `Apply` -/

theorem addedEntries_append (a b : List VisitorCall) :
    addedEntries (a ++ b) = addedEntries a ++ addedEntries b := by
  induction a with
  | nil => rfl
  | cons c tl ih => cases c <;> simp [addedEntries, ih]

theorem addedEntries_instances (is : List Instance) :
    addedEntries (is.map fun it => VisitorCall.AddInstance it.id_ it.dicom_) = is := by
  induction is with
  | nil => rfl
  | cons a tl ih => simp [addedEntries, ih]

theorem addedInstances_eq (calls : List VisitorCall) :
    addedInstances calls = (addedEntries calls).map fun it => it.id_ := by
  induction calls with
  | nil => rfl
  | cons c tl ih => cases c <;> simp [addedInstances, addedEntries, ih]

namespace ArchiveIndex

theorem instanceEntries_eq (t : ArchiveIndex) :
    instanceEntries t =
      if t.level_ = .Instance then t.instances_ else instanceEntriesIn t.resources_ := by
  cases t; simp [instanceEntries, ArchiveIndex.level_, ArchiveIndex.resources_,
    ArchiveIndex.instances_]

theorem ApplyResources_addedEntries (level : ResourceType) (rs : Resources)
    (ih : ∀ id c, (id, some c) ∈ rs → ∀ calls, Apply c = .ok calls →
      addedEntries calls = instanceEntries c) :
    ∀ calls, ApplyResources level rs = .ok calls →
      addedEntries calls = instanceEntriesIn rs := by
  induction rs with
  | nil =>
    intro calls h
    simp only [ApplyResources] at h
    cases h
    rfl
  | cons hd tl ihl =>
    obtain ⟨k, w⟩ := hd
    intro calls h
    cases w with
    | none => simp [ApplyResources] at h
    | some c =>
      simp only [ApplyResources] at h
      split at h
      · cases h
      · rename_i inner hinner
        split at h
        · cases h
        · rename_i after hafter
          simp only [Except.ok.injEq] at h
          subst h
          have h1 := ih k c (List.mem_cons_self _ _) inner hinner
          have h2 := ihl (fun id c h => ih id c (List.mem_cons_of_mem _ h)) after hafter
          simp only [List.cons_append, addedEntries, List.append_eq, addedEntries_append, h1,
            h2, instanceEntriesIn]

/-- The calls to `AddInstance` of a complete traversal are the instance
entries of the tree, one call per entry, in order. -/
theorem Apply_addedEntries (t : ArchiveIndex) :
    ∀ calls, Apply t = .ok calls → addedEntries calls = instanceEntries t := by
  induction t using height_induction with
  | step t ih =>
    intro calls h
    rw [Apply_eq] at h
    rw [instanceEntries_eq]
    split at h
    · rename_i hL
      cases h
      simp only [hL, if_true]
      exact addedEntries_instances _
    · rename_i hL
      simp only [hL, if_false]
      apply ApplyResources_addedEntries _ _ _ _ h
      intro id c hc
      exact ih c (height_child_lt t id c hc)

/-- C5 (as stated, refuted): in the example index, adding the chain of
`I1`, an instance, twice to an empty root and expanding gives a tree on
which `Apply` passes `I1` to `AddInstance` twice. -/
theorem repeated_instance_visited_twice :
    ∃ t calls, AddResourcesOfInterest exampleIndex (.new .Patient) ["I1", "I1"] = .ok t ∧
      Apply (Expand exampleIndex t) = .ok calls ∧
      addedInstances calls = ["I1", "I1"] ∧ ¬ (addedInstances calls).Nodup := by
  refine ⟨exampleRepeated, [.Open .Patient "P", .Open .Study "T", .Open .Series "S",
    .AddInstance "I1" ⟨"I1", .Dicom, 10, .None⟩,
    .AddInstance "I1" ⟨"I1", .Dicom, 10, .None⟩, .Close, .Close, .Close],
    example_add_I1_twice, ?_, ?_, ?_⟩
  · rw [example_expand_repeated]
    exact example_apply_repeated
  · rfl
  · decide

end ArchiveIndex

/-! ## Key order of the map -/

theorem keyLt_iff (a b : String) : a.toList < b.toList ↔ a < b :=
  String.lt_iff_toList_lt.symm

theorem keyLt_irrefl (a : String) : ¬ a.toList < a.toList := by
  rw [keyLt_iff]; exact lt_irrefl a

theorem keyLt_trans {a b c : String} (h1 : a.toList < b.toList) (h2 : b.toList < c.toList) :
    a.toList < c.toList := by
  rw [keyLt_iff] at *; exact lt_trans h1 h2

theorem keyLt_of_not {a b : String} (h1 : ¬ a = b) (h2 : ¬ a.toList < b.toList) :
    b.toList < a.toList := by
  rw [keyLt_iff] at *
  rcases lt_trichotomy a b with h | h | h
  · exact absurd h h2
  · exact absurd h h1
  · exact h

theorem mem_keys_mapAssign {β : Type} (rs : List (String × β)) (id : String) (v : β)
    (x : String) (h : x ∈ (mapAssign rs id v).map Prod.fst) :
    x = id ∨ x ∈ rs.map Prod.fst := by
  obtain ⟨e, he, rfl⟩ := List.mem_map.mp h
  rcases mem_mapAssign rs id v e he with h1 | h1
  · left; rw [h1]
  · right; exact List.mem_map.mpr ⟨e, h1, rfl⟩

theorem mem_mapAssign_self {β : Type} (rs : List (String × β)) (id : String) (v : β) :
    id ∈ (mapAssign rs id v).map Prod.fst := by
  induction rs with
  | nil => simp [mapAssign]
  | cons hd tl ih =>
    obtain ⟨k, w⟩ := hd
    simp only [mapAssign]
    split
    · rename_i h; simp [h]
    · split
      · simp
      · simp only [List.map_cons, List.mem_cons]
        right; exact ih

theorem mem_keys_of_mapAssign {β : Type} (rs : List (String × β)) (id : String) (v : β)
    (x : String) (h : x ∈ rs.map Prod.fst) : x ∈ (mapAssign rs id v).map Prod.fst := by
  induction rs with
  | nil => simp at h
  | cons hd tl ih =>
    obtain ⟨k, w⟩ := hd
    simp only [mapAssign]
    split
    · simpa using h
    · split
      · simp only [List.map_cons, List.mem_cons] at h ⊢
        right; exact h
      · simp only [List.map_cons, List.mem_cons] at h ⊢
        rcases h with h | h
        · left; exact h
        · right; exact ih h

/-- Assignment keeps the keys of the map in strictly increasing order. -/
theorem mapAssign_sorted {β : Type} (rs : List (String × β)) (id : String) (v : β)
    (h : (rs.map Prod.fst).Pairwise (fun a b => a.toList < b.toList)) :
    ((mapAssign rs id v).map Prod.fst).Pairwise (fun a b => a.toList < b.toList) := by
  induction rs with
  | nil => simp [mapAssign]
  | cons hd tl ih =>
    obtain ⟨k, w⟩ := hd
    simp only [List.map_cons, List.pairwise_cons] at h
    simp only [mapAssign]
    split
    · simpa only [List.map_cons, List.pairwise_cons] using h
    · rename_i hne
      split
      · rename_i hlt
        simp only [List.map_cons, List.pairwise_cons, List.mem_cons]
        refine ⟨?_, h⟩
        rintro x (rfl | hx)
        · exact hlt
        · exact keyLt_trans hlt (h.1 x hx)
      · rename_i hnlt
        simp only [List.map_cons, List.pairwise_cons]
        refine ⟨?_, ih h.2⟩
        intro x hx
        rcases mem_keys_mapAssign tl id v x hx with rfl | hx
        · exact keyLt_of_not hne hnlt
        · exact h.1 x hx

theorem sorted_keys_nodup (ks : List String)
    (h : ks.Pairwise (fun a b => a.toList < b.toList)) : ks.Nodup := by
  apply List.Pairwise.imp _ h
  intro a b hab heq
  subst heq
  exact keyLt_irrefl a hab

namespace ArchiveIndex

/-! ## The node invariant -/

theorem allNodesIn_iff (P : ArchiveIndex → Prop) (rs : List (String × Option ArchiveIndex)) :
    allNodesIn P rs ↔ ∀ id c, (id, some c) ∈ rs → allNodes P c := by
  induction rs with
  | nil => simp [allNodesIn]
  | cons hd tl ih =>
    obtain ⟨k, w⟩ := hd
    cases w with
    | none =>
      simp only [allNodesIn, ih, List.mem_cons, Prod.mk.injEq, reduceCtorEq, and_false,
        false_or]
    | some c =>
      simp only [allNodesIn, ih, List.mem_cons, Prod.mk.injEq, Option.some.injEq]
      constructor
      · rintro ⟨h1, h2⟩ id c2 (⟨_, rfl⟩ | h)
        · exact h1
        · exact h2 id c2 h
      · intro h
        exact ⟨h k c (Or.inl ⟨rfl, rfl⟩), fun id c2 h2 => h id c2 (Or.inr h2)⟩

theorem allNodes_iff (P : ArchiveIndex → Prop) (t : ArchiveIndex) :
    allNodes P t ↔ P t ∧ ∀ id c, (id, some c) ∈ t.resources_ → allNodes P c := by
  cases t with
  | mk level rs is =>
    simp only [allNodes, allNodesIn_iff, ArchiveIndex.resources_]

theorem mem_instanceEntriesIn (rs : List (String × Option ArchiveIndex)) (it : Instance) :
    it ∈ instanceEntriesIn rs ↔ ∃ id c, (id, some c) ∈ rs ∧ it ∈ instanceEntries c := by
  induction rs with
  | nil => simp [instanceEntriesIn]
  | cons hd tl ih =>
    obtain ⟨k, w⟩ := hd
    cases w with
    | none =>
      simp only [instanceEntriesIn, ih, List.mem_cons, Prod.mk.injEq, reduceCtorEq, and_false,
        false_or]
    | some c =>
      simp only [instanceEntriesIn, List.mem_append, ih, List.mem_cons, Prod.mk.injEq,
        Option.some.injEq]
      constructor
      · rintro (h | ⟨id, c2, h1, h2⟩)
        · exact ⟨k, c, Or.inl ⟨rfl, rfl⟩, h⟩
        · exact ⟨id, c2, Or.inr h1, h2⟩
      · rintro ⟨id, c2, (⟨_, rfl⟩ | h1), h2⟩
        · exact Or.inl h2
        · exact Or.inr ⟨id, c2, h1, h2⟩

/-- The identifiers of the instance entries of the tree, in traversal order. -/
theorem mem_instanceEntries_of_child (t : ArchiveIndex) (hL : t.level_ ≠ .Instance)
    (id : String) (c : ArchiveIndex) (hc : (id, some c) ∈ t.resources_) (it : Instance)
    (h : it ∈ instanceEntries c) : it ∈ instanceEntries t := by
  rw [instanceEntries_eq]
  simp only [hL, if_false]
  exact (mem_instanceEntriesIn _ _).mpr ⟨id, c, hc, h⟩

theorem mem_instanceEntries_child (t : ArchiveIndex) (hL : t.level_ ≠ .Instance)
    (it : Instance) (h : it ∈ instanceEntries t) :
    ∃ id c, (id, some c) ∈ t.resources_ ∧ it ∈ instanceEntries c := by
  rw [instanceEntries_eq] at h
  simp only [hL, if_false] at h
  exact (mem_instanceEntriesIn _ _).mp h

theorem instanceEntries_instance (t : ArchiveIndex) (hL : t.level_ = .Instance) :
    instanceEntries t = t.instances_ := by
  rw [instanceEntries_eq]; simp [hL]

end ArchiveIndex

/-! ## Parents along a resolved chain -/

namespace ResourceIdentifiers

/-- In a chain returned by the constructor, the identifier at each level is
the parent, in the index, of the identifier one level below. -/
theorem create_parent (index : ServerIndex) (id : String) (r : ResourceIdentifiers)
    (h : create index id = .ok r) (L : ResourceType) (x y : String)
    (hL : L ≠ .Instance) (hx : r.GetIdentifier L = .ok x)
    (hy : r.GetIdentifier (GetChildResourceType L) = .ok y) :
    index.LookupParent y = some x := by
  rcases create_ok_cases index id r h with ⟨_, rfl⟩ | ⟨p, _, h1, rfl⟩ |
    ⟨p, t, _, h1, h2, rfl⟩ | ⟨p, t, s, _, h1, h2, h3, rfl⟩ <;>
  cases L <;>
  simp_all [GetIdentifier, GetChildResourceType, ResourceType.gt_def, ResourceType.toNat]

/-- A chain returned by the constructor has an identifier at level
`Instance` only if it is the chain of an instance, and then that identifier
is the one that was resolved. -/
theorem create_instance (index : ServerIndex) (id : String) (r : ResourceIdentifiers)
    (h : create index id = .ok r) (x : String) (hx : r.GetIdentifier .Instance = .ok x) :
    x = id ∧ r.GetLevel = .Instance ∧
      index.LookupResourceType id = some (.enumerator .Instance) := by
  rcases create_ok_cases index id r h with ⟨_, rfl⟩ | ⟨p, _, h1, rfl⟩ |
    ⟨p, t, _, h1, h2, rfl⟩ | ⟨p, t, s, hl, h1, h2, h3, rfl⟩ <;>
  simp_all [GetIdentifier, GetLevel, ResourceType.gt_def, ResourceType.toNat]

theorem GetIdentifier_ok_le (r : ResourceIdentifiers) (L : ResourceType) (x : String)
    (h : r.GetIdentifier L = .ok x) : L ≤ r.GetLevel := by
  unfold GetIdentifier at h
  split at h
  · cases h
  · rename_i hgt
    rw [ResourceType.gt_def] at hgt
    rw [ResourceType.le_def]
    exact Nat.le_of_not_lt hgt

theorem GetIdentifier_child_ok (r : ResourceIdentifiers) (L : ResourceType) (x : String)
    (h : r.GetIdentifier L = .ok x) (hne : r.GetLevel ≠ L) :
    ∃ y, r.GetIdentifier (GetChildResourceType L) = .ok y := by
  have hle := GetIdentifier_ok_le r L x h
  rw [ResourceType.le_def] at hle
  obtain ⟨lv, p, t, s, i⟩ := r
  cases L <;> cases lv <;>
    simp_all [GetIdentifier, GetLevel, GetChildResourceType, ResourceType.gt_def,
      ResourceType.toNat]

end ResourceIdentifiers

namespace ArchiveIndex

theorem assign_invariant (index : ServerIndex) (t : ArchiveIndex) (id : String)
    (v : Option ArchiveIndex) (hinv : allNodes (nodeInvariant index) t)
    (hv : ∀ c, v = some c → allNodes (nodeInvariant index) c ∧ contentUnder index id c) :
    allNodes (nodeInvariant index)
      (.mk t.level_ (mapAssign t.resources_ id v) t.instances_) := by
  rw [allNodes_iff] at hinv ⊢
  obtain ⟨⟨h1, h2, h3⟩, h4⟩ := hinv
  simp only [nodeInvariant, ArchiveIndex.resources_, ArchiveIndex.instances_]
  refine ⟨⟨mapAssign_sorted _ _ _ h1, h2, ?_⟩, ?_⟩
  · intro key child hmem
    rcases mem_mapAssign _ _ _ _ hmem with h | h
    · cases h
      exact (hv child rfl).2
    · exact h3 key child h
  · intro key child hmem
    rcases mem_mapAssign _ _ _ _ hmem with h | h
    · cases h
      exact (hv child rfl).1
    · exact h4 key child h

theorem assign_entries (t : ArchiveIndex) (id : String) (v : Option ArchiveIndex)
    (hL : t.level_ ≠ .Instance) (it : Instance)
    (h : it ∈ instanceEntries (.mk t.level_ (mapAssign t.resources_ id v) t.instances_)) :
    (∃ c, v = some c ∧ it ∈ instanceEntries c) ∨ it ∈ instanceEntries t := by
  obtain ⟨key, child, hmem, hit⟩ := mem_instanceEntries_child
    (.mk t.level_ (mapAssign t.resources_ id v) t.instances_)
    (by simpa only [ArchiveIndex.level_] using hL) it h
  simp only [ArchiveIndex.resources_] at hmem
  rcases mem_mapAssign _ _ _ _ hmem with h | h
  · cases h
    exact Or.inl ⟨child, rfl, hit⟩
  · exact Or.inr (mem_instanceEntries_of_child t hL key child h it hit)

theorem assign_contentUnder (index : ServerIndex) (key : String) (t : ArchiveIndex)
    (id : String) (v : Option ArchiveIndex) (hid : index.LookupParent id = some key)
    (h : contentUnder index key t) :
    contentUnder index key (.mk t.level_ (mapAssign t.resources_ id v) t.instances_) := by
  refine ⟨?_, h.2⟩
  intro e he
  simp only [ArchiveIndex.resources_] at he
  rcases mem_mapAssign _ _ _ _ he with h1 | h1
  · rw [h1]; exact hid
  · exact h.1 e h1

theorem allNodes_new (index : ServerIndex) (level : ResourceType) :
    allNodes (nodeInvariant index) (.new level) := by
  simp [ArchiveIndex.new, allNodes, allNodesIn, nodeInvariant, ArchiveIndex.resources_,
    ArchiveIndex.instances_]

theorem instanceEntries_new (level : ResourceType) : instanceEntries (.new level) = [] := by
  cases level <;> rfl

theorem contentUnder_new (index : ServerIndex) (key : String) (level : ResourceType) :
    contentUnder index key (.new level) := by
  simp [contentUnder, ArchiveIndex.new, ArchiveIndex.resources_, ArchiveIndex.instances_]

/-- Method `Add`, given a resolved chain, keeps the node invariant; the only instance
entry it can add carries the resolved identifier. -/
theorem Add_invariant (index : ServerIndex) (id0 : String) (r : ResourceIdentifiers)
    (hr : ResourceIdentifiers.create index id0 = .ok r) (t : ArchiveIndex) :
    ∀ t2, wellFormed t = true → allNodes (nodeInvariant index) t →
      (r.GetLevel = .Instance → ∀ it ∈ instanceEntries t, it.id_ ≠ id0) →
      Add index r t = .ok t2 →
      allNodes (nodeInvariant index) t2 ∧
      (∀ it ∈ instanceEntries t2,
        it ∈ instanceEntries t ∨ (r.GetLevel = .Instance ∧ it.id_ = id0)) ∧
      (∀ key, (∀ x, r.GetIdentifier t.level_ = .ok x → index.LookupParent x = some key) →
        contentUnder index key t → contentUnder index key t2) := by
  induction t using height_induction with
  | step t ih =>
    intro t2 hwf hinv hfresh h
    rw [Add_eq] at h
    split at h
    · cases h
    · rename_i id hid
      split at h
      · -- a node of level Instance
        rename_i hL
        simp only [Except.ok.injEq] at h
        subst h
        rw [hL] at hid
        obtain ⟨hid0, hlev, _⟩ := ResourceIdentifiers.create_instance index id0 r hr id hid
        subst hid0
        cases t with
        | mk level rs is =>
          simp only [ArchiveIndex.level_] at hL
          subst hL
          rw [AddResourceToExpand_instance]
          have hold : instanceEntries (.mk .Instance rs is) = is := by
            simp [instanceEntries]
          have hnew : instanceEntries (.mk .Instance rs (is ++ instancesOf index [id])) =
              is ++ instancesOf index [id] := by
            simp [instanceEntries]
          rw [hold] at hfresh
          rw [allNodes_iff] at hinv ⊢
          obtain ⟨⟨h1, h2, h3⟩, h4⟩ := hinv
          simp only [ArchiveIndex.resources_, ArchiveIndex.instances_] at h1 h2 h3 h4
          refine ⟨⟨⟨h1, ?_, h3⟩, h4⟩, ?_, ?_⟩
          · simp only [ArchiveIndex.instances_, List.map_append]
            refine List.Nodup.append h2 (nodup_instancesOf _ _ (by simp)) ?_
            intro x hx1 hx2
            obtain ⟨it, hit, rfl⟩ := List.mem_map.mp hx1
            obtain ⟨it2, hit2, heq⟩ := List.mem_map.mp hx2
            have := mem_instancesOf _ _ _ hit2
            simp only [List.mem_singleton] at this
            exact hfresh hlev it hit (heq.symm.trans this)
          · intro it hit
            rw [hnew] at hit
            rw [hold]
            rcases List.mem_append.mp hit with h5 | h5
            · exact Or.inl h5
            · have := mem_instancesOf _ _ _ h5
              simp only [List.mem_singleton] at this
              exact Or.inr ⟨hlev, this⟩
          · intro key hkey hcu
            refine ⟨hcu.1, ?_⟩
            intro it hit
            simp only [ArchiveIndex.instances_] at hit
            rcases List.mem_append.mp hit with h5 | h5
            · exact hcu.2 it h5
            · have := mem_instancesOf _ _ _ h5
              simp only [List.mem_singleton] at this
              rw [this]
              exact hkey id hid
      · rename_i hL
        split at h
        · -- the resource itself: mark it for expansion
          simp only [Except.ok.injEq] at h
          subst h
          refine ⟨assign_invariant index t id none hinv (by simp), ?_, ?_⟩
          · intro it hit
            rcases assign_entries t id none hL it hit with ⟨c, hc, _⟩ | h5
            · cases hc
            · exact Or.inl h5
          · intro key hkey hcu
            exact assign_contentUnder index key t id none (hkey id hid) hcu
        · rename_i hne
          have hchildId : ∀ x, r.GetIdentifier (GetChildResourceType t.level_) = .ok x →
              index.LookupParent x = some id :=
            fun x hx => ResourceIdentifiers.create_parent index id0 r hr t.level_ id x hL hid hx
          split at h
          · -- first time we meet this resource
            split at h
            · cases h
            · rename_i child hchild
              simp only [Except.ok.injEq] at h
              subst h
              obtain ⟨hA, hB, hC⟩ := ih _ (height_new_child_lt t hL) child (wellFormed_new _)
                (allNodes_new index _) (by simp [instanceEntries_new]) hchild
              have hcu := hC id (by simpa [ArchiveIndex.new, ArchiveIndex.level_] using hchildId)
                (contentUnder_new index id _)
              refine ⟨assign_invariant index t id (some child) hinv ?_, ?_, ?_⟩
              · intro c hc
                cases hc
                exact ⟨hA, hcu⟩
              · intro it hit
                rcases assign_entries t id (some child) hL it hit with ⟨c, hc, h5⟩ | h5
                · cases hc
                  rcases hB it h5 with h6 | h6
                  · simp [instanceEntries_new] at h6
                  · exact Or.inr h6
                · exact Or.inl h5
              · intro key hkey hcu2
                exact assign_contentUnder index key t id _ (hkey id hid) hcu2
          · rename_i previous hprev
            split at h
            · cases h
            · rename_i child hchild
              simp only [Except.ok.injEq] at h
              subst h
              have hmem := mapFind_mem _ _ _ hprev
              have hwfp := ((wellFormed_iff t).mp hwf).2.2 id previous hmem
              have hinvp := (allNodes_iff _ t).mp hinv
              obtain ⟨hA, hB, hC⟩ := ih _ (height_child_lt t id previous hmem) child hwfp.2
                (hinvp.2 id previous hmem)
                (fun hl it hit => hfresh hl it
                  (mem_instanceEntries_of_child t hL id previous hmem it hit)) hchild
              have hcu := hC id (by rw [hwfp.1]; exact hchildId)
                (hinvp.1.2.2 id previous hmem)
              refine ⟨assign_invariant index t id (some child) hinv ?_, ?_, ?_⟩
              · intro c hc
                cases hc
                exact ⟨hA, hcu⟩
              · intro it hit
                rcases assign_entries t id (some child) hL it hit with ⟨c, hc, h5⟩ | h5
                · cases hc
                  rcases hB it h5 with h6 | h6
                  · exact Or.inl (mem_instanceEntries_of_child t hL id previous hmem it h6)
                  · exact Or.inr h6
                · exact Or.inl h5
              · intro key hkey hcu2
                exact assign_contentUnder index key t id _ (hkey id hid) hcu2
          · -- already marked for expansion
            simp only [Except.ok.injEq] at h
            subst h
            exact ⟨hinv, fun it hit => Or.inl hit, fun key _ hcu => hcu⟩

end ArchiveIndex

theorem ResourceIdentifiers.create_level (index : ServerIndex) (id : String)
    (r : ResourceIdentifiers) (h : create index id = .ok r) :
    index.LookupResourceType id = some (.enumerator r.GetLevel) := by
  rcases create_ok_cases index id r h with ⟨hl, rfl⟩ | ⟨p, hl, _, rfl⟩ |
    ⟨p, t, hl, _, _, rfl⟩ | ⟨p, t, s, hl, _, _, _, rfl⟩ <;> exact hl

theorem mem_keys_foldl_mapAssign {β : Type} (v : β) (ids : List String) :
    ∀ (rs : List (String × β)) (x : String),
      x ∈ (ids.foldl (fun m id2 => mapAssign m id2 v) rs).map Prod.fst →
        x ∈ ids ∨ x ∈ rs.map Prod.fst := by
  induction ids with
  | nil => intro rs x h; exact Or.inr h
  | cons a tl ih =>
    intro rs x h
    simp only [List.foldl] at h
    rcases ih _ x h with h1 | h1
    · exact Or.inl (List.mem_cons_of_mem _ h1)
    · rcases mem_keys_mapAssign rs a v x h1 with h2 | h2
      · exact Or.inl (h2 ▸ List.mem_cons_self _ _)
      · exact Or.inr h2

theorem foldl_mapAssign_sorted {β : Type} (v : β) (ids : List String) :
    ∀ (rs : List (String × β)), (rs.map Prod.fst).Pairwise (fun a b => a.toList < b.toList) →
      ((ids.foldl (fun m id2 => mapAssign m id2 v) rs).map Prod.fst).Pairwise
        (fun a b => a.toList < b.toList) := by
  induction ids with
  | nil => intro rs h; exact h
  | cons a tl ih =>
    intro rs h
    simp only [List.foldl]
    exact ih _ (mapAssign_sorted rs a v h)

namespace ArchiveIndex

/-- The loop of `AddResourcesOfInterest` keeps the node invariant, as long as
no identifier of an instance is requested twice. -/
theorem AddResourcesOfInterest_invariant (index : ServerIndex) (ids : List String) :
    ∀ t t2, wellFormed t = true → allNodes (nodeInvariant index) t →
      (∀ it ∈ instanceEntries t, it.id_ ∉ ids.filter fun id =>
        index.LookupResourceType id = some (.enumerator .Instance)) →
      (ids.filter fun id =>
        index.LookupResourceType id = some (.enumerator .Instance)).Nodup →
      AddResourcesOfInterest index t ids = .ok t2 →
      allNodes (nodeInvariant index) t2 := by
  induction ids with
  | nil =>
    intro t t2 _ hinv _ _ h
    simp only [AddResourcesOfInterest] at h
    cases h
    exact hinv
  | cons id rest ih =>
    intro t t2 hwf hinv hfresh hnodup h
    simp only [AddResourcesOfInterest] at h
    split at h
    · cases h
    · rename_i resource hres
      split at h
      · cases h
      · rename_i archive2 hadd
        have hlevel := ResourceIdentifiers.create_level index id resource hres
        have hfresh2 : resource.GetLevel = .Instance →
            ∀ it ∈ instanceEntries t, it.id_ ≠ id := by
          intro hl it hit heq
          apply hfresh it hit
          rw [heq]
          rw [hl] at hlevel
          simp [List.filter_cons, hlevel]
        obtain ⟨hA, hB, _⟩ := Add_invariant index id resource hres t archive2 hwf hinv
          hfresh2 hadd
        have hwf2 := (wellFormed_Add index resource t archive2 hwf hadd).2
        apply ih archive2 t2 hwf2 hA ?_ ?_ h
        · intro it hit hmem
          rcases hB it hit with h1 | ⟨hl, h1⟩
          · apply hfresh it h1
            simp only [List.filter_cons]
            split
            · exact List.mem_cons_of_mem _ hmem
            · exact hmem
          · rw [hl] at hlevel
            rw [h1] at hmem
            simp only [List.filter_cons, hlevel, decide_True, if_true,
              List.nodup_cons] at hnodup
            exact hnodup.1 hmem
        · simp only [List.filter_cons] at hnodup
          split at hnodup
          · exact (List.nodup_cons.mp hnodup).2
          · exact hnodup

theorem Expand_keys (index : ServerIndex) (t : ArchiveIndex) :
    (Expand index t).resources_.map Prod.fst = t.resources_.map Prod.fst := by
  by_cases hL : t.level_ = .Instance
  · have : Expand index t = t := by rw [Expand_eq]; simp [hL]
    rw [this]
  · rw [Expand_resources _ _ hL, List.map_map]
    apply List.map_congr_left
    intro e _
    obtain ⟨k, w⟩ := e
    cases w <;> rfl

theorem contentUnder_Expand (index : ServerIndex) (key : String) (t : ArchiveIndex)
    (h : contentUnder index key t) : contentUnder index key (Expand index t) := by
  constructor
  · intro e he
    have : e.1 ∈ (Expand index t).resources_.map Prod.fst := List.mem_map.mpr ⟨e, he, rfl⟩
    rw [Expand_keys] at this
    obtain ⟨e0, he0, heq⟩ := List.mem_map.mp this
    rw [← heq]
    exact h.1 e0 he0
  · rw [Expand_instances]
    exact h.2

/-- The new child built for a pending entry satisfies the node invariant and
has the key of the entry as parent of its content, when the index lists
every child once and under its own parent. -/
theorem newChildToExpand_invariant (index : ServerIndex)
    (hparent : ∀ x y, y ∈ index.GetChildren x → index.LookupParent y = some x)
    (hchildren : ∀ x, (index.GetChildren x).Nodup)
    (level : ResourceType) (hL : level ≠ .Instance) (id : String) :
    allNodes (nodeInvariant index) (newChildToExpand index level id) ∧
      contentUnder index id (newChildToExpand index level id) := by
  by_cases hc : GetChildResourceType level = .Instance
  · have hs : level = .Series := by
      cases level <;> simp_all [GetChildResourceType]
    subst hs
    rw [newChildToExpand_series]
    constructor
    · simp only [allNodes, allNodesIn, nodeInvariant, ArchiveIndex.resources_,
        ArchiveIndex.instances_, and_true]
      exact ⟨by simp, nodup_instancesOf _ _ (hchildren id), by simp⟩
    · constructor
      · simp [ArchiveIndex.resources_]
      · intro it hit
        simp only [ArchiveIndex.instances_] at hit
        exact hparent id _ (mem_instancesOf _ _ _ hit)
  · rw [newChildToExpand_upper _ _ _ hc]
    have hpend := foldl_mapAssign_none_pending (index.GetChildren id) [] (by simp)
    constructor
    · rw [allNodes_iff]
      simp only [nodeInvariant, ArchiveIndex.resources_, ArchiveIndex.instances_]
      refine ⟨⟨foldl_mapAssign_sorted _ _ _ (by simp), by simp, ?_⟩, ?_⟩
      · intro key child hmem
        have := hpend _ hmem
        cases this
      · intro key child hmem
        have := hpend _ hmem
        cases this
    · constructor
      · intro e he
        simp only [ArchiveIndex.resources_] at he
        have : e.1 ∈ ((index.GetChildren id).foldl (fun m id2 => mapAssign m id2 none)
            []).map Prod.fst := List.mem_map.mpr ⟨e, he, rfl⟩
        rcases mem_keys_foldl_mapAssign _ _ _ _ this with h1 | h1
        · exact hparent id _ h1
        · simp at h1
      · simp [ArchiveIndex.instances_]

/-- Method `Expand` keeps the node invariant when the index lists every child once
and under its own parent. -/
theorem Expand_invariant (index : ServerIndex)
    (hparent : ∀ x y, y ∈ index.GetChildren x → index.LookupParent y = some x)
    (hchildren : ∀ x, (index.GetChildren x).Nodup) (t : ArchiveIndex) :
    wellFormed t = true → allNodes (nodeInvariant index) t →
      allNodes (nodeInvariant index) (Expand index t) := by
  induction t using height_induction with
  | step t ih =>
    intro hwf hinv
    by_cases hL : t.level_ = .Instance
    · have : Expand index t = t := by rw [Expand_eq]; simp [hL]
      rw [this]
      exact hinv
    · have hwf2 := (wellFormed_iff t).mp hwf
      have hinv2 := (allNodes_iff _ t).mp hinv
      have entry : ∀ key child, (key, some child) ∈ (Expand index t).resources_ →
          allNodes (nodeInvariant index) child ∧ contentUnder index key child := by
        intro key child hmem
        rw [Expand_resources _ _ hL] at hmem
        obtain ⟨e0, he0, heq⟩ := List.mem_map.mp hmem
        obtain ⟨k, w⟩ := e0
        cases w with
        | none =>
          simp only [Prod.mk.injEq, Option.some.injEq] at heq
          obtain ⟨rfl, rfl⟩ := heq
          have hn := newChildToExpand_invariant index hparent hchildren t.level_ hL k
          exact ⟨ih _ (height_newChildToExpand_lt index t k hL)
            (wellFormed_newChildToExpand index t.level_ k).2 hn.1,
            contentUnder_Expand _ _ _ hn.2⟩
        | some c =>
          simp only [Prod.mk.injEq, Option.some.injEq] at heq
          obtain ⟨rfl, rfl⟩ := heq
          exact ⟨ih _ (height_child_lt t k c he0) (hwf2.2.2 k c he0).2 (hinv2.2 k c he0),
            contentUnder_Expand _ _ _ (hinv2.1.2.2 k c he0)⟩
      rw [allNodes_iff]
      refine ⟨⟨?_, ?_, fun key child hmem => (entry key child hmem).2⟩,
        fun key child hmem => (entry key child hmem).1⟩
      · rw [Expand_keys]
        exact hinv2.1.1
      · rw [Expand_instances]
        exact hinv2.1.2.1

theorem toNat_child (level : ResourceType) (h : level ≠ .Instance) :
    (GetChildResourceType level).toNat = level.toNat + 1 := by
  cases level <;> first | rfl | exact absurd rfl h

theorem toNat_le_four (level : ResourceType) : level.toNat ≤ 4 := by
  cases level <;> decide

/-- Children with distinct keys whose instances each lead back to the key of
their child have no instance identifier in common. -/
theorem nodup_instanceEntriesIn (f : String → Option String)
    (rs : List (String × Option ArchiveIndex)) (hkeys : (rs.map Prod.fst).Nodup)
    (h : ∀ key child, (key, some child) ∈ rs →
      ((instanceEntries child).map fun it => it.id_).Nodup ∧
      ∀ it ∈ instanceEntries child, f it.id_ = some key) :
    ((instanceEntriesIn rs).map fun it => it.id_).Nodup := by
  induction rs with
  | nil => simp [instanceEntriesIn]
  | cons hd tl ih =>
    obtain ⟨k, w⟩ := hd
    simp only [List.map_cons, List.nodup_cons] at hkeys
    have ihtl := ih hkeys.2 fun key child hmem => h key child (List.mem_cons_of_mem _ hmem)
    cases w with
    | none => simpa only [instanceEntriesIn] using ihtl
    | some c =>
      have hc := h k c (List.mem_cons_self _ _)
      simp only [instanceEntriesIn, List.map_append]
      refine List.Nodup.append hc.1 ihtl ?_
      intro x hx1 hx2
      obtain ⟨it1, hit1, rfl⟩ := List.mem_map.mp hx1
      obtain ⟨it2, hit2, heq⟩ := List.mem_map.mp hx2
      obtain ⟨k2, c2, hmem2, hit2c⟩ := (mem_instanceEntriesIn _ _).mp hit2
      have e1 := hc.2 it1 hit1
      have e2 := (h k2 c2 (List.mem_cons_of_mem _ hmem2)).2 it2 hit2c
      rw [heq, e1] at e2
      simp only [Option.some.injEq] at e2
      apply hkeys.1
      rw [e2]
      exact List.mem_map.mpr ⟨(k2, some c2), hmem2, rfl⟩

/-- In a tree that follows the level discipline and the node invariant,
the identifier of an instance is never recorded twice, and every recorded
identifier leads back, by parent lookups, to the key under which the node is
stored. -/
theorem nodup_instanceEntries (index : ServerIndex) (t : ArchiveIndex) :
    wellFormed t = true → allNodes (nodeInvariant index) t →
      ((instanceEntries t).map fun it => it.id_).Nodup ∧
      ∀ key, contentUnder index key t → ∀ it ∈ instanceEntries t,
        ancestorAt index it.id_ (5 - t.level_.toNat) = some key := by
  induction t using height_induction with
  | step t ih =>
    intro hwf hinv
    have hwf2 := (wellFormed_iff t).mp hwf
    have hinv2 := (allNodes_iff _ t).mp hinv
    by_cases hL : t.level_ = .Instance
    · rw [instanceEntries_instance t hL]
      refine ⟨hinv2.1.2.1, ?_⟩
      intro key hcu it hit
      rw [hL]
      simp only [ResourceType.toNat, ancestorAt, Option.bind]
      exact hcu.2 it hit
    · have child : ∀ key c, (key, some c) ∈ t.resources_ →
          ((instanceEntries c).map fun it => it.id_).Nodup ∧
          ∀ it ∈ instanceEntries c, ancestorAt index it.id_ (4 - t.level_.toNat) = some key := by
        intro key c hmem
        have := ih c (height_child_lt t key c hmem) (hwf2.2.2 key c hmem).2 (hinv2.2 key c hmem)
        refine ⟨this.1, ?_⟩
        intro it hit
        have h2 := this.2 key (hinv2.1.2.2 key c hmem) it hit
        rw [(hwf2.2.2 key c hmem).1] at h2
        have : 5 - (GetChildResourceType t.level_).toNat = 4 - t.level_.toNat := by
          rw [toNat_child _ hL]
          omega
        rw [this] at h2
        exact h2
      rw [instanceEntries_eq]
      simp only [hL, if_false]
      refine ⟨nodup_instanceEntriesIn (fun i => ancestorAt index i (4 - t.level_.toNat)) _
        (sorted_keys_nodup _ hinv2.1.1) child, ?_⟩
      intro key hcu it hit
      obtain ⟨k, c, hmem, hitc⟩ := (mem_instanceEntriesIn _ _).mp hit
      have h1 := (child k c hmem).2 it hitc
      have : 5 - t.level_.toNat = (4 - t.level_.toNat) + 1 := by
        have := toNat_le_four t.level_
        omega
      rw [this]
      simp only [ancestorAt, h1, Option.bind]
      exact hcu.1 (k, some c) hmem

/-- C5 (amended): for an index that lists every child once and under its
own parent, and a request in which no identifier of an instance occurs
twice, the tree built by the `AddResourcesOfInterest` loop from an empty
`Patient`-level root and expanded is traversed completely by `Apply`; the
calls to `AddInstance` are the instance entries of the tree, one call per
entry, and no instance identifier is passed to `AddInstance` more than
once. -/
theorem Apply_visits_once (index : ServerIndex) (ids : List String) (t : ArchiveIndex)
    (hparent : ∀ x y, y ∈ index.GetChildren x → index.LookupParent y = some x)
    (hchildren : ∀ x, (index.GetChildren x).Nodup)
    (hids : (ids.filter fun id =>
      index.LookupResourceType id = some (.enumerator .Instance)).Nodup)
    (h : AddResourcesOfInterest index (.new .Patient) ids = .ok t) :
    ∃ calls, Apply (Expand index t) = .ok calls ∧
      addedEntries calls = instanceEntries (Expand index t) ∧
      (addedInstances calls).Nodup := by
  have hwf := (wellFormed_AddResourcesOfInterest index ids _ t (wellFormed_new _) h).2
  have hinv := AddResourcesOfInterest_invariant index ids _ t (wellFormed_new _)
    (allNodes_new index _) (by simp [instanceEntries_new]) hids h
  have hexp := Expand_wellFormed index t hwf
  have hinv2 := Expand_invariant index hparent hchildren t hwf hinv
  obtain ⟨calls, hcalls, _⟩ := Apply_bracketed (Expand index t) hexp.1 hexp.2
  have hentries := Apply_addedEntries (Expand index t) calls hcalls
  refine ⟨calls, hcalls, hentries, ?_⟩
  rw [addedInstances_eq, hentries]
  exact (nodup_instanceEntries index _ hexp.1 hinv2).1

end ArchiveIndex

theorem example_children_parent (x y : String) (h : y ∈ exampleIndex.GetChildren x) :
    exampleIndex.LookupParent y = some x := by
  simp only [exampleIndex] at h ⊢
  split at h
  · simp_all
  · split at h
    · simp_all
    · split at h
      · simp only [List.mem_cons, List.mem_singleton, List.not_mem_nil, or_false] at h
        rcases h with rfl | rfl <;> simp_all
      · simp at h

theorem example_children_nodup (x : String) : (exampleIndex.GetChildren x).Nodup := by
  simp only [exampleIndex]
  split
  · simp
  · split
    · simp
    · split
      · decide
      · simp

theorem example_add_S_I1 :
    AddResourcesOfInterest exampleIndex (.new .Patient) ["S", "I1"] = .ok exampleSelection := by
  simp +decide [AddResourcesOfInterest, example_create_S, example_create_I1, exampleChain,
    ArchiveIndex.Add_eq, ArchiveIndex.new, ArchiveIndex.level_,
    ResourceIdentifiers.GetIdentifier, ResourceIdentifiers.GetLevel, mapFind, mapAssign,
    GetChildResourceType, ArchiveIndex.resources_, ArchiveIndex.instances_, exampleSelection]

/-- Witness of C5 (amended): the series `S` and its instance `I1` are
requested together from the example index. -/
theorem Apply_visits_once_witness :
    AddResourcesOfInterest exampleIndex (.new .Patient) ["S", "I1"] = .ok exampleSelection ∧
    ∃ calls, ArchiveIndex.Apply (ArchiveIndex.Expand exampleIndex exampleSelection) = .ok calls ∧
      (addedInstances calls).Nodup :=
  ⟨example_add_S_I1,
    (ArchiveIndex.Apply_visits_once exampleIndex ["S", "I1"] exampleSelection
      example_children_parent example_children_nodup (by decide) example_add_S_I1).imp
      fun _ h => ⟨h.1, h.2.2⟩⟩

/-! ## The theorems at the example index -/

/-- The chain of the series `S` in the example index. -/
theorem example_series_level :
    (⟨.Series, "P", "T", "S", ""⟩ : ResourceIdentifiers).GetLevel < exampleChain.GetLevel := by
  decide

/-- Witness of C1: the series `S` is added to an empty root and expanded. -/
theorem Expand_leaves_no_pending_witness :
    AddResourcesOfInterest exampleIndex (.new .Patient) ["S"] = .ok exampleSelection ∧
      ArchiveIndex.hasPending (ArchiveIndex.Expand exampleIndex exampleSelection) = false :=
  ⟨example_add_S,
    ArchiveIndex.Expand_leaves_no_pending exampleIndex ["S"] exampleSelection example_add_S⟩

/-- Witness of C2 (amended): the instance `I1` and its series `S`. -/
theorem ancestor_supersedes_witness :
    ResourceIdentifiers.create exampleIndex "I1" = .ok exampleChain ∧
    ResourceIdentifiers.create exampleIndex "S" = .ok ⟨.Series, "P", "T", "S", ""⟩ ∧
    ∃ t1 t2 t3,
      AddResourcesOfInterest exampleIndex (.new .Patient) ["S"] = .ok t1 ∧
      AddResourcesOfInterest exampleIndex (.new .Patient) ["I1", "S"] = .ok t2 ∧
      AddResourcesOfInterest exampleIndex (.new .Patient) ["S", "I1"] = .ok t3 ∧
      ArchiveIndex.Expand exampleIndex t2 = ArchiveIndex.Expand exampleIndex t1 ∧
      ArchiveIndex.Expand exampleIndex t3 = ArchiveIndex.Expand exampleIndex t1 :=
  ⟨example_create_I1, example_create_S,
    (ArchiveIndex.ancestor_supersedes exampleIndex "I1" "S" exampleChain
      ⟨.Series, "P", "T", "S", ""⟩ example_create_I1 example_create_S
      example_series_level rfl).imp fun _ h1 => h1.imp fun _ h2 => h2.imp fun _ h3 =>
        ⟨h3.1, h3.2.1, h3.2.2.1, h3.2.2.2.1, h3.2.2.2.2.1⟩⟩

/-- Witness of C3: the expanded example tree is left unchanged. -/
theorem Expand_idempotent_witness :
    ArchiveIndex.hasPending exampleExpanded = false ∧
      ArchiveIndex.Expand exampleIndex exampleExpanded = exampleExpanded :=
  ⟨rfl, (ArchiveIndex.Expand_idempotent exampleIndex exampleExpanded).1 rfl⟩

/-- Witness of C6: the example selection, whose series is still pending. -/
theorem Apply_outcome_witness :
    ArchiveIndex.wellFormed exampleSelection = true ∧
    ArchiveIndex.hasPending exampleSelection = true ∧
    ArchiveIndex.Apply exampleSelection = .error .AssertionFailed :=
  ⟨rfl, rfl, (ArchiveIndex.Apply_outcome exampleSelection rfl).1 rfl⟩

/-- Witness of C7: the chain of the instance `I1`. -/
theorem create_chain_witness :
    ResourceIdentifiers.create exampleIndex "I1" = .ok exampleChain ∧
      exampleChain.GetIdentifier exampleChain.GetLevel = .ok "I1" :=
  ⟨example_create_I1,
    (ResourceIdentifiers.create_chain exampleIndex "I1" exampleChain example_create_I1).2.1⟩

/-- Witness of C9: the chain of the series `S` asked for its instance. -/
theorem GetIdentifier_outcome_witness :
    ResourceIdentifiers.create exampleIndex "S" = .ok ⟨.Series, "P", "T", "S", ""⟩ ∧
      (⟨.Series, "P", "T", "S", ""⟩ : ResourceIdentifiers).GetIdentifier .Instance =
        .error .InternalError :=
  ⟨example_create_S,
    (ResourceIdentifiers.GetIdentifier_outcome exampleIndex "S" ⟨.Series, "P", "T", "S", ""⟩
      example_create_S .Instance).1.mpr (by decide)⟩

/-- Witness of C8: an identifier the example index does not know. -/
theorem create_outcome_witness :
    exampleIndex.LookupResourceType "X" = none ∧
      ResourceIdentifiers.create exampleIndex "X" = .error .UnknownResource :=
  ⟨rfl, (ResourceIdentifiers.create_outcome exampleIndex "X").1.mpr (Or.inl rfl)⟩

/-! ## Directory names of the visitors -/

/-- The character that the loop over `forbidden` leaves at the place of `c`. -/
theorem findFirstOfFrom_none (chars : List Char) (l : List Char) (k : Nat) :
    findFirstOfFrom chars l k = none ↔ ∀ c ∈ l, c ∉ chars := by
  induction l generalizing k with
  | nil => simp [findFirstOfFrom]
  | cons c rest ih =>
    simp only [findFirstOfFrom, List.mem_cons, forall_eq_or_imp]
    split
    · rename_i h
      simp [h]
    · rename_i h
      simp [h, ih]

theorem findFirstOfFrom_some (chars : List Char) (l : List Char) (k j : Nat)
    (h : findFirstOfFrom chars l k = some j) :
    ∃ pre c post, l = pre ++ c :: post ∧ (∀ x ∈ pre, x ∉ chars) ∧ c ∈ chars ∧
      j = k + pre.length := by
  induction l generalizing k with
  | nil => simp [findFirstOfFrom] at h
  | cons c rest ih =>
    simp only [findFirstOfFrom] at h
    split at h
    · rename_i hc
      cases h
      exact ⟨[], c, rest, rfl, by simp, hc, by simp⟩
    · rename_i hc
      obtain ⟨pre, c2, post, h1, h2, h3, h4⟩ := ih (k + 1) h
      refine ⟨c :: pre, c2, post, by simp [h1], ?_, h3, by simp [h4]; omega⟩
      intro x hx
      rcases List.mem_cons.mp hx with rfl | hx
      · exact hc
      · exact h2 x hx

theorem map_forbidden_id (l : List Char) (h : ∀ c ∈ l, c ∉ forbidden) :
    l.map (fun c => if c ∈ forbidden then '_' else c) = l := by
  induction l with
  | nil => rfl
  | cons c rest ih =>
    simp only [List.map_cons]
    rw [ih fun x hx => h x (List.mem_cons_of_mem _ hx)]
    simp [h c (List.mem_cons_self _ _)]

/-- The loop over `forbidden`, resumed after the characters `done`, replaces
every forbidden character of the remaining ones. -/
theorem replaceForbiddenFrom_eq (n : Nat) :
    ∀ (done rest : List Char), rest.length ≤ n →
      replaceForbiddenFrom (done ++ rest) (findFirstOfFrom forbidden rest done.length) =
        done ++ rest.map (fun c => if c ∈ forbidden then '_' else c) := by
  induction n with
  | zero =>
    intro done rest h
    have : rest = [] := List.length_eq_zero.mp (Nat.le_zero.mp h)
    subst this
    simp only [findFirstOfFrom]
    rw [replaceForbiddenFrom]
    simp
  | succ n ih =>
    intro done rest h
    cases hf : findFirstOfFrom forbidden rest done.length with
    | none =>
      rw [replaceForbiddenFrom]
      rw [map_forbidden_id _ ((findFirstOfFrom_none _ _ _).mp hf)]
    | some j =>
      obtain ⟨pre, c, post, h1, h2, h3, h4⟩ := findFirstOfFrom_some _ _ _ _ hf
      subst h1
      subst h4
      rw [replaceForbiddenFrom]
      have hset : (done ++ (pre ++ c :: post)).set (done.length + pre.length) '_' =
          (done ++ pre ++ ['_']) ++ post := by
        rw [← List.append_assoc, ← List.length_append]
        rw [List.set_append_right _ _ (Nat.le_refl _)]
        simp
      rw [hset]
      have hfind : find_first_of ((done ++ pre ++ ['_']) ++ post) forbidden
          (done.length + pre.length) =
          findFirstOfFrom forbidden post (done ++ pre ++ ['_']).length := by
        unfold find_first_of
        have : ((done ++ pre ++ ['_']) ++ post).drop (done.length + pre.length) =
            '_' :: post := by
          rw [← List.length_append]
          rw [List.append_assoc (done ++ pre), List.drop_left]
          rfl
        rw [this]
        have hnot : ¬ '_' ∈ forbidden := by decide
        simp only [findFirstOfFrom, hnot, if_false, List.length_append, List.length_singleton]
      rw [hfind]
      rw [ih (done ++ pre ++ ['_']) post (by simp at h; omega)]
      simp only [List.map_append, List.map_cons, h3, if_true, List.append_assoc,
        List.singleton_append]
      rw [map_forbidden_id pre h2]

/-- The loop of `Open` over `forbidden` replaces each `/` and each space of
the path by `_` and leaves the other characters. -/
theorem replaceForbidden_eq (path : String) :
    replaceForbidden path =
      String.mk (path.toList.map fun c => if c ∈ forbidden then '_' else c) := by
  unfold replaceForbidden find_first_of
  have := replaceForbiddenFrom_eq path.toList.length [] path.toList (Nat.le_refl _)
  simp only [List.nil_append, List.length_nil, List.drop_zero] at this ⊢
  rw [this]

/-- When the path that reaches the loop of `Open` is not empty, the result of
the loop is not empty and contains neither `/` nor a space. -/
theorem replaceForbidden_clean (path : String) :
    (∀ c ∈ (replaceForbidden path).toList, c ≠ '/' ∧ c ≠ ' ') ∧
      (replaceForbidden path = "" ↔ path = "") := by
  rw [replaceForbidden_eq]
  constructor
  · intro c hc
    simp only [String.toList, List.mem_map] at hc
    obtain ⟨x, _, rfl⟩ := hc
    by_cases hx : x ∈ forbidden
    · simp [hx]
    · simp only [hx, if_false]
      simp only [forbidden, List.mem_cons, List.mem_singleton, List.not_mem_nil, or_false,
        not_or] at hx
      exact hx
  · constructor
    · intro h
      have := congrArg String.toList h
      simp only [String.toList, List.map_eq_nil_iff] at this
      exact String.ext this
    · intro h
      subst h
      rfl

theorem unknown_ne_empty (s : String) : "Unknown " ++ s ≠ "" := by
  intro h
  have := congrArg String.length h
  rw [String.length_append] at this
  have h8 : "Unknown ".length = 8 := by decide
  have h0 : "".length = 0 := by decide
  omega

theorem directoryName_ne_empty (tb : Toolbox) (level : ResourceType) (path : String) :
    directoryName tb level path ≠ "" := by
  unfold directoryName
  split
  · exact unknown_ne_empty _
  · assumption

theorem directoryName_spec (tb : Toolbox) (level : ResourceType) (s : String) :
    directoryName tb level (tb.StripSpaces (tb.ConvertToAscii s)) =
      specDirectoryName tb level s := rfl

theorem directoryName_safe_spec (tb : Toolbox) (level : ResourceType) (s : String) :
    directoryName tb level (replaceForbidden (tb.StripSpaces (tb.ConvertToAscii s))) =
      specSafeDirectoryName tb level s := by
  have hmap : ∀ l : List Char, (l.map fun c => if c ∈ forbidden then '_' else c) =
      l.map fun c => if c = '/' ∨ c = ' ' then '_' else c := by
    intro l
    apply List.map_congr_left
    intro c _
    simp [forbidden]
  unfold directoryName specSafeDirectoryName
  by_cases hs : tb.StripSpaces (tb.ConvertToAscii s) = ""
  · have := (replaceForbidden_clean "").2.mpr rfl
    simp only [hs, this, if_true]
  · have : replaceForbidden (tb.StripSpaces (tb.ConvertToAscii s)) ≠ "" :=
      fun h => hs ((replaceForbidden_clean _).2.mp h)
    simp only [hs, this, if_false]
    rw [replaceForbidden_eq, hmap]

theorem specDirectoryName_ne_empty (tb : Toolbox) (level : ResourceType) (s : String) :
    specDirectoryName tb level s ≠ "" := by
  rw [← directoryName_spec]
  exact directoryName_ne_empty _ _ _

theorem specSafeDirectoryName_ne_empty (tb : Toolbox) (level : ResourceType) (s : String) :
    specSafeDirectoryName tb level s ≠ "" := by
  rw [← directoryName_safe_spec]
  exact directoryName_ne_empty _ _ _

theorem specSafeDirectoryName_clean (tb : Toolbox) (level : ResourceType) (s : String)
    (hs : tb.StripSpaces (tb.ConvertToAscii s) ≠ "") :
    ∀ c ∈ (specSafeDirectoryName tb level s).toList, c ≠ '/' ∧ c ≠ ' ' := by
  have hne : replaceForbidden (tb.StripSpaces (tb.ConvertToAscii s)) ≠ "" :=
    fun h => hs ((replaceForbidden_clean _).2.mp h)
  rw [← directoryName_safe_spec]
  unfold directoryName
  rw [if_neg hne]
  exact (replaceForbidden_clean _).1

theorem substr_none (s : String) (pos : Nat) (h : pos ≤ s.length) :
    substr s pos none = .ok (String.mk (s.toList.drop pos)) := by
  unfold substr
  rw [if_neg (by omega)]

theorem substr_zero (s : String) (n : Nat) :
    substr s 0 (some n) = .ok (String.mk (s.toList.take n)) := by
  unfold substr
  rw [if_neg (by omega)]
  rfl

theorem substr_short (s : String) (pos : Nat) (count : Option Nat) (h : s.length < pos) :
    substr s pos count = .error .out_of_range := by
  unfold substr
  rw [if_pos h]

/-! ### `Open` of the three visitors from the tags of the resource -/

theorem archive_Open_none (tb : Toolbox) (index : ServerIndex) (v : ArchiveWriterVisitor)
    (level : ResourceType) (publicId : String)
    (h : index.GetMainDicomTags publicId level level = none) :
    ArchiveWriterVisitor.Open tb index v level publicId =
      .ok (v, specDirectoryName tb level "") := by
  simp only [ArchiveWriterVisitor.Open, ArchiveWriterVisitor.tagPath, h, directoryName_spec]

theorem archive_Open_patient (tb : Toolbox) (index : ServerIndex) (v : ArchiveWriterVisitor)
    (publicId : String) (tags : DicomMap)
    (h : index.GetMainDicomTags publicId .Patient .Patient = some tags) :
    ArchiveWriterVisitor.Open tb index v .Patient publicId =
      .ok (v, specDirectoryName tb .Patient (GetTag tags DICOM_TAG_PATIENT_ID)) := by
  simp only [ArchiveWriterVisitor.Open, ArchiveWriterVisitor.tagPath, h, directoryName_spec]

theorem archive_Open_study (tb : Toolbox) (index : ServerIndex) (v : ArchiveWriterVisitor)
    (publicId : String) (tags : DicomMap)
    (h : index.GetMainDicomTags publicId .Study .Study = some tags) :
    ArchiveWriterVisitor.Open tb index v .Study publicId =
      .ok (v, specDirectoryName tb .Study (GetTag tags DICOM_TAG_ACCESSION_NUMBER ++ " " ++
        GetTag tags DICOM_TAG_STUDY_DESCRIPTION)) := by
  simp only [ArchiveWriterVisitor.Open, ArchiveWriterVisitor.tagPath, h, directoryName_spec]

theorem archive_Open_series (tb : Toolbox) (index : ServerIndex) (v : ArchiveWriterVisitor)
    (publicId : String) (tags : DicomMap)
    (h : index.GetMainDicomTags publicId .Series .Series = some tags) :
    ∃ format, ArchiveWriterVisitor.Open tb index v .Series publicId =
      .ok ({ instanceFormat_ := format, countInstances_ := 0 },
        specDirectoryName tb .Series (GetTag tags DICOM_TAG_MODALITY ++ " " ++
          GetTag tags DICOM_TAG_SERIES_DESCRIPTION)) := by
  simp only [ArchiveWriterVisitor.Open, ArchiveWriterVisitor.tagPath, h, directoryName_spec]
  exact ⟨_, rfl⟩

theorem stream_Open_none (tb : Toolbox) (index : ServerIndex)
    (level : ResourceType) (publicId : String)
    (h : index.GetMainDicomTags publicId level level = none) :
    TarStreamWriterVisitor.Open tb index level publicId =
      .ok (specSafeDirectoryName tb level "") := by
  simp only [TarStreamWriterVisitor.Open, TarStreamWriterVisitor.tagPath, h,
    directoryName_safe_spec]

theorem stream_Open_patient (tb : Toolbox) (index : ServerIndex)
    (publicId : String) (tags : DicomMap)
    (h : index.GetMainDicomTags publicId .Patient .Patient = some tags) :
    TarStreamWriterVisitor.Open tb index .Patient publicId =
      .ok (specSafeDirectoryName tb .Patient (GetTag tags DICOM_TAG_PATIENT_ID)) := by
  simp only [TarStreamWriterVisitor.Open, TarStreamWriterVisitor.tagPath, h,
    directoryName_safe_spec]

theorem stream_Open_study (tb : Toolbox) (index : ServerIndex)
    (publicId : String) (tags : DicomMap)
    (h : index.GetMainDicomTags publicId .Study .Study = some tags)
    (hdate : 2 ≤ (GetTag tags DICOM_TAG_STUDY_DATE).length) :
    TarStreamWriterVisitor.Open tb index .Study publicId =
      .ok (specSafeDirectoryName tb .Study
        (String.mk ((GetTag tags DICOM_TAG_STUDY_DATE).toList.drop 2) ++ "_" ++
          GetTag tags DICOM_TAG_STUDY_TIME)) := by
  simp only [TarStreamWriterVisitor.Open, TarStreamWriterVisitor.tagPath, h,
    substr_none _ _ hdate, directoryName_safe_spec]

theorem stream_Open_study_short (tb : Toolbox) (index : ServerIndex)
    (publicId : String) (tags : DicomMap)
    (h : index.GetMainDicomTags publicId .Study .Study = some tags)
    (hdate : (GetTag tags DICOM_TAG_STUDY_DATE).length < 2) :
    TarStreamWriterVisitor.Open tb index .Study publicId = .error .out_of_range := by
  simp only [TarStreamWriterVisitor.Open, TarStreamWriterVisitor.tagPath, h,
    substr_short _ _ _ hdate]

theorem stream_Open_series (tb : Toolbox) (index : ServerIndex)
    (publicId : String) (tags : DicomMap)
    (h : index.GetMainDicomTags publicId .Series .Series = some tags) :
    TarStreamWriterVisitor.Open tb index .Series publicId =
      .ok (specSafeDirectoryName tb .Series
        ("S" ++ GetTag tags DICOM_TAG_SERIES_NUMBER ++ "_" ++
          GetTag tags DICOM_TAG_SERIES_DESCRIPTION)) := by
  simp only [TarStreamWriterVisitor.Open, TarStreamWriterVisitor.tagPath, h,
    directoryName_safe_spec]

theorem shadow_Open_none (tb : Toolbox) (index : ServerIndex)
    (level : ResourceType) (publicId : String)
    (h : index.GetMainDicomTags publicId level level = none) :
    ShadowWriterVisitor.Open tb index level publicId =
      .ok (specSafeDirectoryName tb level "") := by
  simp only [ShadowWriterVisitor.Open, ShadowWriterVisitor.tagPath, h,
    directoryName_safe_spec]

theorem shadow_Open_patient (tb : Toolbox) (index : ServerIndex)
    (publicId : String) (tags : DicomMap)
    (h : index.GetMainDicomTags publicId .Patient .Patient = some tags) :
    ShadowWriterVisitor.Open tb index .Patient publicId =
      .ok (specSafeDirectoryName tb .Patient (GetTag tags DICOM_TAG_PATIENT_ID)) := by
  simp only [ShadowWriterVisitor.Open, ShadowWriterVisitor.tagPath, h,
    directoryName_safe_spec]

theorem shadow_Open_study (tb : Toolbox) (index : ServerIndex)
    (publicId : String) (tags : DicomMap)
    (h : index.GetMainDicomTags publicId .Study .Study = some tags)
    (hdate : 2 ≤ (GetTag tags DICOM_TAG_STUDY_DATE).length) :
    ShadowWriterVisitor.Open tb index .Study publicId =
      .ok (specSafeDirectoryName tb .Study
        (String.mk ((GetTag tags DICOM_TAG_STUDY_DATE).toList.drop 2) ++ "_" ++
          String.mk ((GetTag tags DICOM_TAG_STUDY_TIME).toList.take 6))) := by
  simp only [ShadowWriterVisitor.Open, ShadowWriterVisitor.tagPath, h,
    substr_none _ _ hdate, substr_zero, directoryName_safe_spec]

theorem shadow_Open_study_short (tb : Toolbox) (index : ServerIndex)
    (publicId : String) (tags : DicomMap)
    (h : index.GetMainDicomTags publicId .Study .Study = some tags)
    (hdate : (GetTag tags DICOM_TAG_STUDY_DATE).length < 2) :
    ShadowWriterVisitor.Open tb index .Study publicId = .error .out_of_range := by
  simp only [ShadowWriterVisitor.Open, ShadowWriterVisitor.tagPath, h,
    substr_short _ _ _ hdate]

theorem shadow_Open_series (tb : Toolbox) (index : ServerIndex)
    (publicId : String) (tags : DicomMap)
    (h : index.GetMainDicomTags publicId .Series .Series = some tags) :
    ShadowWriterVisitor.Open tb index .Series publicId =
      .ok (specSafeDirectoryName tb .Series
        ("S" ++ GetTag tags DICOM_TAG_SERIES_NUMBER ++ "_" ++
          GetTag tags DICOM_TAG_SERIES_DESCRIPTION)) := by
  simp only [ShadowWriterVisitor.Open, ShadowWriterVisitor.tagPath, h,
    directoryName_safe_spec]

theorem archive_Open_ne_empty (tb : Toolbox) (index : ServerIndex) (level : ResourceType)
    (publicId : String) (v v2 : ArchiveWriterVisitor) (name : String)
    (h : ArchiveWriterVisitor.Open tb index v level publicId = .ok (v2, name)) :
    name ≠ "" := by
  unfold ArchiveWriterVisitor.Open at h
  split at h
  · cases h
  · simp only [Except.ok.injEq, Prod.mk.injEq] at h
    obtain ⟨_, rfl⟩ := h
    exact directoryName_ne_empty _ _ _

theorem stream_Open_ne_empty (tb : Toolbox) (index : ServerIndex) (level : ResourceType)
    (publicId : String) (name : String)
    (h : TarStreamWriterVisitor.Open tb index level publicId = .ok name) :
    name ≠ "" := by
  unfold TarStreamWriterVisitor.Open at h
  split at h
  · cases h
  · simp only [Except.ok.injEq] at h
    subst h
    exact directoryName_ne_empty _ _ _

theorem shadow_Open_ne_empty (tb : Toolbox) (index : ServerIndex) (level : ResourceType)
    (publicId : String) (name : String)
    (h : ShadowWriterVisitor.Open tb index level publicId = .ok name) :
    name ≠ "" := by
  unfold ShadowWriterVisitor.Open at h
  split at h
  · cases h
  · simp only [Except.ok.injEq] at h
    subst h
    exact directoryName_ne_empty _ _ _

/-- C12: for a resource `publicId` whose main tags `tags` the index returns
at the level of the call, the name `Open` passes to `OpenDirectory` is the
directory name of section 4.3 (`specDirectoryName` for the archive visitor:
the string ASCII-folded and trimmed, or `Unknown` and the level name when that
is empty; `specSafeDirectoryName` for the stream and shadow visitors: the same
with each `/` and each space replaced by `_`) of the string made from the
tags of the resource. That string is: at `Patient` level the patient
identifier, for the three visitors; at `Study` level the accession number, a
space and the study description for the archive visitor, the study date from
its third character, `_` and the study time for the stream visitor, the same
with the first six characters of the study time for the shadow visitor (both
when the study date has two characters at least; otherwise they raise); at
`Series` level the modality, a space and the series description for the
archive visitor, and `S`, the series number, `_` and the series description
for the stream and shadow visitors. When the index returns no tags, the name
is the directory name of the empty string. The directory name of a string
whose folded and trimmed form is empty is `Unknown` followed by the level
name; in all other cases it is the folded and trimmed string (with the
replacements); and a name that `Open` passes is never the empty string. -/
theorem Open_directory_name (tb : Toolbox) (index : ServerIndex) (publicId : String)
    (tags : DicomMap) :
    (index.GetMainDicomTags publicId .Patient .Patient = some tags →
      (∀ v, ArchiveWriterVisitor.Open tb index v .Patient publicId =
        .ok (v, specDirectoryName tb .Patient (GetTag tags DICOM_TAG_PATIENT_ID))) ∧
      TarStreamWriterVisitor.Open tb index .Patient publicId =
        .ok (specSafeDirectoryName tb .Patient (GetTag tags DICOM_TAG_PATIENT_ID)) ∧
      ShadowWriterVisitor.Open tb index .Patient publicId =
        .ok (specSafeDirectoryName tb .Patient (GetTag tags DICOM_TAG_PATIENT_ID))) ∧
    (index.GetMainDicomTags publicId .Study .Study = some tags →
      (∀ v, ArchiveWriterVisitor.Open tb index v .Study publicId =
        .ok (v, specDirectoryName tb .Study (GetTag tags DICOM_TAG_ACCESSION_NUMBER ++ " " ++
          GetTag tags DICOM_TAG_STUDY_DESCRIPTION))) ∧
      (2 ≤ (GetTag tags DICOM_TAG_STUDY_DATE).length →
        TarStreamWriterVisitor.Open tb index .Study publicId =
          .ok (specSafeDirectoryName tb .Study
            (String.mk ((GetTag tags DICOM_TAG_STUDY_DATE).toList.drop 2) ++ "_" ++
              GetTag tags DICOM_TAG_STUDY_TIME)) ∧
        ShadowWriterVisitor.Open tb index .Study publicId =
          .ok (specSafeDirectoryName tb .Study
            (String.mk ((GetTag tags DICOM_TAG_STUDY_DATE).toList.drop 2) ++ "_" ++
              String.mk ((GetTag tags DICOM_TAG_STUDY_TIME).toList.take 6)))) ∧
      ((GetTag tags DICOM_TAG_STUDY_DATE).length < 2 →
        TarStreamWriterVisitor.Open tb index .Study publicId = .error .out_of_range ∧
        ShadowWriterVisitor.Open tb index .Study publicId = .error .out_of_range)) ∧
    (index.GetMainDicomTags publicId .Series .Series = some tags →
      (∀ v, ∃ format, ArchiveWriterVisitor.Open tb index v .Series publicId =
        .ok ({ instanceFormat_ := format, countInstances_ := 0 },
          specDirectoryName tb .Series (GetTag tags DICOM_TAG_MODALITY ++ " " ++
            GetTag tags DICOM_TAG_SERIES_DESCRIPTION))) ∧
      TarStreamWriterVisitor.Open tb index .Series publicId =
        .ok (specSafeDirectoryName tb .Series
          ("S" ++ GetTag tags DICOM_TAG_SERIES_NUMBER ++ "_" ++
            GetTag tags DICOM_TAG_SERIES_DESCRIPTION)) ∧
      ShadowWriterVisitor.Open tb index .Series publicId =
        .ok (specSafeDirectoryName tb .Series
          ("S" ++ GetTag tags DICOM_TAG_SERIES_NUMBER ++ "_" ++
            GetTag tags DICOM_TAG_SERIES_DESCRIPTION))) ∧
    (∀ level, index.GetMainDicomTags publicId level level = none →
      (∀ v, ArchiveWriterVisitor.Open tb index v level publicId =
        .ok (v, specDirectoryName tb level "")) ∧
      TarStreamWriterVisitor.Open tb index level publicId =
        .ok (specSafeDirectoryName tb level "") ∧
      ShadowWriterVisitor.Open tb index level publicId =
        .ok (specSafeDirectoryName tb level "")) ∧
    (∀ level s, tb.StripSpaces (tb.ConvertToAscii s) = "" →
      specDirectoryName tb level s = "Unknown " ++ tb.EnumerationToString level ∧
      specSafeDirectoryName tb level s = "Unknown " ++ tb.EnumerationToString level) ∧
    (∀ level s, tb.StripSpaces (tb.ConvertToAscii s) ≠ "" →
      specDirectoryName tb level s = tb.StripSpaces (tb.ConvertToAscii s) ∧
      specSafeDirectoryName tb level s =
        String.mk ((tb.StripSpaces (tb.ConvertToAscii s)).toList.map
          fun c => if c = '/' ∨ c = ' ' then '_' else c)) ∧
    (∀ level name,
      (∀ v v2, ArchiveWriterVisitor.Open tb index v level publicId = .ok (v2, name) →
        name ≠ "") ∧
      (TarStreamWriterVisitor.Open tb index level publicId = .ok name → name ≠ "") ∧
      (ShadowWriterVisitor.Open tb index level publicId = .ok name → name ≠ "")) := by
  refine ⟨?_, ?_, ?_, ?_, ?_, ?_, ?_⟩
  · intro h
    exact ⟨fun v => archive_Open_patient tb index v publicId tags h,
      stream_Open_patient tb index publicId tags h,
      shadow_Open_patient tb index publicId tags h⟩
  · intro h
    exact ⟨fun v => archive_Open_study tb index v publicId tags h,
      fun hdate => ⟨stream_Open_study tb index publicId tags h hdate,
        shadow_Open_study tb index publicId tags h hdate⟩,
      fun hdate => ⟨stream_Open_study_short tb index publicId tags h hdate,
        shadow_Open_study_short tb index publicId tags h hdate⟩⟩
  · intro h
    exact ⟨fun v => archive_Open_series tb index v publicId tags h,
      stream_Open_series tb index publicId tags h,
      shadow_Open_series tb index publicId tags h⟩
  · intro level h
    exact ⟨fun v => archive_Open_none tb index v level publicId h,
      stream_Open_none tb index level publicId h,
      shadow_Open_none tb index level publicId h⟩
  · intro level s hs
    simp only [specDirectoryName, specSafeDirectoryName, hs, if_true, and_self]
  · intro level s hs
    simp only [specDirectoryName, specSafeDirectoryName, hs, if_false, and_self]
  · intro level name
    exact ⟨fun v v2 h => archive_Open_ne_empty tb index level publicId v v2 name h,
      stream_Open_ne_empty tb index level publicId name,
      shadow_Open_ne_empty tb index level publicId name⟩

/-- The example index has no tags for the identifier `X`. -/
theorem example_no_tags (level : ResourceType) :
    exampleIndex.GetMainDicomTags "X" level level = none := rfl

theorem specToolbox_empty : specToolbox.StripSpaces (specToolbox.ConvertToAscii "") = "" := rfl

/-- The tags of the study `T` in the example index. -/
theorem example_study_tags :
    exampleIndex.GetMainDicomTags "T" .Study .Study = some (fun tag =>
      if tag = DICOM_TAG_STUDY_DATE then some (.Text "20160102")
      else if tag = DICOM_TAG_STUDY_TIME then some (.Text "101500.000")
      else if tag = DICOM_TAG_ACCESSION_NUMBER then some (.Text "A1")
      else if tag = DICOM_TAG_STUDY_DESCRIPTION then some (.Text "Head")
      else none) := rfl

/-- Witness of C12: the study `T` of the example index, with the fold and
trim of the specification. Its accession number is `A1`, its description
`Head`, its date `20160102` and its time `101500.000`. -/
theorem Open_directory_name_witness :
    (∀ v, ArchiveWriterVisitor.Open specToolbox exampleIndex v .Study "T" =
      .ok (v, "A1 Head")) ∧
    TarStreamWriterVisitor.Open specToolbox exampleIndex .Study "T" =
      .ok "160102_101500.000" ∧
    ShadowWriterVisitor.Open specToolbox exampleIndex .Study "T" = .ok "160102_101500" :=
  match (Open_directory_name specToolbox exampleIndex "T" _).2.1 example_study_tags with
  | ⟨h1, h2, _⟩ => ⟨fun v => (h1 v).trans rfl, ((h2 (by decide)).1).trans rfl,
      ((h2 (by decide)).2).trans rfl⟩

/-- C13 (as stated, refuted): for a patient whose tag lookup fails, `Open`
produces a name for the stream visitor and for the shadow visitor: both pass
`Unknown Patient` to `OpenDirectory`, and it contains a space. -/
theorem Open_unknown_has_space :
    TarStreamWriterVisitor.Open specToolbox exampleIndex .Patient "X" = .ok "Unknown Patient" ∧
    ShadowWriterVisitor.Open specToolbox exampleIndex .Patient "X" = .ok "Unknown Patient" ∧
    ' ' ∈ "Unknown Patient".toList := by
  refine ⟨?_, ?_, by decide⟩
  · simp only [TarStreamWriterVisitor.Open, TarStreamWriterVisitor.tagPath, example_no_tags,
      specToolbox_empty]
    rw [show replaceForbidden "" = "" from (replaceForbidden_clean "").2.mpr rfl]
    rfl
  · simp only [ShadowWriterVisitor.Open, ShadowWriterVisitor.tagPath, example_no_tags,
      specToolbox_empty]
    rw [show replaceForbidden "" = "" from (replaceForbidden_clean "").2.mpr rfl]
    rfl

/-- When the folded and trimmed path is not empty, the name that the stream
and shadow visitors pass to `OpenDirectory` contains neither `/` nor a
space. -/
theorem Open_clean_of_nonempty (tb : Toolbox) (index : ServerIndex) (level : ResourceType)
    (publicId : String) (path name : String)
    (hpath : tb.StripSpaces (tb.ConvertToAscii path) ≠ "") :
    (TarStreamWriterVisitor.tagPath index level publicId = .ok path →
      TarStreamWriterVisitor.Open tb index level publicId = .ok name →
      ∀ c ∈ name.toList, c ≠ '/' ∧ c ≠ ' ') ∧
    (ShadowWriterVisitor.tagPath index level publicId = .ok path →
      ShadowWriterVisitor.Open tb index level publicId = .ok name →
      ∀ c ∈ name.toList, c ≠ '/' ∧ c ≠ ' ') := by
  have hne : replaceForbidden (tb.StripSpaces (tb.ConvertToAscii path)) ≠ "" :=
    fun h => hpath ((replaceForbidden_clean _).2.mp h)
  constructor
  · intro h1 h2
    simp only [TarStreamWriterVisitor.Open, h1, directoryName, hne, if_false,
      Except.ok.injEq] at h2
    subst h2
    exact (replaceForbidden_clean _).1
  · intro h1 h2
    simp only [ShadowWriterVisitor.Open, h1, directoryName, hne, if_false,
      Except.ok.injEq] at h2
    subst h2
    exact (replaceForbidden_clean _).1

/-- C13 (amended): for the stream and shadow visitors and a resource whose
main tags `tags` the index returns at the level of the call, when the string
made from the tags (at `Patient` level the patient identifier; at `Study`
level the study date from its third character, `_` and the study time, cut
to six characters by the shadow visitor, for a study date of two characters
at least; at `Series` level `S`, the series number, `_` and the series
description) is not empty once ASCII-folded and trimmed, `Open` passes to
`OpenDirectory` that folded and trimmed string with each `/` and each space
replaced by `_`, and this name contains neither `/` nor a space. In every
case a name that `Open` passes either contains neither `/` nor a space or is
`Unknown` followed by the level name. -/
theorem Open_name_clean (tb : Toolbox) (index : ServerIndex) (publicId : String)
    (tags : DicomMap) :
    (index.GetMainDicomTags publicId .Patient .Patient = some tags →
      tb.StripSpaces (tb.ConvertToAscii (GetTag tags DICOM_TAG_PATIENT_ID)) ≠ "" →
      ∃ name, name = String.mk ((tb.StripSpaces (tb.ConvertToAscii
          (GetTag tags DICOM_TAG_PATIENT_ID))).toList.map
            fun c => if c = '/' ∨ c = ' ' then '_' else c) ∧
        TarStreamWriterVisitor.Open tb index .Patient publicId = .ok name ∧
        ShadowWriterVisitor.Open tb index .Patient publicId = .ok name ∧
        ∀ c ∈ name.toList, c ≠ '/' ∧ c ≠ ' ') ∧
    (index.GetMainDicomTags publicId .Study .Study = some tags →
      2 ≤ (GetTag tags DICOM_TAG_STUDY_DATE).length →
      (tb.StripSpaces (tb.ConvertToAscii
          (String.mk ((GetTag tags DICOM_TAG_STUDY_DATE).toList.drop 2) ++ "_" ++
            GetTag tags DICOM_TAG_STUDY_TIME)) ≠ "" →
        ∃ name, name = String.mk ((tb.StripSpaces (tb.ConvertToAscii
            (String.mk ((GetTag tags DICOM_TAG_STUDY_DATE).toList.drop 2) ++ "_" ++
              GetTag tags DICOM_TAG_STUDY_TIME))).toList.map
              fun c => if c = '/' ∨ c = ' ' then '_' else c) ∧
          TarStreamWriterVisitor.Open tb index .Study publicId = .ok name ∧
          ∀ c ∈ name.toList, c ≠ '/' ∧ c ≠ ' ') ∧
      (tb.StripSpaces (tb.ConvertToAscii
          (String.mk ((GetTag tags DICOM_TAG_STUDY_DATE).toList.drop 2) ++ "_" ++
            String.mk ((GetTag tags DICOM_TAG_STUDY_TIME).toList.take 6))) ≠ "" →
        ∃ name, name = String.mk ((tb.StripSpaces (tb.ConvertToAscii
            (String.mk ((GetTag tags DICOM_TAG_STUDY_DATE).toList.drop 2) ++ "_" ++
              String.mk ((GetTag tags DICOM_TAG_STUDY_TIME).toList.take 6)))).toList.map
              fun c => if c = '/' ∨ c = ' ' then '_' else c) ∧
          ShadowWriterVisitor.Open tb index .Study publicId = .ok name ∧
          ∀ c ∈ name.toList, c ≠ '/' ∧ c ≠ ' ')) ∧
    (index.GetMainDicomTags publicId .Series .Series = some tags →
      tb.StripSpaces (tb.ConvertToAscii ("S" ++ GetTag tags DICOM_TAG_SERIES_NUMBER ++ "_" ++
        GetTag tags DICOM_TAG_SERIES_DESCRIPTION)) ≠ "" →
      ∃ name, name = String.mk ((tb.StripSpaces (tb.ConvertToAscii
          ("S" ++ GetTag tags DICOM_TAG_SERIES_NUMBER ++ "_" ++
            GetTag tags DICOM_TAG_SERIES_DESCRIPTION))).toList.map
            fun c => if c = '/' ∨ c = ' ' then '_' else c) ∧
        TarStreamWriterVisitor.Open tb index .Series publicId = .ok name ∧
        ShadowWriterVisitor.Open tb index .Series publicId = .ok name ∧
        ∀ c ∈ name.toList, c ≠ '/' ∧ c ≠ ' ') ∧
    (∀ level name,
      (TarStreamWriterVisitor.Open tb index level publicId = .ok name →
        (∀ c ∈ name.toList, c ≠ '/' ∧ c ≠ ' ') ∨
          name = "Unknown " ++ tb.EnumerationToString level) ∧
      (ShadowWriterVisitor.Open tb index level publicId = .ok name →
        (∀ c ∈ name.toList, c ≠ '/' ∧ c ≠ ' ') ∨
          name = "Unknown " ++ tb.EnumerationToString level)) := by
  have safe : ∀ level s, tb.StripSpaces (tb.ConvertToAscii s) ≠ "" →
      specSafeDirectoryName tb level s =
        String.mk ((tb.StripSpaces (tb.ConvertToAscii s)).toList.map
          fun c => if c = '/' ∨ c = ' ' then '_' else c) := by
    intro level s hs
    simp only [specSafeDirectoryName, hs, if_false]
  have either : ∀ level path, (∀ c ∈ (directoryName tb level (replaceForbidden path)).toList,
      c ≠ '/' ∧ c ≠ ' ') ∨
      directoryName tb level (replaceForbidden path) =
        "Unknown " ++ tb.EnumerationToString level := by
    intro level path
    unfold directoryName
    by_cases hp : replaceForbidden path = ""
    · right
      rw [if_pos hp]
    · left
      rw [if_neg hp]
      exact (replaceForbidden_clean _).1
  refine ⟨?_, ?_, ?_, ?_⟩
  · intro h hs
    refine ⟨_, rfl, ?_, ?_, ?_⟩
    · rw [stream_Open_patient tb index publicId tags h, safe _ _ hs]
    · rw [shadow_Open_patient tb index publicId tags h, safe _ _ hs]
    · rw [← safe .Patient _ hs]
      exact specSafeDirectoryName_clean tb .Patient _ hs
  · intro h hdate
    constructor
    · intro hs
      refine ⟨_, rfl, ?_, ?_⟩
      · rw [stream_Open_study tb index publicId tags h hdate, safe _ _ hs]
      · rw [← safe .Study _ hs]
        exact specSafeDirectoryName_clean tb .Study _ hs
    · intro hs
      refine ⟨_, rfl, ?_, ?_⟩
      · rw [shadow_Open_study tb index publicId tags h hdate, safe _ _ hs]
      · rw [← safe .Study _ hs]
        exact specSafeDirectoryName_clean tb .Study _ hs
  · intro h hs
    refine ⟨_, rfl, ?_, ?_, ?_⟩
    · rw [stream_Open_series tb index publicId tags h, safe _ _ hs]
    · rw [shadow_Open_series tb index publicId tags h, safe _ _ hs]
    · rw [← safe .Series _ hs]
      exact specSafeDirectoryName_clean tb .Series _ hs
  · intro level name
    constructor
    · intro h
      unfold TarStreamWriterVisitor.Open at h
      split at h
      · cases h
      · simp only [Except.ok.injEq] at h
        subst h
        exact either _ _
    · intro h
      unfold ShadowWriterVisitor.Open at h
      split at h
      · cases h
      · simp only [Except.ok.injEq] at h
        subst h
        exact either _ _

/-- The tags of the patient `P` in the example index. -/
theorem example_patient_tags :
    exampleIndex.GetMainDicomTags "P" .Patient .Patient = some (fun tag =>
      if tag = DICOM_TAG_PATIENT_ID then some (.Text "Doe John/7") else none) := rfl

/-- Witness of C13 (amended): the patient `P` of the example index, whose
identifier is `Doe John/7`, with the fold and trim of the specification. -/
theorem Open_name_clean_witness :
    TarStreamWriterVisitor.Open specToolbox exampleIndex .Patient "P" = .ok "Doe_John_7" ∧
    ShadowWriterVisitor.Open specToolbox exampleIndex .Patient "P" = .ok "Doe_John_7" ∧
    ∀ c ∈ "Doe_John_7".toList, c ≠ '/' ∧ c ≠ ' ' :=
  match (Open_name_clean specToolbox exampleIndex "P" _).1 example_patient_tags
    (by decide) with
  | ⟨_, hname, h1, h2, h3⟩ =>
    have hn : _ = "Doe_John_7" := hname.trans (by decide)
    ⟨hn ▸ h1, hn ▸ h2, hn ▸ h3⟩

/-! ## The statistics visitor -/

namespace ArchiveIndex

theorem ApplyResources_ok (level : ResourceType) (rs : Resources)
    (ih : ∀ id c, (id, some c) ∈ rs → hasPending c = false → ∃ calls, Apply c = .ok calls)
    (h : hasPendingIn rs = false) : ∃ calls, ApplyResources level rs = .ok calls := by
  induction rs with
  | nil => exact ⟨[], rfl⟩
  | cons hd tl ihl =>
    obtain ⟨k, w⟩ := hd
    cases w with
    | none => simp [hasPendingIn] at h
    | some c =>
      simp only [hasPendingIn, Bool.or_eq_false_iff] at h
      obtain ⟨inner, hinner⟩ := ih k c (List.mem_cons_self _ _) h.1
      obtain ⟨after, hafter⟩ := ihl (fun id c hc => ih id c (List.mem_cons_of_mem _ hc)) h.2
      exact ⟨VisitorCall.Open level k :: inner ++ VisitorCall.Close :: after,
        by simp only [ApplyResources, hinner, hafter]⟩

/-- Method `Apply` completes on every tree without pending node. -/
theorem Apply_ok_of_not_hasPending (t : ArchiveIndex) :
    hasPending t = false → ∃ calls, Apply t = .ok calls := by
  induction t using height_induction with
  | step t ih =>
    intro h
    rw [Apply_eq]
    split
    · exact ⟨_, rfl⟩
    · rw [hasPending_eq] at h
      exact ApplyResources_ok _ _ (fun id c hc hp => ih c (height_child_lt t id c hc) hp) h

end ArchiveIndex

namespace StatisticsVisitor

theorem receiveAll_eq (calls : List VisitorCall) :
    ∀ v : StatisticsVisitor, v.instances_ < 2 ^ 32 → v.size_ < 2 ^ 64 →
      (receiveAll v calls).instances_ = (v.instances_ + (addedEntries calls).length) % 2 ^ 32 ∧
      (receiveAll v calls).size_ =
        (v.size_ + ((addedEntries calls).map fun it => it.dicom_.uncompressedSize_).sum)
          % 2 ^ 64 := by
  induction calls with
  | nil =>
    intro v h1 h2
    simp only [receiveAll, List.foldl_nil, addedEntries, List.length_nil, List.map_nil,
      List.sum_nil, Nat.add_zero]
    exact ⟨(Nat.mod_eq_of_lt h1).symm, (Nat.mod_eq_of_lt h2).symm⟩
  | cons c tl ih =>
    intro v h1 h2
    cases c with
    | Open level id =>
      simpa [receiveAll, receive, Open, addedEntries] using ih v h1 h2
    | Close =>
      simpa [receiveAll, receive, Close, addedEntries] using ih v h1 h2
    | AddInstance id dicom =>
      have := ih (v.AddInstance id dicom) (Nat.mod_lt _ (by decide)) (Nat.mod_lt _ (by decide))
      simp only [receiveAll, List.foldl_cons, receive, addedEntries, List.length_cons,
        List.map_cons, List.sum_cons] at this ⊢
      rw [this.1, this.2]
      simp only [AddInstance]
      constructor
      · omega
      · omega

/-- C11: on every tree without pending node, `Apply` completes, and a fresh
statistics visitor that has received its calls holds the number of instance
entries of the tree modulo `2^32` and the sum of the uncompressed sizes of
their descriptors modulo `2^64`; `Open` and `Close` leave the visitor
unchanged. -/
theorem statistics_totals (t : ArchiveIndex) (h : ArchiveIndex.hasPending t = false) :
    (∃ calls, ArchiveIndex.Apply t = .ok calls ∧
      (receiveAll new calls).GetInstancesCount =
        (ArchiveIndex.instanceEntries t).length % 2 ^ 32 ∧
      (receiveAll new calls).GetUncompressedSize =
        ((ArchiveIndex.instanceEntries t).map fun it => it.dicom_.uncompressedSize_).sum
          % 2 ^ 64) ∧
    (∀ (v : StatisticsVisitor) (level : ResourceType) (publicId : String),
      v.Open level publicId = v ∧ v.Close = v) := by
  refine ⟨?_, fun v level publicId => ⟨rfl, rfl⟩⟩
  obtain ⟨calls, hcalls⟩ := ArchiveIndex.Apply_ok_of_not_hasPending t h
  have hentries := ArchiveIndex.Apply_addedEntries t calls hcalls
  have := receiveAll_eq calls new (by decide) (by decide)
  refine ⟨calls, hcalls, ?_, ?_⟩
  · simpa [GetInstancesCount, hentries, new] using this.1
  · simpa [GetUncompressedSize, hentries, new] using this.2

end StatisticsVisitor

/-- Witness of C11: the expanded example tree has two instances of 10 bytes. -/
theorem statistics_totals_witness :
    ArchiveIndex.hasPending exampleExpanded = false ∧
    ∃ calls, ArchiveIndex.Apply exampleExpanded = .ok calls ∧
      (StatisticsVisitor.receiveAll StatisticsVisitor.new calls).GetInstancesCount = 2 ∧
      (StatisticsVisitor.receiveAll StatisticsVisitor.new calls).GetUncompressedSize = 20 :=
  ⟨rfl, (StatisticsVisitor.statistics_totals exampleExpanded rfl).1.imp
    fun _ h => ⟨h.1, h.2.1, h.2.2⟩⟩

/-! ## The file system: following links -/

theorem resolve_mono (node : Path → Option Node) :
    ∀ (n m : Nat) (p r : Path), resolve node n p = some r → n ≤ m →
      resolve node m p = some r := by
  intro n
  induction n with
  | zero => intro m p r h; simp [resolve] at h
  | succ n ih =>
    intro m p r h hle
    obtain ⟨m, rfl⟩ : ∃ k, m = k + 1 := ⟨m - 1, by omega⟩
    simp only [resolve] at h ⊢
    cases hn : node p with
    | none => simp [hn] at h
    | some v =>
      cases v with
      | symlink target =>
        simp only [hn] at h ⊢
        exact ih m target r h (by omega)
      | directory => simpa [hn] using h
      | regular c => simpa [hn] using h
      | hardlink s => simpa [hn] using h

theorem resolve_symlink (node : Path → Option Node) (n : Nat) (p target : Path)
    (h : node p = some (.symlink target)) :
    resolve node (n + 1) p = resolve node n target := by
  simp only [resolve, h]

/-- What is reached from a path that exists is not changed by a change of the
node at a path that does not exist. -/
theorem resolve_update (node node2 : Path → Option Node) (p : Path)
    (hp : resolve node 40 p = none) (hsame : ∀ q, q ≠ p → node2 q = node q) :
    ∀ (n : Nat) (q r : Path), n ≤ 40 → resolve node n q = some r →
      resolve node2 n q = some r := by
  intro n
  induction n with
  | zero => intro q r _ h; simp [resolve] at h
  | succ n ih =>
    intro q r hn h
    have hq : q ≠ p := by
      intro heq
      subst heq
      have := resolve_mono node (n + 1) 40 q r h hn
      rw [hp] at this
      cases this
    simp only [resolve] at h ⊢
    rw [hsame q hq]
    cases hv : node q with
    | none => simp [hv] at h
    | some v =>
      cases v with
      | symlink target =>
        simp only [hv] at h ⊢
        exact ih target r (by omega) h
      | directory => simpa [hv] using h
      | regular c => simpa [hv] using h
      | hardlink s => simpa [hv] using h

/-- The path reached by following links holds a node that is not a link. -/
theorem resolve_final (node : Path → Option Node) :
    ∀ (n : Nat) (q r : Path), resolve node n q = some r → resolve node 1 r = some r := by
  intro n
  induction n with
  | zero => intro q r h; simp [resolve] at h
  | succ n ih =>
    intro q r h
    simp only [resolve] at h
    cases hv : node q with
    | none => simp [hv] at h
    | some v =>
      cases v with
      | symlink target =>
        simp only [hv] at h
        exact ih target r h
      | directory =>
        simp only [hv, Option.some.injEq] at h
        subst h
        simp [resolve, hv]
      | regular c =>
        simp only [hv, Option.some.injEq] at h
        subst h
        simp [resolve, hv]
      | hardlink s =>
        simp only [hv, Option.some.injEq] at h
        subst h
        simp [resolve, hv]

namespace System

theorem fs_exists_iff (sys : System) (p : Path) :
    sys.fs_exists p = true ↔ ∃ r, resolve sys.node 40 p = some r := by
  simp [fs_exists, canonical, Option.isSome_iff_exists]

theorem fs_exists_false_iff (sys : System) (p : Path) :
    sys.fs_exists p = false ↔ resolve sys.node 40 p = none := by
  simp [fs_exists, canonical]

/-- A path that exists still exists, with the same canonical path, after the
node at a path that did not exist has changed. -/
theorem canonical_update (sys sys2 : System) (p q r : Path)
    (hp : sys.fs_exists p = false) (hsame : ∀ x, x ≠ p → sys2.node x = sys.node x)
    (hq : sys.canonical q = some r) : sys2.canonical q = some r :=
  resolve_update sys.node sys2.node p ((fs_exists_false_iff sys p).1 hp) hsame 40 q r
    (Nat.le_refl 40) hq

end System

namespace ShadowWriter

/-! ## The branches of `AddFile` -/

theorem AddFile_missing (env : FsOutcomes) (w : ShadowWriter) (sys : System)
    (dicom : FileInfo) (target_name : String)
    (hblob : sys.fs_exists (blobPath w.m_storage_root dicom.uuid_) = false) :
    w.AddFile env sys dicom target_name =
      { state := w,
        sys := sys.logLine (.doesNotExist (blobPath w.m_storage_root dicom.uuid_)),
        raised := none } := by
  rw [AddFile]
  simp [hblob]

theorem AddFile_skip (env : FsOutcomes) (w : ShadowWriter) (sys : System)
    (dicom : FileInfo) (target_name : String)
    (hblob : sys.fs_exists (blobPath w.m_storage_root dicom.uuid_) = true)
    (hdst : sys.fs_exists (w.m_shadow_root ++ w.currentDir ++ [target_name]) = true) :
    w.AddFile env sys dicom target_name =
      { state := { w with skipped := (w.skipped + 1) % 2 ^ 64 }, sys := sys,
        raised := none } := by
  rw [AddFile, if_pos hblob, if_pos hdst]

theorem AddFile_hard (env : FsOutcomes) (w : ShadowWriter) (sys : System)
    (dicom : FileInfo) (target_name : String)
    (hblob : sys.fs_exists (blobPath w.m_storage_root dicom.uuid_) = true)
    (hdst : sys.fs_exists (w.m_shadow_root ++ w.currentDir ++ [target_name]) = false)
    (hs : w.symlink = false)
    (hec : env.create_hard_link sys.node (blobPath w.m_storage_root dicom.uuid_)
      (w.m_shadow_root ++ w.currentDir ++ [target_name]) ≠ some .cross_device_link) :
    w.AddFile env sys dicom target_name =
      linkDone w
        (sys.create_hard_link env (blobPath w.m_storage_root dicom.uuid_)
          (w.m_shadow_root ++ w.currentDir ++ [target_name])).1
        (env.create_hard_link sys.node (blobPath w.m_storage_root dicom.uuid_)
          (w.m_shadow_root ++ w.currentDir ++ [target_name]))
        (blobPath w.m_storage_root dicom.uuid_)
        (w.m_shadow_root ++ w.currentDir ++ [target_name]) := by
  rw [AddFile, if_pos hblob, if_neg (by rw [hdst]; decide), dif_pos hs, if_neg (by simpa [System.create_hard_link] using hec)]
  rfl

theorem AddFile_retry (env : FsOutcomes) (w : ShadowWriter) (sys : System)
    (dicom : FileInfo) (target_name : String)
    (hblob : sys.fs_exists (blobPath w.m_storage_root dicom.uuid_) = true)
    (hdst : sys.fs_exists (w.m_shadow_root ++ w.currentDir ++ [target_name]) = false)
    (hs : w.symlink = false)
    (hec : env.create_hard_link sys.node (blobPath w.m_storage_root dicom.uuid_)
      (w.m_shadow_root ++ w.currentDir ++ [target_name]) = some .cross_device_link) :
    w.AddFile env sys dicom target_name =
      AddFile env { w with symlink := true }
        (sys.create_hard_link env (blobPath w.m_storage_root dicom.uuid_)
          (w.m_shadow_root ++ w.currentDir ++ [target_name])).1 dicom target_name := by
  rw [AddFile, if_pos hblob, if_neg (by rw [hdst]; decide), dif_pos hs, if_pos (by simpa [System.create_hard_link] using hec)]

theorem AddFile_soft (env : FsOutcomes) (w : ShadowWriter) (sys : System)
    (dicom : FileInfo) (target_name : String) (target : Path)
    (hblob : sys.canonical (blobPath w.m_storage_root dicom.uuid_) = some target)
    (hdst : sys.fs_exists (w.m_shadow_root ++ w.currentDir ++ [target_name]) = false)
    (hs : w.symlink = true) :
    w.AddFile env sys dicom target_name =
      linkDone w
        (sys.create_symlink env target (w.m_shadow_root ++ w.currentDir ++ [target_name])).1
        (env.create_symlink sys.node target
          (w.m_shadow_root ++ w.currentDir ++ [target_name]))
        (blobPath w.m_storage_root dicom.uuid_)
        (w.m_shadow_root ++ w.currentDir ++ [target_name]) := by
  have hex : sys.fs_exists (blobPath w.m_storage_root dicom.uuid_) = true := by
    simp [System.fs_exists, hblob]
  rw [AddFile, if_pos hex, if_neg (by rw [hdst]; decide), dif_neg (by simp [hs])]
  simp only [hblob]
  rfl

end ShadowWriter

theorem hardLinkAttempts_append (a b : List FsCall) :
    hardLinkAttempts (a ++ b) = hardLinkAttempts a + hardLinkAttempts b := by
  induction a with
  | nil => simp [hardLinkAttempts]
  | cons c rest ih =>
    cases c <;> simp +arith [hardLinkAttempts, ih]

namespace System

theorem create_hard_link_failed (env : FsOutcomes) (sys : System) (a b : Path) (e : Errc)
    (h : env.create_hard_link sys.node a b = some e) :
    (sys.create_hard_link env a b).1 =
      { sys with calls := sys.calls ++ [.create_hard_link a b (some e)] } := by
  simp [create_hard_link, h]

theorem create_symlink_failed (env : FsOutcomes) (sys : System) (a b : Path) (e : Errc)
    (h : env.create_symlink sys.node a b = some e) :
    (sys.create_symlink env a b).1 =
      { sys with calls := sys.calls ++ [.create_symlink a b (some e)] } := by
  simp [create_symlink, h]

/-- A path at which a node that is not a symbolic link is found exists. -/
theorem fs_exists_of_node (sys : System) (p : Path) (v : Node) (hv : sys.node p = some v)
    (hno : ∀ t, v ≠ .symlink t) : sys.fs_exists p = true := by
  rw [fs_exists_iff]
  refine ⟨p, ?_⟩
  show resolve sys.node (39 + 1) p = some p
  simp only [resolve, hv]

end System

namespace ShadowWriter

/-- In the symbolic link mode the flag stays and no hard link is attempted. -/
theorem AddFile_symlink_mode (env : FsOutcomes) (w : ShadowWriter) (sys : System)
    (dicom : FileInfo) (target_name : String) (hs : w.symlink = true) :
    (w.AddFile env sys dicom target_name).state.symlink = true ∧
      hardLinkAttempts (w.AddFile env sys dicom target_name).sys.calls =
        hardLinkAttempts sys.calls := by
  cases hblob : sys.fs_exists (blobPath w.m_storage_root dicom.uuid_) with
  | false =>
    rw [AddFile_missing env w sys dicom target_name hblob]
    exact ⟨hs, rfl⟩
  | true =>
    cases hdst : sys.fs_exists (w.m_shadow_root ++ w.currentDir ++ [target_name]) with
    | true =>
      rw [AddFile_skip env w sys dicom target_name hblob hdst]
      exact ⟨hs, rfl⟩
    | false =>
      obtain ⟨target, ht⟩ := (System.fs_exists_iff sys _).1 hblob
      rw [AddFile_soft env w sys dicom target_name target ht hdst hs]
      cases hec : env.create_symlink sys.node target
          (w.m_shadow_root ++ w.currentDir ++ [target_name]) with
      | none =>
        simp [linkDone, hs, System.permissions, System.create_symlink, hec,
          hardLinkAttempts_append, hardLinkAttempts]
      | some e =>
        simp [linkDone, hs, System.logLine, System.create_symlink, hec,
          hardLinkAttempts_append, hardLinkAttempts]

end ShadowWriter

/-- C15: for every writer, every call (`OpenDirectory`, `CloseDirectory`,
`AddFile`) and every outcome of the file system, a `symlink` flag that is
true before the call is true after it (also when the call raises); an
`AddFile` made while the flag is true adds no `create_hard_link` to the calls
on the file system; and the flag of a fresh writer is false. -/
theorem symlink_flag_is_kept (env : FsOutcomes) (w : ShadowWriter) (sys : System)
    (call : ShadowCall) (hs : w.symlink = true) :
    (w.step env sys call).state.symlink = true ∧
      (∀ dicom target_name,
        hardLinkAttempts (w.AddFile env sys dicom target_name).sys.calls =
          hardLinkAttempts sys.calls) ∧
      (∀ shadow_root storage_root,
        (ShadowWriter.new shadow_root storage_root).symlink = false) := by
  refine ⟨?_, ?_, ?_⟩
  · cases call with
    | OpenDirectory name =>
      simp only [ShadowWriter.step, ShadowWriter.OpenDirectory]
      split
      · exact hs
      · split
        · exact hs
        · exact hs
    | CloseDirectory => exact hs
    | AddFile dicom target_name =>
      exact (ShadowWriter.AddFile_symlink_mode env w sys dicom target_name hs).1
  · intro dicom target_name
    exact (ShadowWriter.AddFile_symlink_mode env w sys dicom target_name hs).2
  · intro _ _
    rfl

/-- Witness of C15: a writer in the symbolic link mode adds the example
blob. -/
theorem symlink_flag_is_kept_witness :
    ({ exampleWriter with symlink := true } : ShadowWriter).symlink = true ∧
      (({ exampleWriter with symlink := true } : ShadowWriter).step allSucceed exampleSystem
          (.AddFile exampleBlob "x.dcm")).state.symlink = true :=
  ⟨rfl, (symlink_flag_is_kept allSucceed { exampleWriter with symlink := true } exampleSystem
    (.AddFile exampleBlob "x.dcm") rfl).1⟩

namespace ShadowWriter

/-- After a link has been made at a destination that did not exist, the
destination exists and what existed before still does. -/
theorem linked_exists (sys sys2 : System) (dest : Path) (v : Node)
    (hdst : sys.fs_exists dest = false) (hno : ∀ t, v ≠ .symlink t)
    (hnode : ∀ q, sys2.node q = if q = dest then some v else sys.node q) :
    sys2.fs_exists dest = true ∧
      ∀ q r, sys.canonical q = some r → sys2.canonical q = some r := by
  refine ⟨System.fs_exists_of_node sys2 dest v (by rw [hnode]; simp) hno, ?_⟩
  intro q r hq
  refine System.canonical_update sys sys2 dest q r hdst ?_ hq
  intro x hx
  rw [hnode]
  simp [hx]

end ShadowWriter

/-- C14: when the blob exists, an `AddFile` whose destination exists already
returns the writer with `skipped` one higher (a `size_t`, so modulo `2 ^ 64`)
and nothing else changed: no call on the file system, `instances` and
`symlink` as before, no exception. And when the destination does not exist
yet and the hard link succeeds, two `AddFile` of the same file under the same
name, on a writer in the hard link mode whose counters are zero, end with
`instances = 1`, `skipped = 1`, `symlink = false`, one hard link made. -/
theorem AddFile_twice_skips (env : FsOutcomes) (w : ShadowWriter) (sys : System)
    (dicom : FileInfo) (target_name : String)
    (hblob : sys.fs_exists (ShadowWriter.blobPath w.m_storage_root dicom.uuid_) = true) :
    (sys.fs_exists (w.m_shadow_root ++ w.currentDir ++ [target_name]) = true →
        w.AddFile env sys dicom target_name =
            { state := { w with skipped := (w.skipped + 1) % 2 ^ 64 }, sys := sys,
              raised := none } ∧
          (w.skipped + 1 < 2 ^ 64 →
            (w.AddFile env sys dicom target_name).state.skipped = w.skipped + 1)) ∧
      (sys.fs_exists (w.m_shadow_root ++ w.currentDir ++ [target_name]) = false →
        w.symlink = false → w.instances = 0 → w.skipped = 0 →
        env.create_hard_link sys.node (ShadowWriter.blobPath w.m_storage_root dicom.uuid_)
          (w.m_shadow_root ++ w.currentDir ++ [target_name]) = none →
        (w.AddFile env sys dicom target_name).raised = none ∧
          ((w.AddFile env sys dicom target_name).state.AddFile env
            (w.AddFile env sys dicom target_name).sys dicom target_name).raised = none ∧
          ((w.AddFile env sys dicom target_name).state.AddFile env
            (w.AddFile env sys dicom target_name).sys dicom target_name).state =
            { w with instances := 1, skipped := 1 } ∧
          ((w.AddFile env sys dicom target_name).state.AddFile env
            (w.AddFile env sys dicom target_name).sys dicom target_name).sys.node
              (w.m_shadow_root ++ w.currentDir ++ [target_name]) =
            some (.hardlink (ShadowWriter.blobPath w.m_storage_root dicom.uuid_)) ∧
          hardLinkAttempts ((w.AddFile env sys dicom target_name).state.AddFile env
            (w.AddFile env sys dicom target_name).sys dicom target_name).sys.calls =
            hardLinkAttempts sys.calls + 1) := by
  refine ⟨?_, ?_⟩
  · intro hdst
    rw [ShadowWriter.AddFile_skip env w sys dicom target_name hblob hdst]
    refine ⟨rfl, ?_⟩
    intro hlt
    exact Nat.mod_eq_of_lt hlt
  · intro hdst hs hi hk hec
    have hne : env.create_hard_link sys.node
        (ShadowWriter.blobPath w.m_storage_root dicom.uuid_)
        (w.m_shadow_root ++ w.currentDir ++ [target_name]) ≠ some .cross_device_link := by
      rw [hec]; simp
    have hfirst := ShadowWriter.AddFile_hard env w sys dicom target_name hblob hdst hs hne
    rw [hec] at hfirst
    obtain ⟨target, ht⟩ := (System.fs_exists_iff sys _).1 hblob
    have hlinked := ShadowWriter.linked_exists sys
      (sys.create_hard_link env (ShadowWriter.blobPath w.m_storage_root dicom.uuid_)
        (w.m_shadow_root ++ w.currentDir ++ [target_name])).1
      (w.m_shadow_root ++ w.currentDir ++ [target_name])
      (.hardlink (ShadowWriter.blobPath w.m_storage_root dicom.uuid_)) hdst
      (by intro t; simp)
      (by intro q; simp [-List.append_assoc, System.create_hard_link, hec])
    have hraise : (w.AddFile env sys dicom target_name).raised = none := by
      rw [hfirst]
      simp [-List.append_assoc, ShadowWriter.linkDone, System.permissions, hlinked.1]
    have hstate : (w.AddFile env sys dicom target_name).state =
        { w with instances := 1 } := by
      rw [hfirst]
      simp [ShadowWriter.linkDone, hi]
    have hnode : (w.AddFile env sys dicom target_name).sys.node =
        (sys.create_hard_link env (ShadowWriter.blobPath w.m_storage_root dicom.uuid_)
          (w.m_shadow_root ++ w.currentDir ++ [target_name])).1.node := by
      rw [hfirst]
      rfl
    have hcalls : (w.AddFile env sys dicom target_name).sys.calls =
        sys.calls ++ [.create_hard_link (ShadowWriter.blobPath w.m_storage_root dicom.uuid_)
          (w.m_shadow_root ++ w.currentDir ++ [target_name]) none,
          .permissions (w.m_shadow_root ++ w.currentDir ++ [target_name])] := by
      rw [hfirst]
      simp only [ShadowWriter.linkDone, System.permissions, System.create_hard_link, hec,
        List.append_assoc sys.calls, List.singleton_append]
    have hblob2 : (w.AddFile env sys dicom target_name).sys.fs_exists
        (ShadowWriter.blobPath (w.AddFile env sys dicom target_name).state.m_storage_root
          dicom.uuid_) = true := by
      rw [hstate]
      rw [System.fs_exists_iff]
      refine ⟨target, ?_⟩
      have := hlinked.2 _ _ ht
      simpa [-List.append_assoc, System.canonical, hnode] using this
    have hdst2 : (w.AddFile env sys dicom target_name).sys.fs_exists
        ((w.AddFile env sys dicom target_name).state.m_shadow_root ++
          (w.AddFile env sys dicom target_name).state.currentDir ++ [target_name]) = true := by
      rw [hstate]
      have := hlinked.1
      simpa [-List.append_assoc, System.fs_exists, System.canonical, hnode] using this
    have hsecond := ShadowWriter.AddFile_skip env (w.AddFile env sys dicom target_name).state
      (w.AddFile env sys dicom target_name).sys dicom target_name hblob2 hdst2
    refine ⟨hraise, ?_, ?_, ?_, ?_⟩
    · rw [hsecond]
    · rw [hsecond, hstate]
      simp [hk]
    · rw [hsecond]
      show (w.AddFile env sys dicom target_name).sys.node _ = _
      rw [hnode]
      simp [-List.append_assoc, System.create_hard_link, hec]
    · rw [hsecond]
      show hardLinkAttempts (w.AddFile env sys dicom target_name).sys.calls = _
      rw [hcalls]
      simp [hardLinkAttempts_append, hardLinkAttempts]

/-- Witness of C14: the example blob is added twice under the name `x.dcm`
by a fresh writer, on a system where every call succeeds. -/
theorem AddFile_twice_skips_witness :
    ((exampleWriter.AddFile allSucceed exampleSystem exampleBlob "x.dcm").state.AddFile
        allSucceed (exampleWriter.AddFile allSucceed exampleSystem exampleBlob "x.dcm").sys
        exampleBlob "x.dcm").state =
      { exampleWriter with instances := 1, skipped := 1 } :=
  ((AddFile_twice_skips allSucceed exampleWriter exampleSystem exampleBlob "x.dcm"
    (by decide)).2 (by decide) rfl rfl rfl rfl).2.2.1

namespace ShadowWriter

/-- The outcome of `linkDone` when the link was made at a destination that
did not exist. -/
theorem linkDone_ok (w : ShadowWriter) (sys : System) (path p : Path)
    (hex : sys.fs_exists p = true) :
    linkDone w sys none path p =
      { state := { w with instances := (w.instances + 1) % 2 ^ 64 },
        sys := { sys with calls := sys.calls ++ [.permissions p] }, raised := none } := by
  simp [linkDone, System.permissions, hex]

theorem linkDone_failed (w : ShadowWriter) (sys : System) (path p : Path) (e : Errc) :
    linkDone w sys (some e) path p =
      { state := w, sys := sys.logLine (.failedToLink path p), raised := none } := rfl

/-- After a symbolic link to a canonical path has been made at a destination
that did not exist, the destination exists and its canonical path is the
target. -/
theorem symlinked_exists (sys sys2 : System) (blob dest target : Path)
    (hdst : sys.fs_exists dest = false) (ht : sys.canonical blob = some target)
    (hnode : ∀ q, sys2.node q = if q = dest then some (.symlink target) else sys.node q) :
    sys2.canonical dest = some target := by
  have hfinal := resolve_final sys.node 40 blob target ht
  have hsame : ∀ x, x ≠ dest → sys2.node x = sys.node x := by
    intro x hx
    rw [hnode]
    simp [hx]
  have h1 := resolve_update sys.node sys2.node dest ((System.fs_exists_false_iff sys dest).1 hdst)
    hsame 1 target target (by omega) hfinal
  have h39 := resolve_mono sys2.node 1 39 target target h1 (by omega)
  have hd : sys2.node dest = some (.symlink target) := (hnode dest).trans (if_pos rfl)
  exact (resolve_symlink sys2.node 39 dest target hd).trans h39

/-- The result of `AddFile` in the symbolic link mode, when the blob exists
and the destination does not. -/
theorem AddFile_soft_result (env : FsOutcomes) (w : ShadowWriter) (sys : System)
    (dicom : FileInfo) (target_name : String) (target : Path)
    (hblob : sys.canonical (blobPath w.m_storage_root dicom.uuid_) = some target)
    (hdst : sys.fs_exists (w.m_shadow_root ++ w.currentDir ++ [target_name]) = false)
    (hs : w.symlink = true) :
    (env.create_symlink sys.node target (w.m_shadow_root ++ w.currentDir ++ [target_name])
        = none →
      (w.AddFile env sys dicom target_name).state =
          { w with instances := (w.instances + 1) % 2 ^ 64 } ∧
        (w.AddFile env sys dicom target_name).raised = none ∧
        (w.AddFile env sys dicom target_name).sys.calls = sys.calls ++
          [.create_symlink target (w.m_shadow_root ++ w.currentDir ++ [target_name]) none,
            .permissions (w.m_shadow_root ++ w.currentDir ++ [target_name])] ∧
        (w.AddFile env sys dicom target_name).sys.log = sys.log ∧
        (w.AddFile env sys dicom target_name).sys.node
            (w.m_shadow_root ++ w.currentDir ++ [target_name]) = some (.symlink target) ∧
        (w.AddFile env sys dicom target_name).sys.canonical
            (w.m_shadow_root ++ w.currentDir ++ [target_name]) = some target) ∧
    (∀ e, env.create_symlink sys.node target
        (w.m_shadow_root ++ w.currentDir ++ [target_name]) = some e →
      w.AddFile env sys dicom target_name =
        { state := w,
          sys := { node := sys.node,
                   calls := sys.calls ++ [.create_symlink target
                     (w.m_shadow_root ++ w.currentDir ++ [target_name]) (some e)],
                   log := sys.log ++ [.failedToLink (blobPath w.m_storage_root dicom.uuid_)
                     (w.m_shadow_root ++ w.currentDir ++ [target_name])] },
          raised := none }) := by
  rw [AddFile_soft env w sys dicom target_name target hblob hdst hs]
  refine ⟨?_, ?_⟩
  · intro hec
    have hnode : ∀ q, (sys.create_symlink env target
        (w.m_shadow_root ++ w.currentDir ++ [target_name])).1.node q =
        if q = w.m_shadow_root ++ w.currentDir ++ [target_name] then some (.symlink target)
        else sys.node q := by
      intro q
      simp [-List.append_assoc, System.create_symlink, hec]
    have hcan := symlinked_exists sys _ _ _ target hdst hblob hnode
    have hex : (sys.create_symlink env target
        (w.m_shadow_root ++ w.currentDir ++ [target_name])).1.fs_exists
        (w.m_shadow_root ++ w.currentDir ++ [target_name]) = true := by
      simp only [System.fs_exists, hcan, Option.isSome_some]
    rw [hec, linkDone_ok _ _ _ _ hex]
    refine ⟨rfl, rfl, ?_, rfl, ?_, hcan⟩
    · simp only [System.create_symlink, hec, List.append_assoc sys.calls,
        List.singleton_append]
    · exact (hnode _).trans (if_pos rfl)
  · intro e hec
    rw [hec, linkDone_failed, System.create_symlink_failed env sys _ _ e hec]
    rfl

/-- The writer, the exception and the nodes after `AddFile` depend on the
nodes only, not on the calls and the log recorded before: the symbolic
link mode. -/
theorem AddFile_node_only_soft (env : FsOutcomes) (w : ShadowWriter)
    (node : Path → Option Node) (calls calls2 : List FsCall) (log log2 : List LogLine)
    (dicom : FileInfo) (target_name : String) (hs : w.symlink = true) :
    (w.AddFile env ⟨node, calls2, log2⟩ dicom target_name).state =
        (w.AddFile env ⟨node, calls, log⟩ dicom target_name).state ∧
      (w.AddFile env ⟨node, calls2, log2⟩ dicom target_name).raised =
        (w.AddFile env ⟨node, calls, log⟩ dicom target_name).raised ∧
      (w.AddFile env ⟨node, calls2, log2⟩ dicom target_name).sys.node =
        (w.AddFile env ⟨node, calls, log⟩ dicom target_name).sys.node := by
  cases hblob : (⟨node, calls, log⟩ : System).fs_exists
      (blobPath w.m_storage_root dicom.uuid_) with
  | false =>
    have hblob2 : (⟨node, calls2, log2⟩ : System).fs_exists
      (blobPath w.m_storage_root dicom.uuid_) = false := hblob
    rw [AddFile_missing env w _ dicom target_name hblob,
      AddFile_missing env w _ dicom target_name hblob2]
    exact ⟨rfl, rfl, rfl⟩
  | true =>
    have hblob2 : (⟨node, calls2, log2⟩ : System).fs_exists
      (blobPath w.m_storage_root dicom.uuid_) = true := hblob
    cases hdst : (⟨node, calls, log⟩ : System).fs_exists
        (w.m_shadow_root ++ w.currentDir ++ [target_name]) with
    | true =>
      have hdst2 : (⟨node, calls2, log2⟩ : System).fs_exists
        (w.m_shadow_root ++ w.currentDir ++ [target_name]) = true := hdst
      rw [AddFile_skip env w _ dicom target_name hblob hdst,
        AddFile_skip env w _ dicom target_name hblob2 hdst2]
      exact ⟨rfl, rfl, rfl⟩
    | false =>
      have hdst2 : (⟨node, calls2, log2⟩ : System).fs_exists
        (w.m_shadow_root ++ w.currentDir ++ [target_name]) = false := hdst
      obtain ⟨target, ht⟩ := (System.fs_exists_iff _ _).1 hblob
      have ht2 : (⟨node, calls2, log2⟩ : System).canonical
        (blobPath w.m_storage_root dicom.uuid_) = some target := ht
      rw [AddFile_soft env w _ dicom target_name target ht hdst hs,
        AddFile_soft env w _ dicom target_name target ht2 hdst2 hs]
      cases hec : env.create_symlink node target
          (w.m_shadow_root ++ w.currentDir ++ [target_name]) with
      | some e => exact ⟨rfl, rfl, rfl⟩
      | none =>
        refine ⟨rfl, ?_, rfl⟩
        simp only [linkDone, System.permissions, System.fs_exists, System.canonical,
          System.create_symlink]

/-- The writer, the exception and the nodes after `AddFile` depend on the
nodes only, not on the calls and the log recorded before. -/
theorem AddFile_node_only (env : FsOutcomes) (w : ShadowWriter) (sys sys2 : System)
    (dicom : FileInfo) (target_name : String) (hnode : sys2.node = sys.node) :
    (w.AddFile env sys2 dicom target_name).state =
        (w.AddFile env sys dicom target_name).state ∧
      (w.AddFile env sys2 dicom target_name).raised =
        (w.AddFile env sys dicom target_name).raised ∧
      (w.AddFile env sys2 dicom target_name).sys.node =
        (w.AddFile env sys dicom target_name).sys.node := by
  obtain ⟨node, calls, log⟩ := sys
  obtain ⟨node2, calls2, log2⟩ := sys2
  simp only at hnode
  subst hnode
  cases hs : w.symlink with
  | true => exact AddFile_node_only_soft env w node2 calls calls2 log log2 dicom target_name hs
  | false =>
    cases hblob : (⟨node2, calls, log⟩ : System).fs_exists
        (blobPath w.m_storage_root dicom.uuid_) with
    | false =>
      have hblob2 : (⟨node2, calls2, log2⟩ : System).fs_exists
        (blobPath w.m_storage_root dicom.uuid_) = false := hblob
      rw [AddFile_missing env w _ dicom target_name hblob,
        AddFile_missing env w _ dicom target_name hblob2]
      exact ⟨rfl, rfl, rfl⟩
    | true =>
      have hblob2 : (⟨node2, calls2, log2⟩ : System).fs_exists
        (blobPath w.m_storage_root dicom.uuid_) = true := hblob
      cases hdst : (⟨node2, calls, log⟩ : System).fs_exists
          (w.m_shadow_root ++ w.currentDir ++ [target_name]) with
      | true =>
        have hdst2 : (⟨node2, calls2, log2⟩ : System).fs_exists
          (w.m_shadow_root ++ w.currentDir ++ [target_name]) = true := hdst
        rw [AddFile_skip env w _ dicom target_name hblob hdst,
          AddFile_skip env w _ dicom target_name hblob2 hdst2]
        exact ⟨rfl, rfl, rfl⟩
      | false =>
        have hdst2 : (⟨node2, calls2, log2⟩ : System).fs_exists
          (w.m_shadow_root ++ w.currentDir ++ [target_name]) = false := hdst
        by_cases hec : env.create_hard_link node2 (blobPath w.m_storage_root dicom.uuid_)
            (w.m_shadow_root ++ w.currentDir ++ [target_name]) = some .cross_device_link
        · rw [AddFile_retry env w _ dicom target_name hblob hdst hs hec,
            AddFile_retry env w _ dicom target_name hblob2 hdst2 hs hec]
          simp only [System.create_hard_link, hec]
          have hnn : (fun q => if q = w.m_shadow_root ++ w.currentDir ++ [target_name] ∧
              some Errc.cross_device_link = none
              then some (Node.hardlink (blobPath w.m_storage_root dicom.uuid_))
              else node2 q) = node2 := by
            funext q
            simp
          rw [hnn]
          exact AddFile_node_only_soft env _ node2 _ _ _ _ dicom target_name rfl
        · rw [AddFile_hard env w _ dicom target_name hblob hdst hs hec,
            AddFile_hard env w _ dicom target_name hblob2 hdst2 hs hec]
          cases hec2 : env.create_hard_link node2 (blobPath w.m_storage_root dicom.uuid_)
              (w.m_shadow_root ++ w.currentDir ++ [target_name]) with
          | some e => exact ⟨rfl, rfl, rfl⟩
          | none =>
            refine ⟨rfl, ?_, rfl⟩
            simp only [linkDone, System.permissions, System.fs_exists, System.canonical,
              System.create_hard_link]

/-- In the hard link mode, when the blob exists and the destination does not,
the first call `AddFile` makes on the file system is the hard link from the
path of the blob. -/
theorem AddFile_hard_calls (env : FsOutcomes) (w : ShadowWriter) (sys : System)
    (dicom : FileInfo) (target_name : String)
    (hblob : sys.fs_exists (blobPath w.m_storage_root dicom.uuid_) = true)
    (hdst : sys.fs_exists (w.m_shadow_root ++ w.currentDir ++ [target_name]) = false)
    (hs : w.symlink = false) :
    ∃ ec after, (w.AddFile env sys dicom target_name).sys.calls =
      sys.calls ++ FsCall.create_hard_link (blobPath w.m_storage_root dicom.uuid_)
        (w.m_shadow_root ++ w.currentDir ++ [target_name]) ec :: after := by
  by_cases hec : env.create_hard_link sys.node (blobPath w.m_storage_root dicom.uuid_)
      (w.m_shadow_root ++ w.currentDir ++ [target_name]) = some .cross_device_link
  · obtain ⟨target, ht⟩ := (System.fs_exists_iff sys _).1 hblob
    rw [AddFile_retry env w sys dicom target_name hblob hdst hs hec,
      System.create_hard_link_failed env sys _ _ _ hec]
    have hres := AddFile_soft_result env { w with symlink := true }
      { sys with calls := sys.calls ++ [.create_hard_link
        (blobPath w.m_storage_root dicom.uuid_)
        (w.m_shadow_root ++ w.currentDir ++ [target_name]) (some .cross_device_link)] }
      dicom target_name target ht hdst rfl
    cases hec2 : env.create_symlink sys.node target
        (w.m_shadow_root ++ w.currentDir ++ [target_name]) with
    | none =>
      obtain ⟨_, _, h3, _⟩ := hres.1 hec2
      refine ⟨some .cross_device_link,
        [.create_symlink target (w.m_shadow_root ++ w.currentDir ++ [target_name]) none,
          .permissions (w.m_shadow_root ++ w.currentDir ++ [target_name])], ?_⟩
      rw [h3]
      simp only [List.append_assoc sys.calls, List.singleton_append]
    | some e =>
      rw [hres.2 e hec2]
      refine ⟨some .cross_device_link,
        [.create_symlink target (w.m_shadow_root ++ w.currentDir ++ [target_name]) (some e)],
        ?_⟩
      simp only [List.append_assoc sys.calls, List.singleton_append]
  · rw [AddFile_hard env w sys dicom target_name hblob hdst hs hec]
    cases hec2 : env.create_hard_link sys.node (blobPath w.m_storage_root dicom.uuid_)
        (w.m_shadow_root ++ w.currentDir ++ [target_name]) with
    | none =>
      refine ⟨none, [.permissions (w.m_shadow_root ++ w.currentDir ++ [target_name])], ?_⟩
      simp only [linkDone, System.permissions, System.create_hard_link, hec2,
        List.append_assoc sys.calls, List.singleton_append]
    | some e =>
      refine ⟨some e, [], ?_⟩
      simp only [linkDone, System.logLine, System.create_hard_link, hec2]

end ShadowWriter

/-- C16: when the blob exists, the destination does not, the writer is in
the hard link mode and the hard link fails with `cross_device_link`, then
after `AddFile` the `symlink` flag is true; the calls made on the file system
are that one hard link, then one `create_symlink` whose target is the canonical
path of the blob (then `permissions` when the link was made), so the file
is tried again once and no second hard link is attempted; and when the
symbolic link is made, the destination holds a symbolic link to that
canonical path and exists, `instances` is one higher (a `size_t`, so modulo
`2 ^ 64`), `skipped` is unchanged and nothing is raised. -/
theorem AddFile_cross_device (env : FsOutcomes) (w : ShadowWriter) (sys : System)
    (dicom : FileInfo) (target_name : String)
    (hblob : sys.fs_exists (ShadowWriter.blobPath w.m_storage_root dicom.uuid_) = true)
    (hdst : sys.fs_exists (w.m_shadow_root ++ w.currentDir ++ [target_name]) = false)
    (hs : w.symlink = false)
    (hec : env.create_hard_link sys.node (ShadowWriter.blobPath w.m_storage_root dicom.uuid_)
      (w.m_shadow_root ++ w.currentDir ++ [target_name]) = some .cross_device_link) :
    ∃ target, sys.canonical (ShadowWriter.blobPath w.m_storage_root dicom.uuid_) = some target ∧
      (w.AddFile env sys dicom target_name).state.symlink = true ∧
      (w.AddFile env sys dicom target_name).sys.calls =
        sys.calls ++
          [.create_hard_link (ShadowWriter.blobPath w.m_storage_root dicom.uuid_)
              (w.m_shadow_root ++ w.currentDir ++ [target_name]) (some .cross_device_link),
            .create_symlink target (w.m_shadow_root ++ w.currentDir ++ [target_name])
              (env.create_symlink sys.node target
                (w.m_shadow_root ++ w.currentDir ++ [target_name]))] ++
          (if env.create_symlink sys.node target
              (w.m_shadow_root ++ w.currentDir ++ [target_name]) = none
            then [.permissions (w.m_shadow_root ++ w.currentDir ++ [target_name])] else []) ∧
      hardLinkAttempts (w.AddFile env sys dicom target_name).sys.calls =
        hardLinkAttempts sys.calls + 1 ∧
      (env.create_symlink sys.node target
          (w.m_shadow_root ++ w.currentDir ++ [target_name]) = none →
        (w.AddFile env sys dicom target_name).sys.node
            (w.m_shadow_root ++ w.currentDir ++ [target_name]) = some (.symlink target) ∧
          (w.AddFile env sys dicom target_name).sys.fs_exists
            (w.m_shadow_root ++ w.currentDir ++ [target_name]) = true ∧
          (w.AddFile env sys dicom target_name).state.instances =
            (w.instances + 1) % 2 ^ 64 ∧
          (w.instances + 1 < 2 ^ 64 →
            (w.AddFile env sys dicom target_name).state.instances = w.instances + 1) ∧
          (w.AddFile env sys dicom target_name).state.skipped = w.skipped ∧
          (w.AddFile env sys dicom target_name).raised = none) := by
  obtain ⟨target, ht⟩ := (System.fs_exists_iff sys _).1 hblob
  refine ⟨target, ht, ?_⟩
  rw [ShadowWriter.AddFile_retry env w sys dicom target_name hblob hdst hs hec,
    System.create_hard_link_failed env sys _ _ _ hec]
  have hres := ShadowWriter.AddFile_soft_result env { w with symlink := true }
    { sys with calls := sys.calls ++ [.create_hard_link
      (ShadowWriter.blobPath w.m_storage_root dicom.uuid_)
      (w.m_shadow_root ++ w.currentDir ++ [target_name]) (some .cross_device_link)] }
    dicom target_name target ht hdst rfl
  cases hec2 : env.create_symlink sys.node target
      (w.m_shadow_root ++ w.currentDir ++ [target_name]) with
  | none =>
    obtain ⟨h1, h2, h3, _, h5, h6⟩ := hres.1 hec2
    refine ⟨by rw [h1], ?_, ?_, ?_⟩
    · rw [h3]
      simp only [if_true, List.append_assoc, List.singleton_append, List.cons_append,
        List.nil_append]
    · rw [h3]
      simp [hardLinkAttempts_append, hardLinkAttempts]
    · intro _
      refine ⟨h5, ?_, by rw [h1], ?_, by rw [h1], h2⟩
      · simp only [System.fs_exists, h6, Option.isSome_some]
      · intro hlt
        rw [h1]
        exact Nat.mod_eq_of_lt hlt
  | some e =>
    rw [hres.2 e hec2]
    refine ⟨rfl, ?_, ?_, ?_⟩
    · simp
    · simp [hardLinkAttempts_append, hardLinkAttempts]
    · intro h
      cases h

/-- Witness of C16: the example blob is added by a fresh writer when the
storage is on another device. -/
theorem AddFile_cross_device_witness :
    ∃ target, exampleSystem.canonical
        (ShadowWriter.blobPath exampleWriter.m_storage_root exampleBlob.uuid_) = some target ∧
      (exampleWriter.AddFile otherDevice exampleSystem exampleBlob "x.dcm").state.symlink
        = true ∧
      (exampleWriter.AddFile otherDevice exampleSystem exampleBlob "x.dcm").sys.node
        ["/shadow", "x.dcm"] = some (.symlink target) :=
  match AddFile_cross_device otherDevice exampleWriter exampleSystem exampleBlob "x.dcm"
    (by decide) (by decide) rfl rfl with
  | ⟨target, h1, h2, _, _, h5⟩ => ⟨target, h1, h2, (h5 rfl).1⟩

/-- C17: `AddFile` raises nothing and leaves `instances`, `skipped` and every
node of the file system as they were (a) when the blob does not exist,
whether the destination exists or not: the writer is unchanged and the only
effect is a line in the log; (b) when the hard link fails with an error that is
not `cross_device_link`; (c) when the symbolic link fails, in the symbolic
link mode or after a hard link that failed with `cross_device_link`. In (a)
and (b) the writer is unchanged, and in all cases a later `AddFile` gives the
writer, exception and nodes it gives from the state after the failure, which
has the nodes of the state before. -/
theorem AddFile_failures (env : FsOutcomes) (w : ShadowWriter) (sys : System)
    (dicom : FileInfo) (target_name : String) :
    (sys.fs_exists (ShadowWriter.blobPath w.m_storage_root dicom.uuid_) = false →
      w.AddFile env sys dicom target_name =
        { state := w,
          sys := sys.logLine
            (.doesNotExist (ShadowWriter.blobPath w.m_storage_root dicom.uuid_)),
          raised := none }) ∧
    (sys.fs_exists (ShadowWriter.blobPath w.m_storage_root dicom.uuid_) = true →
      sys.fs_exists (w.m_shadow_root ++ w.currentDir ++ [target_name]) = false →
      ((w.symlink = false ∧
          env.create_hard_link sys.node (ShadowWriter.blobPath w.m_storage_root dicom.uuid_)
            (w.m_shadow_root ++ w.currentDir ++ [target_name]) = some .other) ∨
        ((w.symlink = true ∨
            env.create_hard_link sys.node (ShadowWriter.blobPath w.m_storage_root dicom.uuid_)
              (w.m_shadow_root ++ w.currentDir ++ [target_name]) = some .cross_device_link) ∧
          ∃ target e,
            sys.canonical (ShadowWriter.blobPath w.m_storage_root dicom.uuid_) = some target ∧
            env.create_symlink sys.node target
              (w.m_shadow_root ++ w.currentDir ++ [target_name]) = some e)) →
      (w.AddFile env sys dicom target_name).raised = none ∧
        (w.AddFile env sys dicom target_name).state.instances = w.instances ∧
        (w.AddFile env sys dicom target_name).state.skipped = w.skipped ∧
        (w.AddFile env sys dicom target_name).state.currentDir = w.currentDir ∧
        (w.symlink = false →
          env.create_hard_link sys.node (ShadowWriter.blobPath w.m_storage_root dicom.uuid_)
            (w.m_shadow_root ++ w.currentDir ++ [target_name]) = some .other →
          (w.AddFile env sys dicom target_name).state = w) ∧
        (w.AddFile env sys dicom target_name).sys.node = sys.node ∧
        LogLine.failedToLink (ShadowWriter.blobPath w.m_storage_root dicom.uuid_)
          (w.m_shadow_root ++ w.currentDir ++ [target_name]) ∈
            (w.AddFile env sys dicom target_name).sys.log) ∧
    ((w.AddFile env sys dicom target_name).sys.node = sys.node →
      ∀ dicom2 target_name2,
        ((w.AddFile env sys dicom target_name).state.AddFile env
            (w.AddFile env sys dicom target_name).sys dicom2 target_name2).state =
          ((w.AddFile env sys dicom target_name).state.AddFile env sys dicom2
            target_name2).state ∧
        ((w.AddFile env sys dicom target_name).state.AddFile env
            (w.AddFile env sys dicom target_name).sys dicom2 target_name2).raised =
          ((w.AddFile env sys dicom target_name).state.AddFile env sys dicom2
            target_name2).raised ∧
        ((w.AddFile env sys dicom target_name).state.AddFile env
            (w.AddFile env sys dicom target_name).sys dicom2 target_name2).sys.node =
          ((w.AddFile env sys dicom target_name).state.AddFile env sys dicom2
            target_name2).sys.node) := by
  refine ⟨?_, ?_, ?_⟩
  · intro hblob
    exact ShadowWriter.AddFile_missing env w sys dicom target_name hblob
  · intro hblob hdst hfail
    rcases hfail with ⟨hs, hec⟩ | ⟨hmode, target, e, ht, hec2⟩
    · have hne : env.create_hard_link sys.node
          (ShadowWriter.blobPath w.m_storage_root dicom.uuid_)
          (w.m_shadow_root ++ w.currentDir ++ [target_name]) ≠ some .cross_device_link := by
        rw [hec]; simp
      rw [ShadowWriter.AddFile_hard env w sys dicom target_name hblob hdst hs hne, hec,
        ShadowWriter.linkDone_failed, System.create_hard_link_failed env sys _ _ _ hec]
      refine ⟨rfl, rfl, rfl, rfl, fun _ _ => rfl, rfl, ?_⟩
      simp [System.logLine]
    · cases hs : w.symlink with
      | true =>
        rw [(ShadowWriter.AddFile_soft_result env w sys dicom target_name target ht hdst
          hs).2 e hec2]
        refine ⟨rfl, rfl, rfl, rfl, ?_, rfl, ?_⟩
        · intro hfalse
          exact absurd hfalse (by simp)
        · simp
      | false =>
        have hec : env.create_hard_link sys.node
            (ShadowWriter.blobPath w.m_storage_root dicom.uuid_)
            (w.m_shadow_root ++ w.currentDir ++ [target_name]) = some .cross_device_link := by
          rcases hmode with h | h
          · rw [hs] at h
            cases h
          · exact h
        rw [ShadowWriter.AddFile_retry env w sys dicom target_name hblob hdst hs hec,
          System.create_hard_link_failed env sys _ _ _ hec]
        rw [(ShadowWriter.AddFile_soft_result env { w with symlink := true }
          { sys with calls := sys.calls ++ [.create_hard_link
            (ShadowWriter.blobPath w.m_storage_root dicom.uuid_)
            (w.m_shadow_root ++ w.currentDir ++ [target_name]) (some .cross_device_link)] }
          dicom target_name target ht hdst rfl).2 e hec2]
        refine ⟨rfl, rfl, rfl, rfl, ?_, rfl, ?_⟩
        · intro _ hother
          exact absurd (hec.symm.trans hother) (by simp)
        · simp
  · intro hnode dicom2 target_name2
    exact ShadowWriter.AddFile_node_only env _ sys _ dicom2 target_name2 hnode

/-- Witness of C17: on a system where nothing can be changed, a blob that is
missing and a blob whose hard link fails. -/
theorem AddFile_failures_witness :
    exampleWriter.AddFile readOnly exampleSystem ⟨"missing", .Dicom, 10, .None⟩ "x.dcm" =
        { state := exampleWriter,
          sys := exampleSystem.logLine (.doesNotExist ["/storage", "mi", "ss", "missing"]),
          raised := none } ∧
      (exampleWriter.AddFile readOnly exampleSystem exampleBlob "x.dcm").raised = none ∧
      (exampleWriter.AddFile readOnly exampleSystem exampleBlob "x.dcm").state
        = exampleWriter ∧
      (exampleWriter.AddFile readOnly exampleSystem exampleBlob "x.dcm").sys.node
        = exampleSystem.node :=
  ⟨(AddFile_failures readOnly exampleWriter exampleSystem ⟨"missing", .Dicom, 10, .None⟩
      "x.dcm").1 (by decide),
    ((AddFile_failures readOnly exampleWriter exampleSystem exampleBlob "x.dcm").2.1
      (by decide) (by decide) (Or.inl ⟨rfl, rfl⟩)).1,
    ((AddFile_failures readOnly exampleWriter exampleSystem exampleBlob "x.dcm").2.1
      (by decide) (by decide) (Or.inl ⟨rfl, rfl⟩)).2.2.2.2.1 rfl rfl,
    ((AddFile_failures readOnly exampleWriter exampleSystem exampleBlob "x.dcm").2.1
      (by decide) (by decide) (Or.inl ⟨rfl, rfl⟩)).2.2.2.2.2.1⟩

/-- C18: for an identifier `u` of at least four characters, the path at which
`AddFile` looks for the blob is the storage root followed by three elements:
the first two characters of `u`, the next two, and `u` itself. `AddFile`
tests the existence of that path: when nothing exists there it logs that the
path does not exist, and in the hard link mode the link is made from it. -/
theorem blobPath_layout (storage_root : Path) (u : String) (hu : 4 ≤ u.length) :
    ∃ a b rest : String, u = a ++ b ++ rest ∧ a.length = 2 ∧ b.length = 2 ∧
      ShadowWriter.blobPath storage_root u = storage_root ++ [a, b, u] ∧
      (∀ (env : FsOutcomes) (w : ShadowWriter) (sys : System) (dicom : FileInfo)
          (target_name : String),
        w.m_storage_root = storage_root → dicom.uuid_ = u →
          (sys.fs_exists (storage_root ++ [a, b, u]) = false →
            w.AddFile env sys dicom target_name =
              { state := w, sys := sys.logLine (.doesNotExist (storage_root ++ [a, b, u])),
                raised := none }) ∧
          (sys.fs_exists (storage_root ++ [a, b, u]) = true →
            sys.fs_exists (w.m_shadow_root ++ w.currentDir ++ [target_name]) = false →
            w.symlink = false →
            ∃ ec after, (w.AddFile env sys dicom target_name).sys.calls =
              sys.calls ++ FsCall.create_hard_link (storage_root ++ [a, b, u])
                (w.m_shadow_root ++ w.currentDir ++ [target_name]) ec :: after)) := by
  refine ⟨String.mk (u.toList.take 2), String.mk ((u.toList.drop 2).take 2),
    String.mk (u.toList.drop 4), ?_, ?_, ?_, rfl, ?_⟩
  · apply String.ext
    simp only [String.data_append]
    have : List.drop 4 u.toList = List.drop 2 (List.drop 2 u.toList) := by
      rw [List.drop_drop]
    show u.toList = _
    rw [this, List.append_assoc, List.take_append_drop, List.take_append_drop]
  · have hlen : u.toList.length = u.length := rfl
    show (List.take 2 u.toList).length = 2
    rw [List.length_take]
    omega
  · have hlen : u.toList.length = u.length := rfl
    show (List.take 2 (List.drop 2 u.toList)).length = 2
    rw [List.length_take, List.length_drop]
    omega
  · intro env w sys dicom target_name hroot hid
    subst hroot
    subst hid
    refine ⟨?_, ?_⟩
    · intro hblob
      exact ShadowWriter.AddFile_missing env w sys dicom target_name hblob
    · intro hblob hdst hs
      exact ShadowWriter.AddFile_hard_calls env w sys dicom target_name hblob hdst hs

/-- Witness of C18: the identifier `abcdef`. -/
theorem blobPath_layout_witness :
    ∃ a b rest : String, "abcdef" = a ++ b ++ rest ∧ a.length = 2 ∧ b.length = 2 ∧
      ShadowWriter.blobPath ["/storage"] "abcdef" = ["/storage"] ++ [a, b, "abcdef"] :=
  match blobPath_layout ["/storage"] "abcdef" (by decide) with
  | ⟨a, b, rest, h1, h2, h3, h4, _⟩ => ⟨a, b, rest, h1, h2, h3, h4⟩

theorem mem_setInsert (s : List Path) (p q : Path) :
    q ∈ setInsert s p ↔ q = p ∨ q ∈ s := by
  induction s with
  | nil => simp [setInsert]
  | cons x rest ih =>
    simp only [setInsert]
    split
    · rename_i h
      subst h
      simp only [List.mem_cons]
      constructor
      · intro h; exact Or.inr h
      · intro h
        rcases h with h | h
        · exact Or.inl h
        · exact h
    · split
      · simp only [List.mem_cons]
      · simp only [List.mem_cons, ih]
        constructor
        · intro h
          rcases h with h | h | h
          · exact Or.inr (Or.inl h)
          · exact Or.inl h
          · exact Or.inr (Or.inr h)
        · intro h
          rcases h with h | h | h
          · exact Or.inr (Or.inl h)
          · exact Or.inl h
          · exact Or.inr (Or.inr h)

theorem writtenPaths_append (a b : List FsCall) :
    writtenPaths (a ++ b) = writtenPaths a ++ writtenPaths b := by
  induction a with
  | nil => simp [writtenPaths]
  | cons c rest ih =>
    cases c <;> simp [writtenPaths, ih]

theorem node_none_not_exists (sys : System) (p : Path) (h : sys.node p = none) :
    sys.fs_exists p = false := by
  rw [System.fs_exists_false_iff]
  show resolve sys.node (39 + 1) p = none
  simp only [resolve, h]

namespace TarStreamWriter

/-- What a call writes is tracked afterwards, and what was tracked stays
tracked. -/
theorem step_tracked (env : FsOutcomes) (w : TarStreamWriter) (sys : System)
    (call : TarCall) :
    (∀ p ∈ writtenPaths (w.step env sys call).sys.calls,
        p ∈ writtenPaths sys.calls ∨ p ∈ (w.step env sys call).state.files) ∧
      (∀ p ∈ w.files, p ∈ (w.step env sys call).state.files) := by
  cases call with
  | OpenDirectory name =>
    simp only [step, OpenDirectory]
    split <;>
      simp [System.logLine, System.create_directory, writtenPaths_append, writtenPaths] <;>
      tauto
  | CloseDirectory =>
    simp only [step, CloseDirectory]
    exact ⟨fun p hp => Or.inl hp, fun p hp => hp⟩
  | AddFile filename content =>
    simp only [step, AddFile]
    split <;>
      simp [System.write, writtenPaths_append, writtenPaths, mem_setInsert] <;>
      tauto

theorem run_tracked (env : FsOutcomes) (calls : List TarCall) :
    ∀ (w : TarStreamWriter) (sys : System),
      (∀ p ∈ writtenPaths (w.run env sys calls).sys.calls,
          p ∈ writtenPaths sys.calls ∨ p ∈ (w.run env sys calls).state.files) ∧
        (∀ p ∈ w.files, p ∈ (w.run env sys calls).state.files) := by
  induction calls with
  | nil =>
    intro w sys
    exact ⟨fun p hp => Or.inl hp, fun p hp => hp⟩
  | cons call rest ih =>
    intro w sys
    have hstep := step_tracked env w sys call
    simp only [run]
    split
    · exact hstep
    · have hrest := ih (w.step env sys call).state (w.step env sys call).sys
      refine ⟨?_, ?_⟩
      · intro p hp
        rcases hrest.1 p hp with h | h
        · rcases hstep.1 p h with h2 | h2
          · exact Or.inl h2
          · exact Or.inr (hrest.2 p h2)
        · exact Or.inr h
      · intro p hp
        exact hrest.2 p (hstep.2 p hp)

/-- The loop of the destructor makes no node and forgets no call and no line
of the log. -/
theorem removeFiles_keeps (env : FsOutcomes) (l : List Path) :
    ∀ (sys : System),
      (∀ p, sys.node p = none → (removeFiles env sys l).node p = none) ∧
        (∀ c ∈ sys.calls, c ∈ (removeFiles env sys l).calls) ∧
        (∀ line ∈ sys.log, line ∈ (removeFiles env sys l).log) := by
  induction l with
  | nil =>
    intro sys
    exact ⟨fun _ h => h, fun _ h => h, fun _ h => h⟩
  | cons q rest ih =>
    intro sys
    simp only [removeFiles]
    split
    · have h := ih ((sys.remove env q).1.logLine (.failedToRemove q))
      refine ⟨?_, ?_, ?_⟩
      · intro p hp
        apply h.1
        simp only [System.logLine, System.remove]
        split
        · rfl
        · exact hp
      · intro c hc
        apply h.2.1
        simp [System.logLine, System.remove, hc]
      · intro line hl
        apply h.2.2
        simp [System.logLine, System.remove, hl]
    · have h := ih (sys.remove env q).1
      refine ⟨?_, ?_, ?_⟩
      · intro p hp
        apply h.1
        simp only [System.remove]
        split
        · rfl
        · exact hp
      · intro c hc
        apply h.2.1
        simp [System.remove, hc]
      · intro line hl
        apply h.2.2
        simp [System.remove, hl]

/-- The loop of the destructor calls `remove` on every path of the list; a
path for which the call succeeds holds no node at the end, and a path for which
it fails has its line in the log. -/
theorem removeFiles_each (env : FsOutcomes) (l : List Path) :
    ∀ (sys : System), ∀ p ∈ l, ∃ ec, FsCall.remove p ec ∈ (removeFiles env sys l).calls ∧
      (ec = none → (removeFiles env sys l).node p = none) ∧
      (ec ≠ none → LogLine.failedToRemove p ∈ (removeFiles env sys l).log) := by
  induction l with
  | nil => intro sys p hp; cases hp
  | cons q rest ih =>
    intro sys p hp
    rcases List.mem_cons.1 hp with hq | hrest
    · subst hq
      simp only [removeFiles]
      cases hec : (sys.remove env p).2 with
      | some e =>
        have hk := removeFiles_keeps env rest ((sys.remove env p).1.logLine (.failedToRemove p))
        refine ⟨some e, ?_, ?_, ?_⟩
        · apply hk.2.1
          have : env.remove sys.node p = some e := hec
          simp [System.logLine, System.remove, this]
        · intro h; cases h
        · intro _
          apply hk.2.2
          simp [System.logLine]
      | none =>
        have hk := removeFiles_keeps env rest (sys.remove env p).1
        have hrm : env.remove sys.node p = none := hec
        refine ⟨none, ?_, ?_, ?_⟩
        · apply hk.2.1
          simp [System.remove, hrm]
        · intro _
          apply hk.1
          simp [System.remove, hrm]
        · intro h; exact absurd rfl h
    · simp only [removeFiles]
      split
      · exact ih _ p hrest
      · exact ih _ p hrest

/-- When every removal succeeds, no path of the list holds a node after the
loop of the destructor. -/
theorem removeFiles_all (env : FsOutcomes) (hrm : ∀ node p, env.remove node p = none)
    (l : List Path) :
    ∀ (sys : System), ∀ p ∈ l, (removeFiles env sys l).node p = none := by
  induction l with
  | nil => intro sys p hp; cases hp
  | cons q rest ih =>
    intro sys p hp
    have hec : (sys.remove env q).2 = none := hrm sys.node q
    simp only [removeFiles, hec]
    rcases List.mem_cons.1 hp with hq | hrest
    · subst hq
      apply (removeFiles_keeps env rest (sys.remove env p).1).1
      simp [System.remove, hrm]
    · exact ih _ p hrest

end TarStreamWriter

/-- C19 (amended): for every sequence of calls, every path written
(by `AddFile`, at `root / currentDir / filename`) is in `files` afterwards.
The destructor of a writer whose pipe was opened raises nothing, does the
same whatever `pclose` returns, and calls `remove` on every path of `files`: a
path whose removal succeeds holds no node and does not exist afterwards, a
path whose removal fails has its line in the log, and the removals after it
are made all the same. When every removal succeeds, no path of `files`
exists after the destructor. -/
theorem teardown_removes_tracked (env : FsOutcomes) (w : TarStreamWriter) (sys : System)
    (calls : List TarCall) (status : Int) :
    (∀ p ∈ writtenPaths (w.run env sys calls).sys.calls,
        p ∈ writtenPaths sys.calls ∨ p ∈ (w.run env sys calls).state.files) ∧
      (∀ filename content,
        writtenPaths (w.AddFile env sys filename content).sys.calls =
            writtenPaths sys.calls ++ [w.root ++ (w.currentDir ++ [filename])] ∧
          w.root ++ (w.currentDir ++ [filename]) ∈
            (w.AddFile env sys filename content).state.files) ∧
      (w.f ≠ none →
        (w.destructor env sys status).raised = none ∧
          (w.destructor env sys status).sys = (w.destructor env sys 0).sys ∧
          (∀ p ∈ w.files, ∃ ec,
            FsCall.remove p ec ∈ (w.destructor env sys status).sys.calls ∧
            (ec = none → (w.destructor env sys status).sys.node p = none ∧
              (w.destructor env sys status).sys.fs_exists p = false) ∧
            (ec ≠ none →
              LogLine.failedToRemove p ∈ (w.destructor env sys status).sys.log)) ∧
          ((∀ node p, env.remove node p = none) →
            ∀ p ∈ w.files, (w.destructor env sys status).sys.fs_exists p = false)) := by
  refine ⟨(TarStreamWriter.run_tracked env calls w sys).1, ?_, ?_⟩
  · intro filename content
    simp only [TarStreamWriter.AddFile]
    split <;>
      simp [System.write, writtenPaths_append, writtenPaths, mem_setInsert]
  · intro hf
    cases hfs : w.f with
    | none => exact absurd hfs hf
    | some lines =>
      simp only [TarStreamWriter.destructor, hfs]
      refine ⟨trivial, trivial, ?_, ?_⟩
      · intro p hp
        obtain ⟨ec, h1, h2, h3⟩ := TarStreamWriter.removeFiles_each env w.files sys p hp
        exact ⟨ec, h1, fun h => ⟨h2 h, node_none_not_exists _ p (h2 h)⟩, h3⟩
      · intro hrm p hp
        exact node_none_not_exists _ p (TarStreamWriter.removeFiles_all env hrm w.files sys p hp)

/-- Witness of C19 (amended): two files are written and the writer is
destroyed, on a system where every call succeeds and with an exit status that
is not zero. -/
theorem teardown_removes_tracked_witness :
    ((TarStreamWriter.new true exampleScratch "tar").1.run allSucceed
        (TarStreamWriter.new true exampleScratch "tar").2 exampleTarCalls).state.f ≠ none ∧
      (((TarStreamWriter.new true exampleScratch "tar").1.run allSucceed
        (TarStreamWriter.new true exampleScratch "tar").2 exampleTarCalls).state.destructor
          allSucceed
          ((TarStreamWriter.new true exampleScratch "tar").1.run allSucceed
            (TarStreamWriter.new true exampleScratch "tar").2 exampleTarCalls).sys
          1).sys.fs_exists ["/tmp", "a"] = false :=
  ⟨by decide,
    ((teardown_removes_tracked allSucceed
      ((TarStreamWriter.new true exampleScratch "tar").1.run allSucceed
        (TarStreamWriter.new true exampleScratch "tar").2 exampleTarCalls).state
      ((TarStreamWriter.new true exampleScratch "tar").1.run allSucceed
        (TarStreamWriter.new true exampleScratch "tar").2 exampleTarCalls).sys
      [] 1).2.2 (by decide)).2.2.2 (fun _ _ => rfl) ["/tmp", "a"] (by decide)⟩

/-- C19 (as stated, refuted): a writer with the pipe open writes the files `a` and
`b`, so `/tmp/a` and `/tmp/b` are both in `files`; the operating system
refuses to remove `/tmp/a`. After the destructor `/tmp/a` still exists (and
the failure is in the log), while `/tmp/b` is removed. -/
theorem teardown_leaves_file :
    ((TarStreamWriter.new true exampleScratch "tar").1.run keepsA
        (TarStreamWriter.new true exampleScratch "tar").2 exampleTarCalls).state.files
        = [["/tmp", "a"], ["/tmp", "b"]] ∧
      (((TarStreamWriter.new true exampleScratch "tar").1.run keepsA
          (TarStreamWriter.new true exampleScratch "tar").2 exampleTarCalls).state.destructor
            keepsA
            ((TarStreamWriter.new true exampleScratch "tar").1.run keepsA
              (TarStreamWriter.new true exampleScratch "tar").2 exampleTarCalls).sys
            0).sys.fs_exists ["/tmp", "a"] = true ∧
      (((TarStreamWriter.new true exampleScratch "tar").1.run keepsA
          (TarStreamWriter.new true exampleScratch "tar").2 exampleTarCalls).state.destructor
            keepsA
            ((TarStreamWriter.new true exampleScratch "tar").1.run keepsA
              (TarStreamWriter.new true exampleScratch "tar").2 exampleTarCalls).sys
            0).sys.fs_exists ["/tmp", "b"] = false ∧
      LogLine.failedToRemove ["/tmp", "a"] ∈
        (((TarStreamWriter.new true exampleScratch "tar").1.run keepsA
          (TarStreamWriter.new true exampleScratch "tar").2 exampleTarCalls).state.destructor
            keepsA
            ((TarStreamWriter.new true exampleScratch "tar").1.run keepsA
              (TarStreamWriter.new true exampleScratch "tar").2 exampleTarCalls).sys
            0).sys.log := by
  refine ⟨by decide, by decide, by decide, by decide⟩

theorem mem_keys_foldl_of_mem {β : Type} (v : β) (ids : List String) :
    ∀ (rs : List (String × β)) (x : String), x ∈ ids ∨ x ∈ rs.map Prod.fst →
      x ∈ (ids.foldl (fun m id2 => mapAssign m id2 v) rs).map Prod.fst := by
  induction ids with
  | nil =>
    intro rs x h
    rcases h with h | h
    · cases h
    · exact h
  | cons a tl ih =>
    intro rs x h
    simp only [List.foldl]
    apply ih
    rcases h with h | h
    · rcases List.mem_cons.1 h with h1 | h1
      · subst h1
        exact Or.inr (mem_mapAssign_self rs x v)
      · exact Or.inl h1
    · exact Or.inr (mem_keys_of_mapAssign rs a v x h)

namespace ArchiveIndex

/-- The entry `Expand` leaves under a key that was marked for expansion. -/
theorem mapFind_Expand_pending (index : ServerIndex) (level : ResourceType) (id : String)
    (rs : Resources) (h : mapFind rs id = some none) :
    mapFind (rs.map fun entry =>
        match entry.2 with
        | none => (entry.1, some (Expand index (newChildToExpand index level entry.1)))
        | some child => (entry.1, some (Expand index child))) id =
      some (some (Expand index (newChildToExpand index level id))) := by
  induction rs with
  | nil => simp [mapFind] at h
  | cons hd tl ih =>
    obtain ⟨k, w⟩ := hd
    simp only [mapFind] at h
    by_cases hk : id = k
    · subst hk
      simp only [if_true, Option.some.injEq] at h
      subst h
      simp [mapFind]
    · simp only [hk, if_false] at h
      cases w with
      | none => simp only [List.map_cons, mapFind, hk, if_false]; exact ih h
      | some c => simp only [List.map_cons, mapFind, hk, if_false]; exact ih h

/-- The expansion of entries that are all marked for expansion. -/
theorem areExpansions_of_pending (index : ServerIndex) (level : ResourceType)
    (hall : ∀ k, isExpansionOf index (GetChildResourceType level) k
      (Expand index (newChildToExpand index level k)))
    (rs : Resources) (hpend : ∀ e ∈ rs, e.2 = none) :
    areExpansions index (GetChildResourceType level) (rs.map fun entry =>
        match entry.2 with
        | none => (entry.1, some (Expand index (newChildToExpand index level entry.1)))
        | some child => (entry.1, some (Expand index child))) := by
  induction rs with
  | nil => simp [areExpansions]
  | cons hd tl ih =>
    obtain ⟨k, w⟩ := hd
    have hw : w = none := hpend (k, w) (List.mem_cons_self _ _)
    subst hw
    simp only [List.map_cons, areExpansions]
    exact ⟨hall k, ih (fun e he => hpend e (List.mem_cons_of_mem _ he))⟩

/-- The child built for an entry of a `Series` node. -/
theorem isExpansionOf_series (index : ServerIndex) (id : String) :
    isExpansionOf index .Instance id (Expand index (newChildToExpand index .Series id)) := by
  rw [newChildToExpand_series, Expand_instance]
  simp [isExpansionOf]

/-- The child built for an entry of a `Patient` or `Study` node, when the
children built one level below are expansions. -/
theorem isExpansionOf_upper (index : ServerIndex) (level : ResourceType) (id : String)
    (hc : GetChildResourceType level ≠ .Instance)
    (hall : ∀ k, isExpansionOf index (GetChildResourceType (GetChildResourceType level)) k
      (Expand index (newChildToExpand index (GetChildResourceType level) k))) :
    isExpansionOf index (GetChildResourceType level) id
      (Expand index (newChildToExpand index level id)) := by
  rw [newChildToExpand_upper index level id hc]
  have hpend := foldl_mapAssign_none_pending (index.GetChildren id) [] (by simp)
  have hsorted := foldl_mapAssign_sorted (none : Option ArchiveIndex) (index.GetChildren id) []
    (by simp)
  generalize hrs : (index.GetChildren id).foldl
    (fun m id2 => mapAssign m id2 (none : Option ArchiveIndex)) [] = rs at hpend hsorted
  have hkeys : ∀ k, k ∈ rs.map Prod.fst ↔ k ∈ index.GetChildren id := by
    intro k
    rw [← hrs]
    constructor
    · intro h
      rcases mem_keys_foldl_mapAssign _ _ _ _ h with h1 | h1
      · exact h1
      · simp at h1
    · intro h
      exact mem_keys_foldl_of_mem _ _ _ _ (Or.inl h)
  have heq : Expand index (.mk (GetChildResourceType level) rs []) =
      .mk (GetChildResourceType level) (rs.map fun entry =>
        match entry.2 with
        | none => (entry.1, some (Expand index
            (newChildToExpand index (GetChildResourceType level) entry.1)))
        | some child => (entry.1, some (Expand index child))) [] := by
    conv_lhs => rw [← mk_eta (Expand index (.mk (GetChildResourceType level) rs []))]
    rw [Expand_level, Expand_instances, Expand_resources index _
      (by simpa [ArchiveIndex.level_] using hc)]
    rfl
  have hk := Expand_keys index (.mk (GetChildResourceType level) rs [])
  rw [heq] at hk ⊢
  simp only [ArchiveIndex.resources_] at hk
  simp only [isExpansionOf, hc, if_false, true_and, hk]
  exact ⟨sorted_keys_nodup _ hsorted, hkeys,
    areExpansions_of_pending index (GetChildResourceType level) hall rs hpend⟩

/-- The child built for an entry marked for expansion, at every level. -/
theorem isExpansionOf_newChild (index : ServerIndex) (level : ResourceType) (id : String)
    (hL : level ≠ .Instance) :
    isExpansionOf index (GetChildResourceType level) id
      (Expand index (newChildToExpand index level id)) := by
  cases level with
  | Instance => exact absurd rfl hL
  | Series => exact isExpansionOf_series index id
  | Study =>
    exact isExpansionOf_upper index .Study id (by decide)
      (fun k => isExpansionOf_series index k)
  | Patient =>
    refine isExpansionOf_upper index .Patient id (by decide) ?_
    intro k
    exact isExpansionOf_upper index .Study k (by decide)
      (fun k2 => isExpansionOf_series index k2)

/-- The entry under a key of the node itself that is marked for expansion,
after `Expand`. -/
theorem Expand_pending_direct (index : ServerIndex) (t : ArchiveIndex) (id : String)
    (hL : t.level_ ≠ .Instance) (hp : mapFind t.resources_ id = some none) :
    ∃ child, mapFind (Expand index t).resources_ id = some (some child) ∧
      isExpansionOf index (GetChildResourceType t.level_) id child := by
  refine ⟨Expand index (newChildToExpand index t.level_ id), ?_, ?_⟩
  · rw [Expand_resources index t hL]
    exact mapFind_Expand_pending index t.level_ id t.resources_ hp
  · exact isExpansionOf_newChild index t.level_ id hL

/-- The entry `Expand` leaves under a key that had a child. -/
theorem mapFind_Expand_child (index : ServerIndex) (level : ResourceType) (id : String)
    (c : ArchiveIndex) (rs : Resources) (h : mapFind rs id = some (some c)) :
    mapFind (rs.map fun entry =>
        match entry.2 with
        | none => (entry.1, some (Expand index (newChildToExpand index level entry.1)))
        | some child => (entry.1, some (Expand index child))) id =
      some (some (Expand index c)) := by
  induction rs with
  | nil => simp [mapFind] at h
  | cons hd tl ih =>
    obtain ⟨k, w⟩ := hd
    simp only [mapFind] at h
    by_cases hk : id = k
    · subst hk
      simp only [if_true, Option.some.injEq] at h
      subst h
      simp [mapFind]
    · simp only [hk, if_false] at h
      cases w with
      | none => simp only [List.map_cons, mapFind, hk, if_false]; exact ih h
      | some c2 => simp only [List.map_cons, mapFind, hk, if_false]; exact ih h

theorem entryAt_cons (k : String) (path : List String) (t : ArchiveIndex) (h : path ≠ []) :
    entryAt (k :: path) t =
      match mapFind t.resources_ k with
      | some (some child) => entryAt path child
      | _ => none := by
  cases path with
  | nil => exact absurd rfl h
  | cons k2 rest => rfl

/-- A node that follows the level discipline and has an entry is not at
`Instance` level. -/
theorem level_of_entry (t : ArchiveIndex) (k : String) (v : Option ArchiveIndex)
    (hwf : wellFormed t = true) (h : mapFind t.resources_ k = some v) :
    t.level_ ≠ .Instance := by
  intro hI
  have := ((wellFormed_iff t).mp hwf).1 hI
  rw [this] at h
  simp [mapFind] at h

/-- C20 (amended): for every index and every tree that follows the level
discipline of the class (as every tree built by `Add` does), and for every
entry that is pending when `Expand` starts, at any depth (it is reached from
the root by the keys `pre` through expanded children and has the key `id`):
after `Expand` the entry reached by the same keys holds a child that is the
expansion of `id`. Its keys are the children `GetChildren` reports for `id`,
each once, and so on at every level below, down to the lists of instances,
which hold, in the reported order, one instance per reported child that has a
DICOM attachment (a reported child without one is left out). -/
theorem Expand_pending_exact (index : ServerIndex) (pre : List String) (id : String) :
    ∀ (t : ArchiveIndex) (L : ResourceType), wellFormed t = true →
      entryAt (pre ++ [id]) t = some (L, none) →
      ∃ child, entryAt (pre ++ [id]) (Expand index t) = some (L, some child) ∧
        isExpansionOf index (GetChildResourceType L) id child := by
  induction pre with
  | nil =>
    intro t L hwf hp
    simp only [List.nil_append, entryAt, Option.map_eq_some', Prod.mk.injEq] at hp
    obtain ⟨v, hv, hl, hnone⟩ := hp
    subst hnone
    subst hl
    have hL := level_of_entry t id none hwf hv
    obtain ⟨child, hchild, hexp⟩ := Expand_pending_direct index t id hL hv
    refine ⟨child, ?_, hexp⟩
    simp only [List.nil_append, entryAt, hchild, Option.map_some', Expand_level]
  | cons k rest ih =>
    intro t L hwf hp
    have hne : rest ++ [id] ≠ [] := by simp
    rw [List.cons_append, entryAt_cons k _ t hne] at hp
    rw [List.cons_append, entryAt_cons k _ _ hne]
    cases hf : mapFind t.resources_ k with
    | none => simp only [hf] at hp; cases hp
    | some w =>
      cases w with
      | none => simp only [hf] at hp; cases hp
      | some c =>
        simp only [hf] at hp
        have hL := level_of_entry t k (some c) hwf hf
        have hwc := (((wellFormed_iff t).mp hwf).2.2 k c (mapFind_mem _ _ _ hf)).2
        have hfind : mapFind (Expand index t).resources_ k = some (some (Expand index c)) := by
          rw [Expand_resources index t hL]
          exact mapFind_Expand_child index t.level_ k c t.resources_ hf
        simp only [hfind]
        exact ih c L hwc hp

end ArchiveIndex

/-- Witness of C20 (amended): the series `S`, pending two levels below the
root of the example selection, in the index in which `I2` has no DICOM
attachment. -/
theorem Expand_pending_exact_witness :
    ∃ child, ArchiveIndex.entryAt ["P", "T", "S"] (ArchiveIndex.Expand bareIndex exampleSelection)
        = some (.Series, some child) ∧
      ArchiveIndex.isExpansionOf bareIndex .Instance "S" child :=
  ArchiveIndex.Expand_pending_exact bareIndex ["P", "T"] "S" exampleSelection .Series rfl rfl

/-- C20 (as stated, refuted): the index reports the instances `I1` and `I2` under
the series `S`, and `I2` has no DICOM attachment. After `Expand` of a node in
which `S` is marked for expansion, the instance list recorded under `S` holds
`I1` only: there is no instance entry for the reported child `I2`. -/
theorem Expand_skips_instance_without_attachment :
    bareIndex.GetChildren "S" = ["I1", "I2"] ∧
      mapFind (ArchiveIndex.mk .Series [("S", none)] []).resources_ "S" = some none ∧
      ArchiveIndex.Expand bareIndex (.mk .Series [("S", none)] []) =
        .mk .Series [("S", some (.mk .Instance [] [⟨"I1", ⟨"I1", .Dicom, 10, .None⟩⟩]))] [] := by
  refine ⟨by decide, rfl, ?_⟩
  rw [ArchiveIndex.Expand_cons_pending _ _ _ _ _ (by decide), ArchiveIndex.Expand_nil,
    ArchiveIndex.newChildToExpand_series, ArchiveIndex.Expand_instance]
  simp +decide [ArchiveIndex.resources_, instancesOf, bareIndex, exampleIndex]

/-! ## The placeholder loop -/

theorem findFrom_isSome_iff (pattern : List Char) :
    ∀ (l : List Char) (pos : Nat), (findFrom pattern l pos).isSome = true ↔ pattern <:+: l := by
  intro l
  induction l with
  | nil =>
    intro pos
    simp only [findFrom, List.infix_nil]
    split <;> simp_all
  | cons c rest ih =>
    intro pos
    simp only [findFrom, List.infix_cons_iff]
    by_cases hp : pattern.isPrefixOf (c :: rest) = true
    · simp only [hp, if_true, Option.isSome_some, true_iff]
      exact Or.inl (List.isPrefixOf_iff_prefix.mp hp)
    · simp only [hp, if_false, Bool.false_eq_true]
      rw [ih]
      constructor
      · intro h; exact Or.inr h
      · intro h
        rcases h with h | h
        · exact absurd (List.isPrefixOf_iff_prefix.mpr h) hp
        · exact h

theorem find_isSome_iff (s str : String) :
    (find s str).isSome = true ↔ str.toList <:+: s.toList :=
  findFrom_isSome_iff str.toList s.toList 0

/-- After a replacement by a string that holds the pattern, the result holds
the pattern. -/
theorem find_replace (s str filename : String) (pos len : Nat)
    (h : (find filename str).isSome = true) :
    (find (replace s pos len filename) str).isSome = true := by
  rw [find_isSome_iff] at h ⊢
  refine List.IsInfix.trans h ?_
  show filename.toList <:+: s.toList.take pos ++ filename.toList ++ s.toList.drop (pos + len)
  exact ⟨s.toList.take pos, s.toList.drop (pos + len), rfl⟩

/-- C22 (the code at the failing inputs): when the template holds the
placeholder and the output name holds it too, the loop of lines 669-675 has
not ended after any number of tests of its condition: it replaces the first
occurrence and searches again from the start of the string, where the name it
has just inserted brings the placeholder back. -/
theorem substitutePlaceholder_loops (cmd filename : String)
    (hcmd : (find cmd placeholder).isSome = true)
    (hname : (find filename placeholder).isSome = true) :
    ∀ fuel, substitutePlaceholder fuel cmd filename = none := by
  intro fuel
  induction fuel generalizing cmd with
  | zero => rfl
  | succ n ih =>
    simp only [substitutePlaceholder]
    cases hf : find cmd placeholder with
    | none => rw [hf] at hcmd; cases hcmd
    | some found =>
      simp only
      exact ih _ (find_replace cmd placeholder filename found placeholder.length hname)

/-- Witness of C22: the template `tar {}` and the output name `{}`. -/
theorem substitutePlaceholder_loops_witness :
    substitutePlaceholder 1000 "tar \x7b\x7d" "\x7b\x7d" = none :=
  substitutePlaceholder_loops "tar \x7b\x7d" "\x7b\x7d" (by decide) (by decide) 1000

/-! ## `Open` and the study date -/

/-- C23 (the code at the failing inputs): for a study whose main DICOM tags
are found and whose `StudyDate` has fewer than two characters (absent and
empty included), `Open` of the stream visitor and of the shadow visitor raise
`std::out_of_range`, from `substr(2)`, and pass no name to `OpenDirectory`.
At the levels `Patient` and `Series`, and for a study whose date has two
characters or more, whatever its `StudyTime`, both return a name. -/
theorem Open_raises_on_short_date (tb : Toolbox) (index : ServerIndex) (publicId : String) :
    (∀ tags, index.GetMainDicomTags publicId .Study .Study = some tags →
      (GetTag tags DICOM_TAG_STUDY_DATE).length < 2 →
        TarStreamWriterVisitor.Open tb index .Study publicId = .error .out_of_range ∧
        ShadowWriterVisitor.Open tb index .Study publicId = .error .out_of_range) ∧
    (∀ tags, index.GetMainDicomTags publicId .Study .Study = some tags →
      2 ≤ (GetTag tags DICOM_TAG_STUDY_DATE).length →
        (∃ name, TarStreamWriterVisitor.Open tb index .Study publicId = .ok name) ∧
        (∃ name, ShadowWriterVisitor.Open tb index .Study publicId = .ok name)) ∧
    (∀ level, level = .Patient ∨ level = .Series →
      (∃ name, TarStreamWriterVisitor.Open tb index level publicId = .ok name) ∧
      (∃ name, ShadowWriterVisitor.Open tb index level publicId = .ok name)) := by
  refine ⟨?_, ?_, ?_⟩
  · intro tags htags hlen
    have hgt : 2 > (GetTag tags DICOM_TAG_STUDY_DATE).length := hlen
    simp [TarStreamWriterVisitor.Open, TarStreamWriterVisitor.tagPath,
      ShadowWriterVisitor.Open, ShadowWriterVisitor.tagPath, htags, substr, hgt]
  · intro tags htags hlen
    have hgt : ¬ 2 > (GetTag tags DICOM_TAG_STUDY_DATE).length := by omega
    simp [TarStreamWriterVisitor.Open, TarStreamWriterVisitor.tagPath,
      ShadowWriterVisitor.Open, ShadowWriterVisitor.tagPath, htags, substr, hgt]
  · intro level hlevel
    rcases hlevel with h | h
    · subst h
      cases htags : index.GetMainDicomTags publicId .Patient .Patient <;>
        simp [TarStreamWriterVisitor.Open, TarStreamWriterVisitor.tagPath,
          ShadowWriterVisitor.Open, ShadowWriterVisitor.tagPath, htags]
    · subst h
      cases htags : index.GetMainDicomTags publicId .Series .Series <;>
        simp [TarStreamWriterVisitor.Open, TarStreamWriterVisitor.tagPath,
          ShadowWriterVisitor.Open, ShadowWriterVisitor.tagPath, htags]

/-- Witness of C23: the study `T` of an index whose tags are not filled
in. -/
theorem Open_raises_on_short_date_witness :
    TarStreamWriterVisitor.Open specToolbox datelessIndex .Study "T" = .error .out_of_range ∧
      ShadowWriterVisitor.Open specToolbox datelessIndex .Study "T" = .error .out_of_range :=
  (Open_raises_on_short_date specToolbox datelessIndex "T").1 noTags rfl (by decide)

/-! ## `RangeConstraint` -/

theorem ToUpperCase_length (s : String) : (ToUpperCase s).length = s.length := by
  show (s.toList.map toupper).length = s.toList.length
  exact List.length_map _ _

/-- C26 (the code, and a failing input): with both bounds non-empty, a
constraint built with `isCaseSensitive = true` compares the upper-cased value
with the upper-cased bounds, and one built with `isCaseSensitive = false`
compares value and bounds as given: the flag is honoured the wrong way
round. So the bounds `a` and `z` with `isCaseSensitive = true` match the
value `B`, although `a <= B` does not hold on the strings as given. With one
bound empty the check is one-sided, and with both empty nothing matches. -/
theorem Match_flag_inverted (lower upper value : String) :
    (lower ≠ "" → upper ≠ "" →
      (RangeConstraint.new lower upper true).Match value =
          (stringLe (ToUpperCase lower) (ToUpperCase value) &&
            stringLe (ToUpperCase value) (ToUpperCase upper)) ∧
        (RangeConstraint.new lower upper false).Match value =
          (stringLe lower value && stringLe value upper)) ∧
    (upper ≠ "" →
      (RangeConstraint.new "" upper true).Match value =
          stringLe (ToUpperCase value) (ToUpperCase upper) ∧
        (RangeConstraint.new "" upper false).Match value = stringLe value upper) ∧
    (lower ≠ "" →
      (RangeConstraint.new lower "" true).Match value =
          stringLe (ToUpperCase lower) (ToUpperCase value) ∧
        (RangeConstraint.new lower "" false).Match value = stringLe lower value) ∧
    (∀ flag, (RangeConstraint.new "" "" flag).Match value = false) ∧
    ((RangeConstraint.new "a" "z" true).Match "B" = true ∧ stringLe "a" "B" = false) := by
  have hlen : ∀ s : String, s ≠ "" → s.length ≠ 0 := by
    intro s hs h
    apply hs
    apply String.ext
    exact List.length_eq_zero.mp h
  have hup : ∀ s : String, s ≠ "" → (ToUpperCase s).length ≠ 0 := by
    intro s hs
    rw [ToUpperCase_length]
    exact hlen s hs
  have hempty : ToUpperCase "" = "" := rfl
  have hzero : ("" : String).length = 0 := rfl
  refine ⟨?_, ?_, ?_, ?_, by decide⟩
  · intro hl hu
    simp [RangeConstraint.new, RangeConstraint.Match, hlen lower hl, hlen upper hu,
      hup lower hl, hup upper hu]
  · intro hu
    simp [RangeConstraint.new, RangeConstraint.Match, hlen upper hu, hup upper hu, hempty]
  · intro hl
    simp [RangeConstraint.new, RangeConstraint.Match, hlen lower hl, hup lower hl, hempty]
  · intro flag
    cases flag <;> simp [RangeConstraint.new, RangeConstraint.Match, hempty]

/-- Witness of C26: the bounds `A` and `Z` with `isCaseSensitive = false` do
not match the value `b`, which lies between them after upper-casing. -/
theorem Match_flag_inverted_witness :
    (RangeConstraint.new "A" "Z" false).Match "b" = (stringLe "A" "b" && stringLe "b" "Z") ∧
      (stringLe "A" "b" && stringLe "b" "Z") = false ∧
      (stringLe (ToUpperCase "A") (ToUpperCase "b") &&
        stringLe (ToUpperCase "b") (ToUpperCase "Z")) = true :=
  ⟨((Match_flag_inverted "A" "Z" "b").1 (by decide) (by decide)).2, by decide, by decide⟩

namespace ArchiveIndex

theorem AddLevels_eq (index : ServerIndex) (resource : ResourceIdentifiers) (t : ArchiveIndex) :
    AddLevels index resource t =
      match resource.GetIdentifier t.level_ with
      | .error _ => [t.level_]
      | .ok id =>
        if t.level_ = .Instance then [t.level_]
        else if resource.GetLevel = t.level_ then [t.level_]
        else
          match mapFind t.resources_ id with
          | none => t.level_ :: AddLevels index resource (.new (GetChildResourceType t.level_))
          | some (some previous) => t.level_ :: AddLevels index resource previous
          | some none => [t.level_] := by
  rw [AddLevels]
  split
  · rfl
  · split
    · rfl
    · split
      · rfl
      · split <;> simp_all

theorem GetIdentifier_of_le (r : ResourceIdentifiers) (L : ResourceType)
    (h : L ≤ r.GetLevel) : ∃ x, r.GetIdentifier L = .ok x := by
  rw [ResourceType.le_def] at h
  obtain ⟨lv, p, t, s, i⟩ := r
  cases L <;> cases lv <;>
    simp_all [ResourceIdentifiers.GetIdentifier, ResourceIdentifiers.GetLevel,
      ResourceType.gt_def, ResourceType.toNat]

theorem child_le_of_lt (r : ResourceIdentifiers) (L : ResourceType)
    (hle : L ≤ r.GetLevel) (hne : r.GetLevel ≠ L) : GetChildResourceType L ≤ r.GetLevel := by
  rw [ResourceType.le_def] at hle ⊢
  obtain ⟨lv, p, t, s, i⟩ := r
  cases L <;> cases lv <;>
    simp_all [ResourceIdentifiers.GetLevel, GetChildResourceType, ResourceType.toNat]

theorem levelsFrom_child (L : ResourceType) (h : L ≠ .Instance) :
    levelsFrom L = L :: levelsFrom (GetChildResourceType L) := by
  cases L <;> simp [levelsFrom, GetChildResourceType] at h ⊢

theorem levelsFrom_head (L : ResourceType) : [L] <+: levelsFrom L := by
  cases L <;> simp [levelsFrom, List.prefix_cons_iff]

/-- On a node that follows the level discipline and whose level is not below
the level of the chain, `Add` returns a tree; the levels it visits go down
one by one from the level of the node, none below the level of the chain. -/
theorem Add_ok (index : ServerIndex) (resource : ResourceIdentifiers) (t : ArchiveIndex) :
    wellFormed t = true → t.level_ ≤ resource.GetLevel →
      (∃ t2, Add index resource t = .ok t2) ∧
      AddLevels index resource t <+: levelsFrom t.level_ ∧
      ∀ L ∈ AddLevels index resource t, L ≤ resource.GetLevel := by
  induction t using height_induction with
  | step t ih =>
    intro ht hle
    obtain ⟨id, hid⟩ := GetIdentifier_of_le resource t.level_ hle
    rw [Add_eq, AddLevels_eq]
    simp only [hid]
    have hone : [t.level_] <+: levelsFrom t.level_ ∧
        ∀ L ∈ [t.level_], L ≤ resource.GetLevel :=
      ⟨levelsFrom_head _, fun L hL => by rw [List.mem_singleton.mp hL]; exact hle⟩
    by_cases hI : t.level_ = .Instance
    · simp only [hI, if_true]
      rw [hI] at hone
      exact ⟨⟨_, rfl⟩, hone⟩
    · simp only [hI, if_false]
      by_cases hsame : resource.GetLevel = t.level_
      · simp only [hsame, if_true]
        exact ⟨⟨_, rfl⟩, hone.1, fun L hL => by
          rw [List.mem_singleton.mp hL]
          exact (ResourceType.le_def _ _).mpr (Nat.le_refl _)⟩
      · simp only [hsame, if_false]
        have hchild := child_le_of_lt resource t.level_ hle hsame
        cases hprev : mapFind t.resources_ id with
        | none =>
          have hnew := ih _ (height_new_child_lt t hI) (wellFormed_new _)
            (by simpa [ArchiveIndex.new, ArchiveIndex.level_] using hchild)
          obtain ⟨⟨c, hc⟩, hpre, hall⟩ := hnew
          simp only [hc]
          refine ⟨⟨_, rfl⟩, ?_, ?_⟩
          · rw [levelsFrom_child _ hI]
            exact List.prefix_cons_inj _ |>.mpr
              (by simpa [ArchiveIndex.new, ArchiveIndex.level_] using hpre)
          · intro L hL
            rcases List.mem_cons.mp hL with h | h
            · rw [h]; exact hle
            · exact hall L h
        | some w =>
          cases w with
          | none => exact ⟨⟨_, rfl⟩, hone⟩
          | some previous =>
            have hmem := mapFind_mem _ _ _ hprev
            have hwf := ((wellFormed_iff t).mp ht).2.2 id previous hmem
            have hrec := ih _ (height_child_lt t id previous hmem) hwf.2
              (by rw [hwf.1]; exact hchild)
            obtain ⟨⟨c, hc⟩, hpre, hall⟩ := hrec
            simp only [hc]
            refine ⟨⟨_, rfl⟩, ?_, ?_⟩
            · rw [levelsFrom_child _ hI]
              exact List.prefix_cons_inj _ |>.mpr (by rw [← hwf.1]; exact hpre)
            · intro L hL
              rcases List.mem_cons.mp hL with h | h
              · rw [h]; exact hle
              · exact hall L h

theorem patient_le (L : ResourceType) : ResourceType.Patient ≤ L := by
  rw [ResourceType.le_def]
  cases L <;> simp [ResourceType.toNat]

/-- The loop of `AddResourcesOfInterest` with one more identifier, added
last. -/
theorem AddResourcesOfInterest_append (index : ServerIndex) (ids : List String) :
    ∀ (t t2 : ArchiveIndex) (id : String),
      AddResourcesOfInterest index t ids = .ok t2 →
        AddResourcesOfInterest index t (ids ++ [id]) =
          AddResourcesOfInterest index t2 [id] := by
  induction ids with
  | nil =>
    intro t t2 id h
    simp only [AddResourcesOfInterest, Except.ok.injEq] at h
    subst h
    rfl
  | cons a tl ih =>
    intro t t2 id h
    simp only [AddResourcesOfInterest, List.cons_append] at h ⊢
    cases hr : ResourceIdentifiers.create index a with
    | error e => simp only [hr] at h; cases h
    | ok r =>
      simp only [hr] at h ⊢
      cases ht1 : Add index r t with
      | error e => simp only [ht1] at h; cases h
      | ok t1 =>
        simp only [ht1] at h ⊢
        exact ih t1 t2 id h

/-- C25: on every tree that the loop of `AddResourcesOfInterest` builds from
an empty `Patient`-level root, `Add` of every chain resolved against the
index returns a tree and raises nothing (`Add` is a total function, so it
terminates). The returned tree is again such a tree, its root is at
`Patient` level and it follows the level discipline: every child of a node is a
node of the level directly below, and only `Instance`-level nodes hold instance
entries. The levels at which `Add` asks the chain for an identifier go down
one by one from `Patient`, at most to `Instance`, and none is below the level
of the chain. -/
theorem Add_never_faults (index : ServerIndex) (ids : List String) (t : ArchiveIndex)
    (id : String) (resource : ResourceIdentifiers)
    (ht : AddResourcesOfInterest index (.new .Patient) ids = .ok t)
    (hr : ResourceIdentifiers.create index id = .ok resource) :
    ∃ t2, Add index resource t = .ok t2 ∧
      AddResourcesOfInterest index (.new .Patient) (ids ++ [id]) = .ok t2 ∧
      t2.level_ = .Patient ∧ wellFormed t2 = true ∧
      AddLevels index resource t <+: [.Patient, .Study, .Series, .Instance] ∧
      (AddLevels index resource t).length ≤ 4 ∧
      ∀ L ∈ AddLevels index resource t, L ≤ resource.GetLevel := by
  have hwf := wellFormed_AddResourcesOfInterest index ids _ t (wellFormed_new _) ht
  have hlevel : t.level_ = .Patient := hwf.1
  obtain ⟨⟨t2, h2⟩, hpre, hall⟩ := Add_ok index resource t hwf.2
    (by rw [hlevel]; exact patient_le _)
  have hwf2 := wellFormed_Add index resource t t2 hwf.2 h2
  rw [hlevel] at hpre
  refine ⟨t2, h2, ?_, hwf2.1.trans hlevel, hwf2.2, hpre, ?_, hall⟩
  · rw [AddResourcesOfInterest_append index ids _ t id ht]
    simp only [AddResourcesOfInterest, hr, h2]
  · exact hpre.length_le

end ArchiveIndex

/-- Witness of C25: the chain of the instance `I1` is added to the tree in
which the series `S` is selected. -/
theorem Add_never_faults_witness :
    ∃ t2, ArchiveIndex.Add exampleIndex exampleChain exampleSelection = .ok t2 ∧
      t2.level_ = .Patient ∧ ArchiveIndex.wellFormed t2 = true :=
  match ArchiveIndex.Add_never_faults exampleIndex ["S"] exampleSelection "I1" exampleChain
    example_add_S example_create_I1 with
  | ⟨t2, h1, _, h3, h4, _⟩ => ⟨t2, h1, h3, h4⟩

namespace ArchiveIndex

theorem keeps_iff (t after : ArchiveIndex) :
    keeps t after ↔ after.level_ = t.level_ ∧ after.instances_ = t.instances_ ∧
      keepsEntries t.resources_ after.resources_ := by
  cases t with
  | mk level rs is => simp [keeps, ArchiveIndex.level_, ArchiveIndex.resources_,
      ArchiveIndex.instances_]

/-- Entries are kept by a map that keeps every key and every child that is
not pending. -/
theorem keepsEntries_map (f : String × Option ArchiveIndex → String × Option ArchiveIndex)
    (rs : List (String × Option ArchiveIndex))
    (hkey : ∀ e ∈ rs, (f e).1 = e.1)
    (hchild : ∀ k c, (k, some c) ∈ rs → ∃ c2, (f (k, some c)).2 = some c2 ∧ keeps c c2) :
    keepsEntries rs (rs.map f) := by
  induction rs with
  | nil => simp [keepsEntries]
  | cons hd tl ih =>
    obtain ⟨k, w⟩ := hd
    have htl := ih (fun e he => hkey e (List.mem_cons_of_mem _ he))
      (fun k2 c hc => hchild k2 c (List.mem_cons_of_mem _ hc))
    have hk : (f (k, w)).1 = k := hkey (k, w) (List.mem_cons_self _ _)
    cases w with
    | none =>
      simp only [List.map_cons, keepsEntries]
      exact ⟨(f (k, none)).2, tl.map f,
        congrArg (fun x => x :: tl.map f) (Prod.ext hk rfl), htl⟩
    | some c =>
      obtain ⟨c2, h2, hkeep⟩ := hchild k c (List.mem_cons_self _ _)
      simp only [List.map_cons, keepsEntries]
      exact ⟨c2, tl.map f, congrArg (fun x => x :: tl.map f) (Prod.ext hk h2), hkeep, htl⟩

theorem keeps_refl (t : ArchiveIndex) : keeps t t := by
  induction t using height_induction with
  | step t ih =>
    rw [keeps_iff]
    refine ⟨rfl, rfl, ?_⟩
    have := keepsEntries_map id t.resources_ (fun _ _ => rfl)
      (fun k c hc => ⟨c, rfl, ih c (height_child_lt t k c hc)⟩)
    simpa using this

/-- Method `Expand` keeps every node that is not pending. -/
theorem keeps_Expand (index : ServerIndex) (t : ArchiveIndex) : keeps t (Expand index t) := by
  induction t using height_induction with
  | step t ih =>
    by_cases hL : t.level_ = .Instance
    · have : Expand index t = t := by rw [Expand_eq]; simp [hL]
      rw [this]
      exact keeps_refl t
    · rw [keeps_iff, Expand_level, Expand_instances, Expand_resources index t hL]
      refine ⟨rfl, rfl, ?_⟩
      apply keepsEntries_map
      · intro e _
        obtain ⟨k, w⟩ := e
        cases w <;> rfl
      · intro k c hc
        exact ⟨Expand index c, rfl, ih c (height_child_lt t k c hc)⟩

/-- The tree after the chain of a series has been added to an empty root. -/
theorem Add_series_chain (index : ServerIndex) (p st s i : String) :
    Add index ⟨.Series, p, st, s, i⟩ (.new .Patient) =
      .ok (.mk .Patient [(p, some (.mk .Study [(st, some (.mk .Series [(s, none)] []))] []))]
        []) := by
  simp [Add_eq, ArchiveIndex.new, ArchiveIndex.level_, ResourceIdentifiers.GetIdentifier,
    ResourceIdentifiers.GetLevel, mapFind, mapAssign, GetChildResourceType,
    ArchiveIndex.resources_, ArchiveIndex.instances_, ResourceType.gt_def, ResourceType.toNat]

/-- The tree after the chain of an instance has been added to an empty
root. -/
theorem Add_instance_chain (index : ServerIndex) (p st s i : String) :
    Add index ⟨.Instance, p, st, s, i⟩ (.new .Patient) =
      .ok (.mk .Patient [(p, some (.mk .Study [(st, some (.mk .Series
        [(s, some (.mk .Instance [] (instancesOf index [i])))] []))] []))] []) := by
  simp [Add_eq, ArchiveIndex.new, ArchiveIndex.level_, ResourceIdentifiers.GetIdentifier,
    ResourceIdentifiers.GetLevel, mapFind, mapAssign, GetChildResourceType,
    ArchiveIndex.resources_, ArchiveIndex.instances_, ResourceType.gt_def, ResourceType.toNat,
    AddResourceToExpand_instance]

/-- C21 (amended): `Expand` keeps every node that is not pending (its level,
its instance list, its keys and, in turn, its children that are not pending)
and leaves a tree without pending node unchanged. For the tree built from an
empty root by adding only the chain of a series `s`, the expanded tree has
one patient, one study and one series, the ancestors of `s` and `s` itself,
and under `s` the instances the index reports for it that have a DICOM
attachment. For the chain of an instance `i`, it has one patient, one study,
one series, and under the series the instance `i` alone when the index has a
DICOM attachment for it, and no instance at all when it has none. -/
theorem Expand_keeps_selection (index : ServerIndex) (t : ArchiveIndex) (p st s i : String) :
    keeps t (Expand index t) ∧
    (hasPending t = false → Expand index t = t) ∧
    (∃ tree, Add index ⟨.Series, p, st, s, i⟩ (.new .Patient) = .ok tree ∧
      Expand index tree =
        .mk .Patient [(p, some (.mk .Study [(st, some (.mk .Series
          [(s, some (.mk .Instance [] (instancesOf index (index.GetChildren s))))] []))] []))]
          []) ∧
    (∃ tree, Add index ⟨.Instance, p, st, s, i⟩ (.new .Patient) = .ok tree ∧
      Expand index tree =
        .mk .Patient [(p, some (.mk .Study [(st, some (.mk .Series
          [(s, some (.mk .Instance [] (instancesOf index [i])))] []))] []))] []) ∧
    (∀ info, index.LookupAttachment i .Dicom = some info →
      instancesOf index [i] = [⟨i, info⟩]) ∧
    (index.LookupAttachment i .Dicom = none → instancesOf index [i] = []) := by
  refine ⟨keeps_Expand index t, Expand_of_not_hasPending index t,
    ⟨_, Add_series_chain index p st s i, ?_⟩, ⟨_, Add_instance_chain index p st s i, ?_⟩, ?_, ?_⟩
  · simp +decide [Expand_cons_child, Expand_cons_pending, Expand_nil, Expand_instance,
      newChildToExpand_series, ArchiveIndex.resources_]
  · simp +decide [Expand_cons_child, Expand_nil, Expand_instance, ArchiveIndex.resources_]
  · intro info h
    simp [instancesOf, h]
  · intro h
    simp [instancesOf, h]

end ArchiveIndex

/-- Witness of C21 (amended): the chain of the instance `I1` of the example
index, which has a DICOM attachment. -/
theorem Expand_keeps_selection_witness :
    instancesOf exampleIndex ["I1"] = [⟨"I1", ⟨"I1", .Dicom, 10, .None⟩⟩] ∧
      ArchiveIndex.Expand exampleIndex exampleExpanded = exampleExpanded :=
  ⟨(ArchiveIndex.Expand_keeps_selection exampleIndex exampleExpanded "P" "T" "S" "I1").2.2.2.2.1
      ⟨"I1", .Dicom, 10, .None⟩ rfl,
    (ArchiveIndex.Expand_keeps_selection exampleIndex exampleExpanded "P" "T" "S" "I1").2.1 rfl⟩

/-- C21 (as stated, refuted): in the index in which the instance `I2` has no
DICOM attachment, the chain of `I2` resolves, and the tree built by adding
only this chain, expanded, holds the patient, the study and the series of
`I2` but no instance: the instance `I2` is not in it. -/
theorem narrow_instance_without_attachment :
    ResourceIdentifiers.create bareIndex "I2" = .ok ⟨.Instance, "P", "T", "S", "I2"⟩ ∧
      ∃ tree, ArchiveIndex.Add bareIndex ⟨.Instance, "P", "T", "S", "I2"⟩ (.new .Patient)
          = .ok tree ∧
        ArchiveIndex.Expand bareIndex tree =
          .mk .Patient [("P", some (.mk .Study [("T", some (.mk .Series
            [("S", some (.mk .Instance [] []))] []))] []))] [] ∧
        ArchiveIndex.instanceEntries (ArchiveIndex.Expand bareIndex tree) = [] := by
  refine ⟨rfl, _, ArchiveIndex.Add_instance_chain bareIndex "P" "T" "S" "I2", ?_⟩
  have hnone : instancesOf bareIndex ["I2"] = [] := by decide
  have hexp : ArchiveIndex.Expand bareIndex
      (.mk .Patient [("P", some (.mk .Study [("T", some (.mk .Series
        [("S", some (.mk .Instance [] []))] []))] []))] []) =
      .mk .Patient [("P", some (.mk .Study [("T", some (.mk .Series
        [("S", some (.mk .Instance [] []))] []))] []))] [] := by
    simp +decide [ArchiveIndex.Expand_cons_child, ArchiveIndex.Expand_nil,
      ArchiveIndex.Expand_instance, ArchiveIndex.resources_]
  rw [hnone, hexp]
  exact ⟨rfl, rfl⟩

/-! ## Assignment and lookup in the map -/

theorem mapFind_mapAssign_self {β : Type} (rs : List (String × β)) (a : String) (v : β) :
    mapFind (mapAssign rs a v) a = some v := by
  induction rs with
  | nil => simp [mapAssign, mapFind]
  | cons hd tl ih =>
    obtain ⟨k, w⟩ := hd
    simp only [mapAssign]
    by_cases h1 : a = k
    · simp [h1, mapFind]
    · simp only [h1, if_false]
      by_cases h2 : a.data < k.data
      · simp [h2, mapFind]
      · simp [h2, mapFind, h1, ih]

theorem mapFind_mapAssign_ne {β : Type} (rs : List (String × β)) (a b : String) (v : β)
    (hab : b ≠ a) : mapFind (mapAssign rs a v) b = mapFind rs b := by
  induction rs with
  | nil => simp [mapAssign, mapFind, hab]
  | cons hd tl ih =>
    obtain ⟨k, w⟩ := hd
    simp only [mapAssign]
    by_cases h1 : a = k
    · subst h1
      simp [mapFind, hab]
    · simp only [h1, if_false]
      by_cases h2 : a.data < k.data
      · simp [h2, mapFind, hab]
      · simp [h2, mapFind, ih]

theorem mapAssign_mapAssign_self {β : Type} (rs : List (String × β)) (a : String) (v w : β) :
    mapAssign (mapAssign rs a v) a w = mapAssign rs a w := by
  induction rs with
  | nil => simp [mapAssign]
  | cons hd tl ih =>
    obtain ⟨k, x⟩ := hd
    simp only [mapAssign]
    by_cases h1 : a = k
    · simp [h1, mapAssign]
    · simp only [h1, if_false]
      by_cases h2 : a.data < k.data
      · simp [h2, mapAssign]
      · simp [h2, mapAssign, h1, ih]

theorem mapAssign_comm {β : Type} (rs : List (String × β)) (a b : String) (v w : β)
    (hab : a ≠ b) :
    mapAssign (mapAssign rs a v) b w = mapAssign (mapAssign rs b w) a v := by
  have hba : b ≠ a := fun h => hab h.symm
  induction rs with
  | nil =>
    simp only [mapAssign, hab, hba, if_false]
    by_cases h : a.data < b.data
    · have h2 : ¬ b.data < a.data := fun h3 => keyLt_irrefl a (keyLt_trans h h3)
      simp [h, h2]
    · have h2 : b.data < a.data := keyLt_of_not hab h
      simp [h, h2]
  | cons hd tl ih =>
    obtain ⟨k, x⟩ := hd
    by_cases ha : a = k
    · subst ha
      by_cases hb : b.data < a.data
      · have h2 : ¬ a.data < b.data := fun h3 => keyLt_irrefl a (keyLt_trans h3 hb)
        simp [mapAssign, hab, hba, hb, h2]
      · simp [mapAssign, hab, hba, hb]
    · by_cases hb : b = k
      · subst hb
        by_cases ha2 : a.data < b.data
        · have h2 : ¬ b.data < a.data := fun h3 => keyLt_irrefl a (keyLt_trans ha2 h3)
          simp [mapAssign, hab, hba, ha2, h2]
        · simp [mapAssign, hab, hba, ha2]
      · by_cases ha2 : a.data < k.data
        · by_cases hb2 : b.data < k.data
          · by_cases h : a.data < b.data
            · have h2 : ¬ b.data < a.data := fun h3 => keyLt_irrefl a (keyLt_trans h h3)
              simp [mapAssign, ha, hb, hab, hba, ha2, hb2, h, h2]
            · have h2 : b.data < a.data := keyLt_of_not hab h
              simp [mapAssign, ha, hb, hab, hba, ha2, hb2, h, h2]
          · have hkb : k.data < b.data := keyLt_of_not hb hb2
            have h : a.data < b.data := keyLt_trans ha2 hkb
            have h2 : ¬ b.data < a.data := fun h3 => keyLt_irrefl a (keyLt_trans h h3)
            simp [mapAssign, ha, hb, hab, hba, ha2, hb2, h, h2]
        · by_cases hb2 : b.data < k.data
          · have hka : k.data < a.data := keyLt_of_not ha ha2
            have h : b.data < a.data := keyLt_trans hb2 hka
            have h2 : ¬ a.data < b.data := fun h3 => keyLt_irrefl a (keyLt_trans h3 h)
            simp [mapAssign, ha, hb, hab, hba, ha2, hb2, h, h2]
          · simp [mapAssign, ha, hb, ha2, hb2, ih]

namespace ArchiveIndex

/-! ## Trees that are the same up to the order inside the instance lists -/

theorem sameEntries_iff (rs rs2 : List (String × Option ArchiveIndex)) :
    sameEntries rs rs2 ↔ List.Forall₂ sameEntry rs rs2 := by
  induction rs generalizing rs2 with
  | nil =>
    simp only [sameEntries]
    constructor
    · intro h; subst h; exact List.Forall₂.nil
    · intro h; cases h; rfl
  | cons hd tl ih =>
    obtain ⟨k, w⟩ := hd
    cases w with
    | none =>
      simp only [sameEntries]
      constructor
      · rintro ⟨rest2, rfl, h⟩
        exact List.Forall₂.cons ⟨rfl, trivial⟩ ((ih rest2).mp h)
      · intro h
        cases h with
        | cons hhd htl =>
          rename_i e2 rest2
          obtain ⟨k2, w2⟩ := e2
          obtain ⟨hk, hv⟩ := hhd
          simp only at hk
          subst hk
          cases w2 with
          | none => exact ⟨rest2, rfl, (ih rest2).mpr htl⟩
          | some c => exact absurd hv (by simp [sameValue])
    | some c =>
      simp only [sameEntries]
      constructor
      · rintro ⟨c2, rest2, rfl, hc, h⟩
        exact List.Forall₂.cons ⟨rfl, hc⟩ ((ih rest2).mp h)
      · intro h
        cases h with
        | cons hhd htl =>
          rename_i e2 rest2
          obtain ⟨k2, w2⟩ := e2
          obtain ⟨hk, hv⟩ := hhd
          simp only at hk
          subst hk
          cases w2 with
          | none => exact absurd hv (by simp [sameValue])
          | some c2 => exact ⟨c2, rest2, rfl, hv, (ih rest2).mpr htl⟩

theorem sameUpToOrder_iff (t u : ArchiveIndex) :
    sameUpToOrder t u ↔ u.level_ = t.level_ ∧ t.instances_.Perm u.instances_ ∧
      List.Forall₂ sameEntry t.resources_ u.resources_ := by
  cases t with
  | mk level rs is =>
    simp only [sameUpToOrder, sameEntries_iff, ArchiveIndex.level_, ArchiveIndex.resources_,
      ArchiveIndex.instances_]

theorem sameUpToOrder_refl (t : ArchiveIndex) : sameUpToOrder t t := by
  induction t using height_induction with
  | step t ih =>
    rw [sameUpToOrder_iff]
    refine ⟨rfl, List.Perm.refl _, ?_⟩
    rw [List.forall₂_same]
    intro e he
    obtain ⟨k, w⟩ := e
    cases w with
    | none => exact ⟨rfl, trivial⟩
    | some c => exact ⟨rfl, ih c (height_child_lt t k c he)⟩

theorem forall₂_trans_of_mem {α : Type} (R : α → α → Prop) :
    ∀ (l1 l2 l3 : List α), (∀ a ∈ l1, ∀ b c, R a b → R b c → R a c) →
      List.Forall₂ R l1 l2 → List.Forall₂ R l2 l3 → List.Forall₂ R l1 l3 := by
  intro l1
  induction l1 with
  | nil =>
    intro l2 l3 _ h12 h23
    cases h12
    cases h23
    exact List.Forall₂.nil
  | cons a tl ih =>
    intro l2 l3 htrans h12 h23
    cases h12 with
    | cons hab htl =>
      cases h23 with
      | cons hbc htl2 =>
        exact List.Forall₂.cons (htrans a (List.mem_cons_self _ _) _ _ hab hbc)
          (ih _ _ (fun x hx => htrans x (List.mem_cons_of_mem _ hx)) htl htl2)

theorem sameUpToOrder_trans (t : ArchiveIndex) :
    ∀ u v, sameUpToOrder t u → sameUpToOrder u v → sameUpToOrder t v := by
  induction t using height_induction with
  | step t ih =>
    intro u v htu huv
    rw [sameUpToOrder_iff] at htu huv ⊢
    refine ⟨huv.1.trans htu.1, htu.2.1.trans huv.2.1, ?_⟩
    refine forall₂_trans_of_mem sameEntry _ _ _ ?_ htu.2.2 huv.2.2
    intro e he e2 e3 h12 h23
    obtain ⟨k, w⟩ := e
    obtain ⟨k2, w2⟩ := e2
    obtain ⟨k3, w3⟩ := e3
    obtain ⟨hk12, hv12⟩ := h12
    obtain ⟨hk23, hv23⟩ := h23
    simp only at hk12 hk23
    refine ⟨hk12.trans hk23, ?_⟩
    cases w with
    | none =>
      cases w2 with
      | none => exact hv23
      | some c2 => exact absurd hv12 (by simp [sameValue])
    | some c =>
      cases w2 with
      | none => exact absurd hv12 (by simp [sameValue])
      | some c2 =>
        cases w3 with
        | none => exact absurd hv23 (by simp [sameValue])
        | some c3 => exact ih c (height_child_lt t k c he) c2 c3 hv12 hv23

theorem sameValue_refl (v : Option ArchiveIndex) : sameValue v v := by
  cases v with
  | none => trivial
  | some c => exact sameUpToOrder_refl c

theorem sameEntries_refl (rs : List (String × Option ArchiveIndex)) :
    List.Forall₂ sameEntry rs rs := by
  rw [List.forall₂_same]
  intro e _
  exact ⟨rfl, sameValue_refl e.2⟩

/-- Lookup in maps that are the same gives values that are the same. -/
theorem sameEntries_mapFind (rs rs2 : List (String × Option ArchiveIndex)) (id : String)
    (h : List.Forall₂ sameEntry rs rs2) :
    (mapFind rs id = none ∧ mapFind rs2 id = none) ∨
      ∃ v v2, mapFind rs id = some v ∧ mapFind rs2 id = some v2 ∧ sameValue v v2 := by
  induction h with
  | nil => exact Or.inl ⟨rfl, rfl⟩
  | @cons e e2 tl tl2 hhd _ ih =>
    obtain ⟨k, w⟩ := e
    obtain ⟨k2, w2⟩ := e2
    obtain ⟨hk, hv⟩ := hhd
    simp only at hk hv
    subst hk
    simp only [mapFind]
    by_cases hid : id = k
    · simp only [hid, if_true]
      exact Or.inr ⟨w, w2, rfl, rfl, hv⟩
    · simp only [hid, if_false]
      exact ih

/-- Assignment of values that are the same in maps that are the same. -/
theorem sameEntries_mapAssign (rs rs2 : List (String × Option ArchiveIndex)) (id : String)
    (v v2 : Option ArchiveIndex) (h : List.Forall₂ sameEntry rs rs2) (hv : sameValue v v2) :
    List.Forall₂ sameEntry (mapAssign rs id v) (mapAssign rs2 id v2) := by
  induction h with
  | nil => exact List.Forall₂.cons ⟨rfl, hv⟩ List.Forall₂.nil
  | @cons e e2 tl tl2 hhd htl ih =>
    obtain ⟨k, w⟩ := e
    obtain ⟨k2, w2⟩ := e2
    obtain ⟨hk, hw⟩ := hhd
    simp only at hk hw
    subst hk
    simp only [mapAssign]
    by_cases hid : id = k
    · simp only [hid, if_true]
      exact List.Forall₂.cons ⟨rfl, hv⟩ htl
    · simp only [hid, if_false]
      by_cases hlt : id.toList < k.toList
      · simp only [hlt, if_true]
        exact List.Forall₂.cons ⟨rfl, hv⟩ (List.Forall₂.cons ⟨rfl, hw⟩ htl)
      · simp only [hlt, if_false]
        exact List.Forall₂.cons ⟨rfl, hw⟩ ih

end ArchiveIndex

namespace ArchiveIndex

/-! ## The branches of `Add` -/

theorem Add_at_instance (index : ServerIndex) (r : ResourceIdentifiers) (t : ArchiveIndex)
    (id : String) (hid : r.GetIdentifier t.level_ = .ok id) (hI : t.level_ = .Instance) :
    Add index r t = .ok (AddResourceToExpand index t id) := by
  rw [Add_eq]; simp only [hid]; rw [if_pos hI]

theorem Add_mark (index : ServerIndex) (r : ResourceIdentifiers) (t : ArchiveIndex)
    (id : String) (hid : r.GetIdentifier t.level_ = .ok id) (hI : t.level_ ≠ .Instance)
    (hs : r.GetLevel = t.level_) :
    Add index r t = .ok (.mk t.level_ (mapAssign t.resources_ id none) t.instances_) := by
  rw [Add_eq]; simp only [hid, hI, hs, if_true, if_false]

theorem Add_new (index : ServerIndex) (r : ResourceIdentifiers) (t : ArchiveIndex)
    (id : String) (c : ArchiveIndex) (hid : r.GetIdentifier t.level_ = .ok id)
    (hI : t.level_ ≠ .Instance) (hs : r.GetLevel ≠ t.level_)
    (hf : mapFind t.resources_ id = none)
    (hc : Add index r (.new (GetChildResourceType t.level_)) = .ok c) :
    Add index r t = .ok (.mk t.level_ (mapAssign t.resources_ id (some c)) t.instances_) := by
  rw [Add_eq]; simp only [hid, hI, hs, hf, hc, if_false]

theorem Add_previous (index : ServerIndex) (r : ResourceIdentifiers) (t : ArchiveIndex)
    (id : String) (p c : ArchiveIndex) (hid : r.GetIdentifier t.level_ = .ok id)
    (hI : t.level_ ≠ .Instance) (hs : r.GetLevel ≠ t.level_)
    (hf : mapFind t.resources_ id = some (some p)) (hc : Add index r p = .ok c) :
    Add index r t = .ok (.mk t.level_ (mapAssign t.resources_ id (some c)) t.instances_) := by
  rw [Add_eq]; simp only [hid, hI, hs, hf, hc, if_false]

theorem Add_absorbed (index : ServerIndex) (r : ResourceIdentifiers) (t : ArchiveIndex)
    (id : String) (hid : r.GetIdentifier t.level_ = .ok id)
    (hI : t.level_ ≠ .Instance) (hs : r.GetLevel ≠ t.level_)
    (hf : mapFind t.resources_ id = some none) :
    Add index r t = .ok t := by
  rw [Add_eq]; simp only [hid, hI, hs, hf, if_false]

/-- The ways in which `Add` returns a tree. -/
theorem Add_ok_cases (index : ServerIndex) (r : ResourceIdentifiers) (t a : ArchiveIndex)
    (h : Add index r t = .ok a) :
    ∃ id, r.GetIdentifier t.level_ = .ok id ∧
      ((t.level_ = .Instance ∧ a = AddResourceToExpand index t id) ∨
        (t.level_ ≠ .Instance ∧
          ((r.GetLevel = t.level_ ∧
              a = .mk t.level_ (mapAssign t.resources_ id none) t.instances_) ∨
            (r.GetLevel ≠ t.level_ ∧
              ((mapFind t.resources_ id = none ∧
                  ∃ c, Add index r (.new (GetChildResourceType t.level_)) = .ok c ∧
                    a = .mk t.level_ (mapAssign t.resources_ id (some c)) t.instances_) ∨
                (∃ p, mapFind t.resources_ id = some (some p) ∧
                  ∃ c, Add index r p = .ok c ∧
                    a = .mk t.level_ (mapAssign t.resources_ id (some c)) t.instances_) ∨
                (mapFind t.resources_ id = some none ∧ a = t)))))) := by
  rw [Add_eq] at h
  cases hid : r.GetIdentifier t.level_ with
  | error e => simp only [hid] at h; cases h
  | ok id =>
    simp only [hid] at h
    refine ⟨id, rfl, ?_⟩
    by_cases hI : t.level_ = .Instance
    · simp only [hI, if_true, Except.ok.injEq] at h
      exact Or.inl ⟨hI, h.symm⟩
    · simp only [hI, if_false] at h
      refine Or.inr ⟨hI, ?_⟩
      by_cases hs : r.GetLevel = t.level_
      · simp only [hs, if_true, Except.ok.injEq] at h
        exact Or.inl ⟨hs, h.symm⟩
      · simp only [hs, if_false] at h
        refine Or.inr ⟨hs, ?_⟩
        cases hf : mapFind t.resources_ id with
        | none =>
          simp only [hf] at h
          cases hc : Add index r (.new (GetChildResourceType t.level_)) with
          | error e => simp only [hc] at h; cases h
          | ok c =>
            simp only [hc, Except.ok.injEq] at h
            exact Or.inl ⟨rfl, c, rfl, h.symm⟩
        | some w =>
          cases w with
          | none =>
            simp only [hf, Except.ok.injEq] at h
            exact Or.inr (Or.inr ⟨rfl, h.symm⟩)
          | some p =>
            simp only [hf] at h
            cases hc : Add index r p with
            | error e => simp only [hc] at h; cases h
            | ok c =>
              simp only [hc, Except.ok.injEq] at h
              exact Or.inr (Or.inl ⟨p, rfl, c, hc, h.symm⟩)

/-- At a level above `Instance`, `Add` changes `resources_` only, and the
change depends on the value found under the identifier of the chain only: it
leaves the map as it is or assigns one value under that identifier. -/
theorem Add_update (index : ServerIndex) (r : ResourceIdentifiers) (L : ResourceType)
    (rs : Resources) (is : List Instance) (a : ArchiveIndex) (id : String)
    (hid : r.GetIdentifier L = .ok id) (hL : L ≠ .Instance)
    (h : Add index r (.mk L rs is) = .ok a) :
    ∃ U : Resources → Resources,
      a = .mk L (U rs) is ∧
      ((∀ x, U x = x) ∨ ∃ v, ∀ x, U x = mapAssign x id v) ∧
      ∀ rs2 is2, mapFind rs2 id = mapFind rs id →
        Add index r (.mk L rs2 is2) = .ok (.mk L (U rs2) is2) := by
  obtain ⟨id2, hid2, hcases⟩ := Add_ok_cases index r _ a h
  simp only [ArchiveIndex.level_, ArchiveIndex.resources_, ArchiveIndex.instances_] at hid2 hcases
  rw [hid] at hid2
  simp only [Except.ok.injEq] at hid2
  subst hid2
  rcases hcases with ⟨hI, _⟩ | ⟨_, hrest⟩
  · exact absurd hI hL
  · rcases hrest with ⟨hs, ha⟩ | ⟨hs, hrest2⟩
    · refine ⟨fun x => mapAssign x id none, ha, Or.inr ⟨none, fun _ => rfl⟩, ?_⟩
      intro rs2 is2 _
      exact Add_mark index r (.mk L rs2 is2) id hid hL hs
    · rcases hrest2 with ⟨hf, c, hc, ha⟩ | ⟨p, hf, c, hc, ha⟩ | ⟨hf, ha⟩
      · refine ⟨fun x => mapAssign x id (some c), ha, Or.inr ⟨some c, fun _ => rfl⟩, ?_⟩
        intro rs2 is2 hsame
        exact Add_new index r (.mk L rs2 is2) id c hid hL hs (hsame.trans hf) hc
      · refine ⟨fun x => mapAssign x id (some c), ha, Or.inr ⟨some c, fun _ => rfl⟩, ?_⟩
        intro rs2 is2 hsame
        exact Add_previous index r (.mk L rs2 is2) id p c hid hL hs (hsame.trans hf) hc
      · refine ⟨fun x => x, ha, Or.inl (fun _ => rfl), ?_⟩
        intro rs2 is2 hsame
        exact Add_absorbed index r (.mk L rs2 is2) id hid hL hs (hsame.trans hf)

end ArchiveIndex

namespace ArchiveIndex

theorem Add_previous_eq (index : ServerIndex) (r : ResourceIdentifiers) (t : ArchiveIndex)
    (id : String) (p : ArchiveIndex) (hid : r.GetIdentifier t.level_ = .ok id)
    (hI : t.level_ ≠ .Instance) (hs : r.GetLevel ≠ t.level_)
    (hf : mapFind t.resources_ id = some (some p)) :
    Add index r t =
      match Add index r p with
      | .error e => .error e
      | .ok c => .ok (.mk t.level_ (mapAssign t.resources_ id (some c)) t.instances_) := by
  rw [Add_eq]; simp only [hid, hI, hs, hf, if_false]

theorem ok_unique {α : Type} {x : Except ErrorCode α} {a b : α}
    (h1 : x = .ok a) (h2 : x = .ok b) : a = b :=
  Except.ok.inj (h1.symm.trans h2)

/-- Method `Add` gives trees that are the same up to the order inside the
lists of instances, on trees that are. -/
theorem Add_congr (index : ServerIndex) (r : ResourceIdentifiers) (t : ArchiveIndex) :
    ∀ t2 a, sameUpToOrder t t2 → Add index r t = .ok a →
      ∃ b, Add index r t2 = .ok b ∧ sameUpToOrder a b := by
  induction t using height_induction with
  | step t ih =>
    intro t2 a hsame h
    have hs := (sameUpToOrder_iff t t2).mp hsame
    obtain ⟨hlev, hperm, hent⟩ := hs
    obtain ⟨id, hid, hcases⟩ := Add_ok_cases index r t a h
    have hid2 : r.GetIdentifier t2.level_ = .ok id := by rw [hlev]; exact hid
    rcases hcases with ⟨hI, ha⟩ | ⟨hI, hrest⟩
    · have hI2 : t2.level_ = .Instance := hlev.trans hI
      refine ⟨_, Add_at_instance index r t2 id hid2 hI2, ?_⟩
      subst ha
      cases t with
      | mk L rs is =>
        cases t2 with
        | mk L2 rs2 is2 =>
          simp only [ArchiveIndex.level_] at hI hI2
          subst hI
          subst hI2
          simp only [ArchiveIndex.resources_, ArchiveIndex.instances_] at hperm hent
          rw [AddResourceToExpand_instance, AddResourceToExpand_instance, sameUpToOrder_iff]
          exact ⟨rfl, List.Perm.append_right _ hperm, hent⟩
    · have hI2 : t2.level_ ≠ .Instance := by rw [hlev]; exact hI
      rcases hrest with ⟨hsl, ha⟩ | ⟨hsl, hrest2⟩
      · refine ⟨_, Add_mark index r t2 id hid2 hI2 (hsl.trans hlev.symm), ?_⟩
        subst ha
        rw [sameUpToOrder_iff]
        exact ⟨hlev, hperm, sameEntries_mapAssign _ _ id none none hent trivial⟩
      · have hsl2 : r.GetLevel ≠ t2.level_ := by rw [hlev]; exact hsl
        rcases hrest2 with ⟨hf, c, hc, ha⟩ | ⟨p, hf, c, hc, ha⟩ | ⟨hf, ha⟩
        · have hf2 : mapFind t2.resources_ id = none := by
            rcases sameEntries_mapFind _ _ id hent with h0 | ⟨v, v2, h1, _, _⟩
            · exact h0.2
            · rw [hf] at h1; cases h1
          refine ⟨_, Add_new index r t2 id c hid2 hI2 hsl2 hf2 (by rw [hlev]; exact hc), ?_⟩
          subst ha
          rw [sameUpToOrder_iff]
          exact ⟨hlev, hperm,
            sameEntries_mapAssign _ _ id (some c) (some c) hent (sameUpToOrder_refl c)⟩
        · rcases sameEntries_mapFind _ _ id hent with h0 | ⟨v, v2, h1, h2, hv⟩
          · rw [hf] at h0; cases h0.1
          · rw [hf] at h1
            simp only [Option.some.injEq] at h1
            subst h1
            cases v2 with
            | none => exact absurd hv (by simp [sameValue])
            | some p2 =>
              have hmem := mapFind_mem _ _ _ hf
              obtain ⟨c2, hc2, hcc⟩ := ih p (height_child_lt t id p hmem) p2 c hv hc
              refine ⟨_, Add_previous index r t2 id p2 c2 hid2 hI2 hsl2 h2 hc2, ?_⟩
              subst ha
              rw [sameUpToOrder_iff]
              exact ⟨hlev, hperm, sameEntries_mapAssign _ _ id (some c) (some c2) hent hcc⟩
        · have hf2 : mapFind t2.resources_ id = some none := by
            rcases sameEntries_mapFind _ _ id hent with h0 | ⟨v, v2, h1, h2, hv⟩
            · rw [hf] at h0; cases h0.1
            · rw [hf] at h1
              simp only [Option.some.injEq] at h1
              subst h1
              cases v2 with
              | none => exact h2
              | some p2 => exact absurd hv (by simp [sameValue])
          refine ⟨_, Add_absorbed index r t2 id hid2 hI2 hsl2 hf2, ?_⟩
          subst ha
          exact hsame

/-- Two maps updated at two different keys, in the two orders. -/
theorem update_comm (U1 U2 : Resources → Resources) (id1 id2 : String) (hne : id1 ≠ id2)
    (h1 : (∀ x, U1 x = x) ∨ ∃ v, ∀ x, U1 x = mapAssign x id1 v)
    (h2 : (∀ x, U2 x = x) ∨ ∃ v, ∀ x, U2 x = mapAssign x id2 v) (rs : Resources) :
    U2 (U1 rs) = U1 (U2 rs) ∧ mapFind (U1 rs) id2 = mapFind rs id2 ∧
      mapFind (U2 rs) id1 = mapFind rs id1 := by
  rcases h1 with h1 | ⟨v1, h1⟩ <;> rcases h2 with h2 | ⟨v2, h2⟩
  · simp only [h1, h2, and_self]
  · simp only [h1, h2, true_and]
    exact mapFind_mapAssign_ne rs id2 id1 v2 hne
  · simp only [h1, h2, true_and, and_true]
    exact mapFind_mapAssign_ne rs id1 id2 v1 (fun h => hne h.symm)
  · simp only [h1, h2]
    exact ⟨mapAssign_comm rs id1 id2 v1 v2 hne,
      mapFind_mapAssign_ne rs id1 id2 v1 (fun h => hne h.symm),
      mapFind_mapAssign_ne rs id2 id1 v2 hne⟩

/-- A chain that stops at the level of the node, added before or after
another chain with the same identifier at that level. -/
theorem Add_mark_other (index : ServerIndex) (r1 r2 : ResourceIdentifiers) (L : ResourceType)
    (rs : Resources) (is : List Instance) (id : String) (a2 : ArchiveIndex)
    (hL : L ≠ .Instance) (hid1 : r1.GetIdentifier L = .ok id) (hid2 : r2.GetIdentifier L = .ok id)
    (hs1 : r1.GetLevel = L) (h2 : Add index r2 (.mk L rs is) = .ok a2) :
    Add index r2 (.mk L (mapAssign rs id none) is) = .ok (.mk L (mapAssign rs id none) is) ∧
      Add index r1 a2 = .ok (.mk L (mapAssign rs id none) is) := by
  obtain ⟨U, ha2, hform, htrans⟩ := Add_update index r2 L rs is a2 id hid2 hL h2
  constructor
  · by_cases hs2 : r2.GetLevel = L
    · have := Add_mark index r2 (.mk L (mapAssign rs id none) is) id hid2 hL hs2
      simpa [ArchiveIndex.level_, ArchiveIndex.resources_, ArchiveIndex.instances_,
        mapAssign_mapAssign_self] using this
    · exact Add_absorbed index r2 (.mk L (mapAssign rs id none) is) id hid2 hL hs2
        (mapFind_mapAssign_self rs id none)
  · subst ha2
    have := Add_mark index r1 (.mk L (U rs) is) id hid1 hL hs1
    simp only [ArchiveIndex.level_, ArchiveIndex.resources_, ArchiveIndex.instances_] at this
    rw [this]
    rcases hform with hU | ⟨v, hU⟩
    · rw [hU]
    · rw [hU, mapAssign_mapAssign_self]

/-- Two calls of `Add` on the same tree, in the two orders, give trees that
are the same up to the order inside the instance lists. -/
theorem Add_comm (index : ServerIndex) (r1 r2 : ResourceIdentifiers) (t : ArchiveIndex) :
    ∀ a1 a12 a2 a21, Add index r1 t = .ok a1 → Add index r2 a1 = .ok a12 →
      Add index r2 t = .ok a2 → Add index r1 a2 = .ok a21 → sameUpToOrder a12 a21 := by
  induction t using height_induction with
  | step t ih =>
    intro a1 a12 a2 a21 h1 h12 h2 h21
    cases t with
    | mk L rs is =>
      obtain ⟨id1, hid1, _⟩ := Add_ok_cases index r1 _ a1 h1
      obtain ⟨id2, hid2, _⟩ := Add_ok_cases index r2 _ a2 h2
      simp only [ArchiveIndex.level_] at hid1 hid2
      by_cases hL : L = .Instance
      · subst hL
        have ha1 : a1 = .mk .Instance rs (is ++ instancesOf index [id1]) := by
          rw [← AddResourceToExpand_instance]
          exact ok_unique h1 (Add_at_instance index r1 _ id1 hid1 rfl)
        have ha2 : a2 = .mk .Instance rs (is ++ instancesOf index [id2]) := by
          rw [← AddResourceToExpand_instance]
          exact ok_unique h2 (Add_at_instance index r2 _ id2 hid2 rfl)
        subst ha1
        subst ha2
        have ha12 := ok_unique h12 (Add_at_instance index r2 _ id2 hid2 rfl)
        have ha21 := ok_unique h21 (Add_at_instance index r1 _ id1 hid1 rfl)
        rw [AddResourceToExpand_instance] at ha12 ha21
        subst ha12
        subst ha21
        rw [sameUpToOrder_iff]
        refine ⟨rfl, ?_, sameEntries_refl rs⟩
        simp only [ArchiveIndex.instances_, List.append_assoc]
        exact List.Perm.append_left is List.perm_append_comm
      · by_cases hids : id1 = id2
        · subst hids
          by_cases hs1 : r1.GetLevel = L
          · -- the first chain stops here
            have ha1 := ok_unique h1 (Add_mark index r1 (.mk L rs is) id1 hid1 hL hs1)
            simp only [ArchiveIndex.level_, ArchiveIndex.resources_,
              ArchiveIndex.instances_] at ha1
            subst ha1
            obtain ⟨hA, hB⟩ := Add_mark_other index r1 r2 L rs is id1 a2 hL hid1 hid2 hs1 h2
            rw [ok_unique h12 hA, ok_unique h21 hB]
            exact sameUpToOrder_refl _
          · by_cases hs2 : r2.GetLevel = L
            · -- the second chain stops here
              have ha2 := ok_unique h2 (Add_mark index r2 (.mk L rs is) id1 hid2 hL hs2)
              simp only [ArchiveIndex.level_, ArchiveIndex.resources_,
                ArchiveIndex.instances_] at ha2
              subst ha2
              obtain ⟨hA, hB⟩ := Add_mark_other index r2 r1 L rs is id1 a1 hL hid2 hid1 hs2 h1
              rw [ok_unique h21 hA, ok_unique h12 hB]
              exact sameUpToOrder_refl _
            · -- both chains go below this node, under the same identifier
              cases hf : mapFind rs id1 with
              | none =>
                cases hn1 : Add index r1 (.new (GetChildResourceType L)) with
                | error e =>
                  rw [Add_eq] at h1
                  simp [ArchiveIndex.level_, ArchiveIndex.resources_, hid1, hL, hs1, hf,
                    hn1] at h1
                | ok c1 =>
                  cases hn2 : Add index r2 (.new (GetChildResourceType L)) with
                  | error e =>
                    rw [Add_eq] at h2
                    simp [ArchiveIndex.level_, ArchiveIndex.resources_, hid2, hL, hs2, hf,
                      hn2] at h2
                  | ok c2 =>
                    have ha1 := ok_unique h1
                      (Add_new index r1 (.mk L rs is) id1 c1 hid1 hL hs1 hf hn1)
                    have ha2 := ok_unique h2
                      (Add_new index r2 (.mk L rs is) id1 c2 hid2 hL hs2 hf hn2)
                    simp only [ArchiveIndex.level_, ArchiveIndex.resources_,
                      ArchiveIndex.instances_] at ha1 ha2
                    subst ha1
                    subst ha2
                    have e12 := Add_previous_eq index r2
                      (.mk L (mapAssign rs id1 (some c1)) is) id1 c1 hid2 hL hs2
                      (mapFind_mapAssign_self rs id1 (some c1))
                    have e21 := Add_previous_eq index r1
                      (.mk L (mapAssign rs id1 (some c2)) is) id1 c2 hid1 hL hs1
                      (mapFind_mapAssign_self rs id1 (some c2))
                    rw [e12] at h12
                    rw [e21] at h21
                    cases hc12 : Add index r2 c1 with
                    | error e => simp [hc12] at h12
                    | ok c12 =>
                      cases hc21 : Add index r1 c2 with
                      | error e => simp [hc21] at h21
                      | ok c21 =>
                        simp only [hc12, hc21, Except.ok.injEq, ArchiveIndex.level_,
                          ArchiveIndex.resources_, ArchiveIndex.instances_,
                          mapAssign_mapAssign_self] at h12 h21
                        subst h12
                        subst h21
                        have hrec := ih (.new (GetChildResourceType L))
                          (height_new_child_lt (.mk L rs is) hL) c1 c12 c2 c21 hn1 hc12 hn2
                          hc21
                        rw [sameUpToOrder_iff]
                        exact ⟨rfl, List.Perm.refl _,
                          sameEntries_mapAssign _ _ id1 (some c12) (some c21)
                            (sameEntries_refl rs) hrec⟩
              | some w =>
                cases w with
                | none =>
                  have ha1 := ok_unique h1
                    (Add_absorbed index r1 (.mk L rs is) id1 hid1 hL hs1 hf)
                  have ha2 := ok_unique h2
                    (Add_absorbed index r2 (.mk L rs is) id1 hid2 hL hs2 hf)
                  subst ha1
                  subst ha2
                  rw [ok_unique h12 h2, ok_unique h21 h1]
                  exact sameUpToOrder_refl _
                | some p =>
                  have e1 := Add_previous_eq index r1 (.mk L rs is) id1 p hid1 hL hs1 hf
                  have e2 := Add_previous_eq index r2 (.mk L rs is) id1 p hid2 hL hs2 hf
                  rw [e1] at h1
                  rw [e2] at h2
                  cases hn1 : Add index r1 p with
                  | error e => simp [hn1] at h1
                  | ok c1 =>
                    cases hn2 : Add index r2 p with
                    | error e => simp [hn2] at h2
                    | ok c2 =>
                      simp only [hn1, hn2, Except.ok.injEq, ArchiveIndex.level_,
                        ArchiveIndex.resources_, ArchiveIndex.instances_] at h1 h2
                      subst h1
                      subst h2
                      have e12 := Add_previous_eq index r2
                        (.mk L (mapAssign rs id1 (some c1)) is) id1 c1 hid2 hL hs2
                        (mapFind_mapAssign_self rs id1 (some c1))
                      have e21 := Add_previous_eq index r1
                        (.mk L (mapAssign rs id1 (some c2)) is) id1 c2 hid1 hL hs1
                        (mapFind_mapAssign_self rs id1 (some c2))
                      rw [e12] at h12
                      rw [e21] at h21
                      cases hc12 : Add index r2 c1 with
                      | error e => simp [hc12] at h12
                      | ok c12 =>
                        cases hc21 : Add index r1 c2 with
                        | error e => simp [hc21] at h21
                        | ok c21 =>
                          simp only [hc12, hc21, Except.ok.injEq, ArchiveIndex.level_,
                            ArchiveIndex.resources_, ArchiveIndex.instances_,
                            mapAssign_mapAssign_self] at h12 h21
                          subst h12
                          subst h21
                          have hmem := mapFind_mem _ _ _ hf
                          have hrec := ih p (height_child_lt (.mk L rs is) id1 p hmem)
                            c1 c12 c2 c21 hn1 hc12 hn2 hc21
                          rw [sameUpToOrder_iff]
                          exact ⟨rfl, List.Perm.refl _,
                            sameEntries_mapAssign _ _ id1 (some c12) (some c21)
                              (sameEntries_refl rs) hrec⟩
        · -- two different identifiers at this level
          obtain ⟨U1, ha1, hform1, htrans1⟩ := Add_update index r1 L rs is a1 id1 hid1 hL h1
          obtain ⟨U2, ha2, hform2, htrans2⟩ := Add_update index r2 L rs is a2 id2 hid2 hL h2
          obtain ⟨hcomm, hf2, hf1⟩ := update_comm U1 U2 id1 id2 hids hform1 hform2 rs
          subst ha1
          subst ha2
          have hA := ok_unique h12 (htrans2 (U1 rs) is hf2)
          have hB := ok_unique h21 (htrans1 (U2 rs) is hf1)
          rw [hA, hB, hcomm]
          exact sameUpToOrder_refl _

end ArchiveIndex

namespace ArchiveIndex

/-! ## The order of the `Add` calls -/

/-- The loop of `AddResourcesOfInterest` on two roots that are the same up to
the order inside the instance lists. -/
theorem AddResourcesOfInterest_congr (index : ServerIndex) (ids : List String) :
    ∀ t t2 a, sameUpToOrder t t2 → AddResourcesOfInterest index t ids = .ok a →
      ∃ b, AddResourcesOfInterest index t2 ids = .ok b ∧ sameUpToOrder a b := by
  induction ids with
  | nil =>
    intro t t2 a hsame h
    simp only [AddResourcesOfInterest, Except.ok.injEq] at h
    subst h
    exact ⟨t2, rfl, hsame⟩
  | cons x tl ih =>
    intro t t2 a hsame h
    simp only [AddResourcesOfInterest] at h ⊢
    cases hr : ResourceIdentifiers.create index x with
    | error e => simp only [hr] at h; cases h
    | ok r =>
      simp only [hr] at h ⊢
      cases ht : Add index r t with
      | error e => simp only [ht] at h; cases h
      | ok ty =>
        simp only [ht] at h
        obtain ⟨ty2, hty2, hs2⟩ := Add_congr index r t t2 ty hsame ht
        simp only [hty2]
        exact ih ty ty2 a hs2 h

/-- The loop of `AddResourcesOfInterest` on two orders of the same
identifiers. -/
theorem AddResourcesOfInterest_perm (index : ServerIndex) (ids1 ids2 : List String)
    (hp : ids1.Perm ids2) :
    ∀ t t2 a, wellFormed t = true → t.level_ = .Patient → wellFormed t2 = true →
      t2.level_ = .Patient → sameUpToOrder t t2 →
      AddResourcesOfInterest index t ids1 = .ok a →
        ∃ b, AddResourcesOfInterest index t2 ids2 = .ok b ∧ sameUpToOrder a b := by
  induction hp with
  | nil =>
    intro t t2 a _ _ _ _ hsame h
    exact AddResourcesOfInterest_congr index [] t t2 a hsame h
  | @cons x l1 l2 _ ih =>
    intro t t2 a hw hl hw2 hl2 hsame h
    simp only [AddResourcesOfInterest] at h ⊢
    cases hr : ResourceIdentifiers.create index x with
    | error e => simp only [hr] at h; cases h
    | ok r =>
      simp only [hr] at h ⊢
      cases ht : Add index r t with
      | error e => simp only [ht] at h; cases h
      | ok ty =>
        simp only [ht] at h
        obtain ⟨ty2, hty2, hs2⟩ := Add_congr index r t t2 ty hsame ht
        simp only [hty2]
        have hwy := wellFormed_Add index r t ty hw ht
        have hwy2 := wellFormed_Add index r t2 ty2 hw2 hty2
        exact ih ty ty2 a hwy.2 (hwy.1.trans hl) hwy2.2 (hwy2.1.trans hl2) hs2 h
  | swap x y l =>
    intro t t2 a hw hl hw2 hl2 hsame h
    simp only [AddResourcesOfInterest] at h ⊢
    cases hry : ResourceIdentifiers.create index y with
    | error e => simp only [hry] at h; cases h
    | ok ry =>
      simp only [hry] at h ⊢
      cases hty : Add index ry t with
      | error e => simp only [hty] at h; cases h
      | ok ty =>
        simp only [hty] at h
        cases hrx : ResourceIdentifiers.create index x with
        | error e => simp only [hrx] at h; cases h
        | ok rx =>
          simp only [hrx] at h ⊢
          cases htyx : Add index rx ty with
          | error e => simp only [htyx] at h; cases h
          | ok tyx =>
            simp only [htyx] at h
            -- the other order, on `t` and on `t2`
            obtain ⟨⟨tx, htx⟩, _⟩ := Add_ok index rx t hw (by rw [hl]; exact patient_le _)
            have hwx := wellFormed_Add index rx t tx hw htx
            obtain ⟨⟨txy, htxy⟩, _⟩ := Add_ok index ry tx hwx.2
              (by rw [hwx.1, hl]; exact patient_le _)
            obtain ⟨tx2, htx2, hsx⟩ := Add_congr index rx t t2 tx hsame htx
            obtain ⟨txy2, htxy2, hsxy⟩ := Add_congr index ry tx tx2 txy hsx htxy
            simp only [htx2, htxy2]
            have hcomm := Add_comm index ry rx t ty tyx tx txy hty htyx htx htxy
            have hrel := sameUpToOrder_trans tyx txy txy2 hcomm hsxy
            exact AddResourcesOfInterest_congr index l tyx txy2 a hrel h
  | @trans l1 l2 l3 _ _ ih1 ih2 =>
    intro t t2 a hw hl hw2 hl2 hsame h
    obtain ⟨b, hb, hab⟩ := ih1 t t2 a hw hl hw2 hl2 hsame h
    obtain ⟨c, hc, hbc⟩ := ih2 t2 t2 b hw2 hl2 hw2 hl2 (sameUpToOrder_refl t2) hb
    exact ⟨c, hc, sameUpToOrder_trans a b c hab hbc⟩

theorem forall₂_map_of_mem {α β : Type} (R : α → α → Prop) (S : β → β → Prop)
    (f g : α → β) :
    ∀ (l1 l2 : List α), (∀ a ∈ l1, ∀ b, R a b → S (f a) (g b)) →
      List.Forall₂ R l1 l2 → List.Forall₂ S (l1.map f) (l2.map g) := by
  intro l1 l2 hmap h
  induction h with
  | nil => exact List.Forall₂.nil
  | @cons a b tl tl2 hab _ ih =>
    exact List.Forall₂.cons (hmap a (List.mem_cons_self _ _) b hab)
      (ih (fun x hx => hmap x (List.mem_cons_of_mem _ hx)))

/-- Method `Expand` gives trees that are the same up to the order inside the
lists of instances, on trees that are. -/
theorem Expand_congr (index : ServerIndex) (t : ArchiveIndex) :
    ∀ t2, sameUpToOrder t t2 → sameUpToOrder (Expand index t) (Expand index t2) := by
  induction t using height_induction with
  | step t ih =>
    intro t2 hsame
    obtain ⟨hlev, hperm, hent⟩ := (sameUpToOrder_iff t t2).mp hsame
    by_cases hL : t.level_ = .Instance
    · have h1 : Expand index t = t := by rw [Expand_eq]; simp [hL]
      have h2 : Expand index t2 = t2 := by rw [Expand_eq]; simp [hlev, hL]
      rw [h1, h2]
      exact hsame
    · have hL2 : t2.level_ ≠ .Instance := by rw [hlev]; exact hL
      rw [sameUpToOrder_iff, Expand_level, Expand_level, Expand_instances, Expand_instances,
        Expand_resources index t hL, Expand_resources index t2 hL2]
      refine ⟨hlev, hperm, ?_⟩
      refine forall₂_map_of_mem sameEntry sameEntry _ _ _ _ ?_ hent
      intro e he e2 hee
      obtain ⟨k, w⟩ := e
      obtain ⟨k2, w2⟩ := e2
      obtain ⟨hk, hv⟩ := hee
      simp only at hk hv
      subst hk
      cases w with
      | none =>
        cases w2 with
        | none =>
          simp only [hlev]
          exact ⟨rfl, sameUpToOrder_refl _⟩
        | some c2 => exact absurd hv (by simp [sameValue])
      | some c =>
        cases w2 with
        | none => exact absurd hv (by simp [sameValue])
        | some c2 => exact ⟨rfl, ih c (height_child_lt t k c he) c2 hv⟩

theorem instanceEntriesIn_perm (rs rs2 : List (String × Option ArchiveIndex))
    (hchild : ∀ k c, (k, some c) ∈ rs → ∀ c2, sameUpToOrder c c2 →
      (instanceEntries c).Perm (instanceEntries c2))
    (h : List.Forall₂ sameEntry rs rs2) :
    (instanceEntriesIn rs).Perm (instanceEntriesIn rs2) := by
  induction h with
  | nil => exact List.Perm.refl _
  | @cons e e2 tl tl2 hhd _ ih =>
    obtain ⟨k, w⟩ := e
    obtain ⟨k2, w2⟩ := e2
    obtain ⟨hk, hv⟩ := hhd
    simp only at hk hv
    subst hk
    have htl := ih (fun k2 c hc => hchild k2 c (List.mem_cons_of_mem _ hc))
    cases w with
    | none =>
      cases w2 with
      | none => simpa [instanceEntriesIn] using htl
      | some c2 => exact absurd hv (by simp [sameValue])
    | some c =>
      cases w2 with
      | none => exact absurd hv (by simp [sameValue])
      | some c2 =>
        simp only [instanceEntriesIn]
        exact List.Perm.append (hchild k c (List.mem_cons_self _ _) c2 hv) htl

/-- Trees that are the same up to the order inside the instance lists hold
the same instance entries, the same number of times. -/
theorem instanceEntries_perm (t : ArchiveIndex) :
    ∀ t2, sameUpToOrder t t2 → (instanceEntries t).Perm (instanceEntries t2) := by
  induction t using height_induction with
  | step t ih =>
    intro t2 hsame
    obtain ⟨hlev, hperm, hent⟩ := (sameUpToOrder_iff t t2).mp hsame
    rw [instanceEntries_eq, instanceEntries_eq, hlev]
    by_cases hL : t.level_ = .Instance
    · simp only [hL, if_true]
      exact hperm
    · simp only [hL, if_false]
      exact instanceEntriesIn_perm _ _
        (fun k c hc c2 hcc => ih c (height_child_lt t k c hc) c2 hcc) hent

/-- C24: for every index and every list of identifiers, if the loop that
resolves each identifier and adds its chain to an empty `Patient`-level root
returns a tree, then it returns a tree for every other order of the list, and
the two trees are the same up to the order of the entries inside each list
of instances: the same keys at every level, the same pending marks, and lists
of instances that hold the same entries the same number of times. After
`Expand`, `Apply` completes on both trees and passes the same entries to
`AddInstance`, the same number of times. -/
theorem Add_order_independent (index : ServerIndex) (ids1 ids2 : List String)
    (t1 : ArchiveIndex) (hp : ids1.Perm ids2)
    (h1 : AddResourcesOfInterest index (.new .Patient) ids1 = .ok t1) :
    ∃ t2, AddResourcesOfInterest index (.new .Patient) ids2 = .ok t2 ∧
      sameUpToOrder t1 t2 ∧
      ∃ calls1 calls2, Apply (Expand index t1) = .ok calls1 ∧
        Apply (Expand index t2) = .ok calls2 ∧
        (addedEntries calls1).Perm (addedEntries calls2) := by
  obtain ⟨t2, h2, hsame⟩ := AddResourcesOfInterest_perm index ids1 ids2 hp
    (.new .Patient) (.new .Patient) t1 (wellFormed_new _) rfl (wellFormed_new _) rfl
    (sameUpToOrder_refl _) h1
  refine ⟨t2, h2, hsame, ?_⟩
  have hw1 := wellFormed_AddResourcesOfInterest index ids1 _ t1 (wellFormed_new _) h1
  have hw2 := wellFormed_AddResourcesOfInterest index ids2 _ t2 (wellFormed_new _) h2
  obtain ⟨calls1, hc1⟩ := Apply_ok_of_not_hasPending _ (Expand_wellFormed index t1 hw1.2).2
  obtain ⟨calls2, hc2⟩ := Apply_ok_of_not_hasPending _ (Expand_wellFormed index t2 hw2.2).2
  refine ⟨calls1, calls2, hc1, hc2, ?_⟩
  rw [Apply_addedEntries _ calls1 hc1, Apply_addedEntries _ calls2 hc2]
  exact instanceEntries_perm _ _ (Expand_congr index t1 t2 hsame)

end ArchiveIndex

theorem example_create_I2 :
    ResourceIdentifiers.create exampleIndex "I2" = .ok ⟨.Instance, "P", "T", "S", "I2"⟩ := rfl

theorem example_add_I1_I2 :
    AddResourcesOfInterest exampleIndex (.new .Patient) ["I1", "I2"] = .ok exampleExpanded := by
  have h2 : exampleIndex.LookupAttachment "I2" .Dicom = some ⟨"I2", .Dicom, 10, .None⟩ := rfl
  simp +decide [AddResourcesOfInterest, example_create_I1, example_create_I2, exampleChain,
    ArchiveIndex.Add_eq, ArchiveIndex.new, ArchiveIndex.level_,
    ResourceIdentifiers.GetIdentifier, ResourceIdentifiers.GetLevel, mapFind, mapAssign,
    GetChildResourceType, ArchiveIndex.resources_, ArchiveIndex.instances_, exampleExpanded,
    ArchiveIndex.AddResourceToExpand, example_attachment_I1, h2]

/-- Witness of C24: the instances `I1` and `I2` of the example index, asked
for in the two orders. -/
theorem Add_order_independent_witness :
    ∃ t2, AddResourcesOfInterest exampleIndex (.new .Patient) ["I2", "I1"] = .ok t2 ∧
      ArchiveIndex.sameUpToOrder exampleExpanded t2 :=
  match ArchiveIndex.Add_order_independent exampleIndex ["I1", "I2"] ["I2", "I1"]
    exampleExpanded (List.Perm.swap "I2" "I1" []) example_add_I1_I2 with
  | ⟨t2, h2, hsame, _⟩ => ⟨t2, h2, hsame⟩

/-- C2 (as stated, refuted): in the index in which the instance `I2` has no
DICOM attachment, `S` is a proper ancestor of `I2` and the index reports `I1`
and `I2` under `S`. Selecting `I2` and `S` together and expanding gives one
series entry `S` whose list of instances holds `I1` only: it is not the list
the index reports under `S`, and the selected `I2` is not in it. -/
theorem ancestor_without_attachment :
    ResourceIdentifiers.create bareIndex "I2" = .ok ⟨.Instance, "P", "T", "S", "I2"⟩ ∧
      ResourceIdentifiers.create bareIndex "S" = .ok ⟨.Series, "P", "T", "S", ""⟩ ∧
      bareIndex.GetChildren "S" = ["I1", "I2"] ∧
      ∃ t, AddResourcesOfInterest bareIndex (.new .Patient) ["I2", "S"] = .ok t ∧
        ArchiveIndex.Expand bareIndex t =
          .mk .Patient [("P", some (.mk .Study [("T", some (.mk .Series
            [("S", some (.mk .Instance [] [⟨"I1", ⟨"I1", .Dicom, 10, .None⟩⟩]))] []))] []))]
            [] := by
  refine ⟨rfl, rfl, rfl, ?_⟩
  obtain ⟨t, _, h2, _, h4⟩ := ArchiveIndex.Add_ancestor_trees bareIndex "I2" "S"
    ⟨.Instance, "P", "T", "S", "I2"⟩ ⟨.Series, "P", "T", "S", ""⟩ rfl rfl (by decide) rfl
  refine ⟨t, h2, ?_⟩
  rw [h4 rfl]
  have hlist : instancesOf bareIndex (bareIndex.GetChildren "S") =
      [⟨"I1", ⟨"I1", .Dicom, 10, .None⟩⟩] := by decide
  rw [hlist]

/-! ## `Apply` with a visitor that may raise -/

namespace ArchiveIndex

end ArchiveIndex

end Orthanc
